import Mathlib

/-!
Verification development for the `pyseqmatcher` repository.

The repository has two source files:

* `levenshtein.py` — a generalized (weighted) sparse Levenshtein automaton
  (`SparseLevenshteinAutomaton` with `start_state`, `step`, `can_match`,
  `is_match`), a convenience `levenshtein_distance` function, and a fuzzy
  DAWG search `levenshtein_search`.
* `dawg.py` — incremental construction of a minimal acyclic word graph
  (`DawgNode`, `Dawg` with `insert`, `finish`, `_minimize`).

Everything below is a shallow embedding of that code.  Python floats used as
costs are modelled by `ℚ`; Python strings by `List Char`; the
`collections.OrderedDict` sparse states by insertion-ordered association
lists; the Python object heap of `DawgNode`s by an arena (`List DNode`)
addressed by index, the index playing the role of `DawgNode._id`.
-/

namespace PySeqMatcher

/-! ## Sparse Levenshtein states

A state of `SparseLevenshteinAutomaton` is a `collections.OrderedDict`
mapping a pattern position (an `int`, `-1` being the sentinel) to a cost.
We model it as an association list in insertion order; keys are unique for
every state the code constructs.  `setSt` models `OrderedDict.__setitem__`:
an existing key keeps its position and gets the new value, a new key is
appended at the end. -/

abbrev LevState := List (Int × ℚ)

def lookupSt (s : LevState) (k : Int) : Option ℚ :=
  (s.find? (fun p => p.1 == k)).map (fun p => p.2)

def hasKeySt (s : LevState) (k : Int) : Bool :=
  (lookupSt s k).isSome

def setSt (s : LevState) (k : Int) (v : ℚ) : LevState :=
  if hasKeySt s k then
    s.map (fun p => if p.1 == k then (k, v) else p)
  else
    s ++ [(k, v)]

/-- `self._str[i]` for the in-range indices the automaton ever uses
(`0 ≤ i < len(self._str)`); the default is irrelevant and never read on the
states arising from `start_state`/`step`. -/
def charAt (cs : List Char) (i : Int) : Char :=
  cs.getD i.toNat 'a'

/-! ## Cost functions

`SparseLevenshteinAutomaton.__init__` accepts each cost either as a function
or as a table (`dict`), wrapping a table into a lookup-with-default lambda.
We model the wrapped lambdas directly; an absent argument is the empty
table.  Note the Python conditional in the replace wrapper,
`replace_cost.get((x, y), 1) if x != y else 0`: the table is consulted only
when `x != y`, identical pairs always cost `0`. -/

def icostOfTable (tbl : List (Char × ℚ)) : Char → ℚ :=
  fun c => ((tbl.find? (fun p => p.1 == c)).map (fun p => p.2)).getD 1

def dcostOfTable (tbl : List (Char × ℚ)) : Char → ℚ :=
  fun c => ((tbl.find? (fun p => p.1 == c)).map (fun p => p.2)).getD 1

def rcostOfTable (tbl : List ((Char × Char) × ℚ)) : Char → Char → ℚ :=
  fun x y => if x ≠ y then
    ((tbl.find? (fun p => p.1 == (x, y))).map (fun p => p.2)).getD 1
  else 0

/-- The default cost functions (`insert_cost=None` etc. in Python). -/
def defaultIcost : Char → ℚ := icostOfTable []
def defaultDcost : Char → ℚ := dcostOfTable []
def defaultRcost : Char → Char → ℚ := rcostOfTable []

/-! ## The automaton -/

structure SLA where
  str : List Char
  d : ℚ
  icost : Char → ℚ
  dcost : Char → ℚ
  rcost : Char → Char → ℚ

/-- The cost-accumulating loop of `start_state`. -/
def startAux (A : SLA) : List Char → Int → ℚ → LevState
  | [], _, _ => []
  | c :: rest, i, cost =>
    let cost2 := cost + A.dcost c
    if cost2 ≤ A.d then (i, cost2) :: startAux A rest (i + 1) cost2 else []

def startState (A : SLA) : LevState :=
  (-1, 0) :: startAux A A.str 0 0

/-- The candidate cost computed by `step`'s loop body for key `idx`: the
replace cost from `state[idx]`, refined by the delete alternative when
`new_state` already holds `idx` and by the insert alternative when `state`
holds `idx + 1`. -/
def stepEntryCost (A : SLA) (c : Char) (state ns : LevState) (idx : Int) : ℚ :=
  let pc := charAt A.str (idx + 1)
  let cost0 := (lookupSt state idx).getD 0 + A.rcost c pc
  let cost1 :=
    match lookupSt ns idx with
    | some v => min (v + A.dcost pc) cost0
    | none => cost0
  match lookupSt state (idx + 1) with
  | some v => min (v + A.icost c) cost1
  | none => cost1

/-- The body of `step`'s `for i, idx in enumerate(state.keys())` loop for a
single key `idx` (`state` is the pre-step state, `ns` the `new_state` built
so far). -/
def stepEntry (A : SLA) (c : Char) (state ns : LevState) (idx : Int) : LevState :=
  if idx + 1 = (A.str.length : Int) then ns
  else if stepEntryCost A c state ns idx ≤ A.d then
    setSt ns (idx + 1) (stepEntryCost A c state ns idx)
  else ns

def stepLoop (A : SLA) (c : Char) (state : LevState) : List Int → LevState → LevState
  | [], ns => ns
  | idx :: rest, ns => stepLoop A c state rest (stepEntry A c state ns idx)

/-- `SparseLevenshteinAutomaton.step`.  The `if state:` block seeds
`new_state` from the entry at the first (insertion-order) key of `state`. -/
def step (A : SLA) (c : Char) (state : LevState) : LevState :=
  let ns : LevState :=
    match state with
    | [] => []
    | (k, v) :: _ =>
      let cost := v + A.icost c
      if cost ≤ A.d then [(k, cost)] else []
  stepLoop A c state (state.map Prod.fst) ns

def canMatch (s : LevState) : Bool :=
  !s.isEmpty

def isMatch (A : SLA) (s : LevState) : Bool :=
  decide ((lookupSt s ((A.str.length : Int) - 1)).getD (A.d + 1) ≤ A.d)

def foldSteps (A : SLA) (cs : List Char) (s : LevState) : LevState :=
  cs.foldl (fun st c => step A c st) s

/-- `levenshtein_distance`.  The Python function indexes the final state with
`state[len(from_str) - 1]`, which raises `KeyError` when the key was pruned;
we return `none` in that case. -/
def levenshteinDistance (fromStr toStr : List Char) (maxCost : ℚ)
    (ic dc : Char → ℚ) (rc : Char → Char → ℚ) : Option ℚ :=
  let A : SLA :=
    ⟨fromStr, ((fromStr.length + toStr.length : Nat) : ℚ) * maxCost, ic, dc, rc⟩
  lookupSt (foldSteps A toStr (startState A)) ((fromStr.length : Int) - 1)

/-! ## The classical weighted edit-distance dynamic programming table

This is the specification-side definition: the standard dynamic-programming
recurrence for the weighted edit distance between a prefix of the pattern
`P` and a prefix of the candidate `C`, with `dc` the cost of deleting a
pattern character, `ic` the cost of inserting a candidate character and
`rc c p` the cost of replacing candidate character `c` by pattern character
`p` (matching the argument order `self._rcost(char, self._str[idx + 1])` of
the source).  `dpRow ic dc rc P C j p` is the distance between the first `p`
characters of `P` and the first `j` characters of `C`. -/

def dpRow0 (dc : Char → ℚ) (P : List Char) : Nat → ℚ
  | 0 => 0
  | p + 1 => dpRow0 dc P p + dc (P.getD p 'a')

def dpNext (ic dc : Char → ℚ) (rc : Char → Char → ℚ) (P : List Char)
    (prev : Nat → ℚ) (b : Char) : Nat → ℚ
  | 0 => prev 0 + ic b
  | p + 1 =>
    min (prev p + rc b (P.getD p 'a'))
      (min (prev (p + 1) + ic b) (dpNext ic dc rc P prev b p + dc (P.getD p 'a')))

def dpRow (ic dc : Char → ℚ) (rc : Char → Char → ℚ) (P C : List Char) : Nat → Nat → ℚ
  | 0 => dpRow0 dc P
  | j + 1 => dpNext ic dc rc P (dpRow ic dc rc P C j) (C.getD j 'a')

/-- The classical weighted edit distance between `P` and `C`. -/
def dpDist (ic dc : Char → ℚ) (rc : Char → Char → ℚ) (P C : List Char) : ℚ :=
  dpRow ic dc rc P C C.length P.length

/-- The uniform unit costs of the classical Levenshtein distance. -/
def unitIcost : Char → ℚ := fun _ => 1
def unitDcost : Char → ℚ := fun _ => 1
def unitRcost : Char → Char → ℚ := fun x y => if x = y then 0 else 1

/-- The sum of `f` over the characters of a string. -/
def costSum (f : Char → ℚ) : List Char → ℚ
  | [] => 0
  | c :: cs => f c + costSum f cs

/-- The sparse states that `start_state`, iterated `step`s, produce. -/
inductive ReachableState (A : SLA) : LevState → Prop where
  | start : ReachableState A (startState A)
  | step (c : Char) (s : LevState) : ReachableState A s → ReachableState A (step A c s)

/-- A contiguous block of keys `a, a+1, …, a+len-1` with values `g 0, …`. -/
def rowFrom (a : Int) (g : Nat → ℚ) (len : Nat) : LevState :=
  (List.range len).map (fun (t : Nat) => (a + (t : Int), g t))

/-- The key list `a, a+1, …, a+len-1`. -/
def intsFrom (a : Int) (len : Nat) : List Int :=
  (List.range len).map (fun (t : Nat) => a + (t : Int))

/-- The complete sparse state corresponding to row `j` of the DP table. -/
def fullRow (A : SLA) (C : List Char) (j : Nat) : LevState :=
  rowFrom (-1) (fun p => dpRow A.icost A.dcost A.rcost A.str C j p) (A.str.length + 1)

/-- Soundness of a sparse state with respect to the DP table after the
candidate prefix `u` has been consumed: every stored key is at least the
sentinel `-1` and every stored cost dominates the corresponding DP value
(pruning can only drop entries or keep over-approximations, never
under-approximate). -/
def SoundSt (A : SLA) (u : List Char) (st : LevState) : Prop :=
  ∀ kv ∈ st, -1 ≤ kv.1 ∧
    dpRow A.icost A.dcost A.rcost A.str u u.length ((kv.1 + 1).toNat) ≤ kv.2

/-! ## The `dawg.py` embedding

A `DawgNode` is a record of a terminal flag and an insertion-ordered edge
dict.  Python objects live on a heap and carry a global id
(`DawgNode._next_id`); we model the heap as an arena (`List DNode`) whose
index is the id — exactly the arena representation §9 of the design notes
describes.  `__eq__`/`__hash__` compare the string signature
`final_label₁_childid₁_…`, i.e. the record (terminal flag plus ordered
(label, child-id) pairs); we compare records directly. -/

structure DNode where
  final : Bool
  edges : List (Char × Nat)
deriving DecidableEq

abbrev Heap := List DNode

/-- A freshly constructed `DawgNode()`: not final, no edges. -/
def blankNode : DNode := ⟨false, []⟩

def getNode (h : Heap) (i : Nat) : DNode := h.getD i blankNode

def setNode (h : Heap) (i : Nat) (nd : DNode) : Heap := h.set i nd

/-- `node.edges[char]` lookup (`None` when absent). -/
def lookupEdge (nd : DNode) (c : Char) : Option Nat :=
  (nd.edges.find? (fun p => p.1 == c)).map (fun p => p.2)

/-- `node.edges[char] = j`: dict assignment keeps the position of an
existing key and appends a new one. -/
def setEdge (nd : DNode) (c : Char) (j : Nat) : DNode :=
  if (lookupEdge nd c).isSome then
    ⟨nd.final, nd.edges.map (fun p => if p.1 == c then (c, j) else p)⟩
  else
    ⟨nd.final, nd.edges ++ [(c, j)]⟩

def markFinal (h : Heap) (i : Nat) : Heap :=
  setNode h i ⟨true, (getNode h i).edges⟩

structure Dawg where
  heap : Heap
  prevWord : List Char
  uncheckedNodes : List (Nat × Char × Nat)
  minimizedNodes : List Nat
deriving DecidableEq

/-- `Dawg.__init__`: a root node (id 0) and empty state. -/
def freshDawg : Dawg := ⟨[blankNode], [], [], []⟩

/-- Python string `<=`: lexicographic comparison on code points, a proper
prefix comparing smaller. -/
def strLE : List Char → List Char → Bool
  | [], _ => true
  | _ :: _, [] => false
  | a :: as, b :: bs => if a = b then strLE as bs else decide (a < b)

/-- The common-prefix loop at the top of `insert`. -/
def commonPrefixLen : List Char → List Char → Nat
  | a :: as, b :: bs => if a = b then commonPrefixLen as bs + 1 else 0
  | _, _ => 0

/-- `child in self._minimized_nodes` / `self._minimized_nodes[child]`:
the dict is keyed by the node signature, so the lookup returns the
previously interned node with the same record. -/
def findMinimized (h : Heap) (mins : List Nat) (child : Nat) : Option Nat :=
  mins.find? (fun m => getNode h m == getNode h child)

/-- One iteration of `_minimize`'s loop: process and pop the most recently
added unchecked entry. -/
def minimizeStep (d : Dawg) : Dawg :=
  match d.uncheckedNodes.getLast? with
  | none => d
  | some (parent, c, child) =>
    match findMinimized d.heap d.minimizedNodes child with
    | some m =>
      ⟨setNode d.heap parent (setEdge (getNode d.heap parent) c m),
        d.prevWord, d.uncheckedNodes.dropLast, d.minimizedNodes⟩
    | none =>
      ⟨d.heap, d.prevWord, d.uncheckedNodes.dropLast, d.minimizedNodes ++ [child]⟩

def minimizeLoop (d : Dawg) : Nat → Dawg
  | 0 => d
  | n + 1 => minimizeLoop (minimizeStep d) n

/-- `_minimize(down_to)`: process unchecked entries from the last one down
to index `down_to`. -/
def minimizeD (d : Dawg) (downTo : Nat) : Dawg :=
  minimizeLoop d (d.uncheckedNodes.length - downTo)

/-- The suffix-appending loop of `insert`: one fresh node per remaining
character; returns the builder and the id of the last chain node. -/
def addChain (d : Dawg) (node : Nat) : List Char → Dawg × Nat
  | [] => (d, node)
  | c :: rest =>
    let nid := d.heap.length
    let h1 := setNode d.heap node (setEdge (getNode d.heap node) c nid)
    addChain ⟨h1 ++ [blankNode], d.prevWord,
      d.uncheckedNodes ++ [(node, c, nid)], d.minimizedNodes⟩ nid rest

/-- The node the suffix loop of `insert` starts from: `self._root` when
`self._unchecked_nodes` is empty, else `self._unchecked_nodes[-1][2]`. -/
def chainStart (d : Dawg) : Nat :=
  match d.uncheckedNodes.getLast? with
  | none => 0
  | some e => e.2.2

/-- `Dawg.insert`; `none` models the raised ordering exception. -/
def insertD (d : Dawg) (word : List Char) : Option Dawg :=
  if strLE word d.prevWord then none
  else
    let cp := commonPrefixLen word d.prevWord
    let d1 := minimizeD d cp
    let r := addChain d1 (chainStart d1) (word.drop cp)
    some ⟨markFinal r.1.heap r.2, word, r.1.uncheckedNodes, r.1.minimizedNodes⟩

/-- `Dawg.finish`.  (`self._root.count` additionally computes and caches the
`_count` statistics; that pass mutates no terminal flag and no edge, and
nothing in the claims reads the counts, so the model does not store them.) -/
def finishD (d : Dawg) : Dawg := minimizeD d 0

/-- Insert a list of words in order (failing when any insert raises). -/
def buildPartial (ws : List (List Char)) : Option Dawg :=
  ws.foldl (fun od w => od.bind (fun d => insertD d w)) (some freshDawg)

/-- Insert a list of words in order, then `finish`. -/
def buildDawg (ws : List (List Char)) : Option Dawg :=
  (buildPartial ws).map finishD

/-! ## `levenshtein_search` -/

/-- `matched.add(new_word)` on the result set (modelled as a duplicate-free
list). -/
def addMatch (l : List (List Char)) (w : List Char) : List (List Char) :=
  if w ∈ l then l else l ++ [w]

/-- The `for char in node.edges:` body of the search loop: step the
automaton along every edge, record matches, push live branches.  The stack
top is the head of the list, so pushing with cons reproduces Python's
append-then-pop-from-the-end order. -/
def expandNode (A : SLA) (h : Heap) (word : List Char) (nodeEdges : List (Char × Nat))
    (st : LevState) (stack : List (List Char × Nat × LevState))
    (matched : List (List Char)) : List (List Char × Nat × LevState) × List (List Char) :=
  nodeEdges.foldl
    (fun acc e =>
      let newSt := step A e.1 st
      let newWord := word ++ [e.1]
      let acc1 := if isMatch A newSt && (getNode h e.2).final then
          (acc.1, addMatch acc.2 newWord) else acc
      if canMatch newSt then ((newWord, e.2, newSt) :: acc1.1, acc1.2) else acc1)
    (stack, matched)

def totalEdges (h : Heap) : Nat := (h.map (fun nd => nd.edges.length)).sum

/-- The `while stack:` loop.  The fuel argument only bounds the number of
iterations (the Python loop terminates because the visited set lets each
node be expanded at most once); `searchFuel` below always suffices. -/
def searchLoop (A : SLA) (h : Heap) :
    Nat → List (List Char × Nat × LevState) → List Nat → List (List Char) → List (List Char)
  | 0, _, _, matched => matched
  | _ + 1, [], _, matched => matched
  | fuel + 1, (word, node, st) :: stack, searched, matched =>
    if node ∈ searched then searchLoop A h fuel stack searched matched
    else
      let r := expandNode A h word (getNode h node).edges st stack matched
      searchLoop A h fuel r.1 (node :: searched) r.2

def searchFuel (h : Heap) : Nat := (h.length + 1) * (totalEdges h + 2) + 1

/-- `levenshtein_search`. -/
def levenshteinSearch (d : Dawg) (queryStr : List Char) (maxDistance : ℚ)
    (ic dc : Char → ℚ) (rc : Char → Char → ℚ) : List (List Char) :=
  let A : SLA := ⟨queryStr, maxDistance, ic, dc, rc⟩
  searchLoop A d.heap (searchFuel d.heap) [([], 0, startState A)] [] []

/-- The edge relation of the heap graph: `edgeRel h i j` iff some edge of
node `i` points to node `j`. -/
def edgeRel (h : Heap) (i j : Nat) : Prop :=
  ∃ e ∈ (getNode h i).edges, e.2 = j

/-- Acyclicity: no node reaches itself through one or more edges. -/
def AcyclicHeap (h : Heap) : Prop :=
  ∀ i, ¬ Relation.TransGen (edgeRel h) i i

/-- Following a word through the graph: `accepts h i w` iff from node `i`
the characters of `w` trace existing edges ending in a final node. -/
def accepts (h : Heap) (i : Nat) : List Char → Bool
  | [] => (getNode h i).final
  | c :: cs =>
    match lookupEdge (getNode h i) c with
    | some j => accepts h j cs
    | none => false

/-- How many characters of a word trace existing edges from node `i`. -/
def pathLen (h : Heap) (i : Nat) : List Char → Nat
  | [] => 0
  | c :: cs =>
    match lookupEdge (getNode h i) c with
    | some j => pathLen h j cs + 1
    | none => 0

/-- The node reached from `i` by following the characters of a word. -/
def followPath (h : Heap) (i : Nat) : List Char → Option Nat
  | [] => some i
  | c :: cs =>
    match lookupEdge (getNode h i) c with
    | some j => followPath h j cs
    | none => none

/-! ## The builder invariant

The nodes of the heap fall into three classes: the *interned* nodes
(members of `minimizedNodes`), which are frozen and whose edges point to
earlier-interned nodes; the *chain*: the root followed by the children of
the unchecked entries, which spell (a prefix of) the previous word; and
*dead* nodes (discarded duplicates), whose edges point to interned nodes.
-/

/-- The chain node ids: the root followed by the child of each unchecked
entry. -/
def chainSeq (d : Dawg) : List Nat :=
  0 :: d.uncheckedNodes.map (fun e => e.2.2)

/-- A non-tail chain node: its last edge is the chain edge `(ch, n)`, all
earlier edges have smaller labels (strictly ascending) and point to
interned nodes. -/
def ChainNodeOK (mins : List Nat) (nd : DNode) (ch : Char) (n : Nat) : Prop :=
  ∃ pre, nd.edges = pre ++ [(ch, n)] ∧
    (∀ e ∈ pre, e.2 ∈ mins ∧ e.1 < ch) ∧
    List.Pairwise (· < ·) (pre.map Prod.fst)

/-- The current chain tail: all edges point to interned nodes, labels are
strictly ascending, and every label is at most the next character of the
word being spelled (when there is one). -/
def TailOK (mins : List Nat) (nd : DNode) (word : List Char) : Prop :=
  (∀ e ∈ nd.edges, e.2 ∈ mins) ∧
  List.Pairwise (· < ·) (nd.edges.map Prod.fst) ∧
  (∀ e ∈ nd.edges, ∀ ch, word.head? = some ch → e.1 ≤ ch)

/-- The chain: the unchecked entries spell `word` starting at node `par`,
with the per-node edge conditions above. -/
inductive ChainLE (h : Heap) (mins : List Nat) :
    Nat → List (Nat × Char × Nat) → List Char → Prop where
  | tail (par : Nat) (word : List Char) :
      TailOK mins (getNode h par) word → ChainLE h mins par [] word
  | cons (par : Nat) (ch : Char) (n : Nat) (rest : List (Nat × Char × Nat))
      (word : List Char) :
      ChainNodeOK mins (getNode h par) ch n →
      ChainLE h mins n rest word →
      ChainLE h mins par ((par, ch, n) :: rest) (ch :: word)

/-- The builder invariant (weak form: it also holds during `_minimize`,
when the unchecked entries only cover a prefix of the previous word). -/
structure InvW (d : Dawg) : Prop where
  hroot : 0 < d.heap.length
  hchain : ChainLE d.heap d.minimizedNodes 0 d.uncheckedNodes d.prevWord
  hlen : d.uncheckedNodes.length ≤ d.prevWord.length
  hmins_lt : ∀ m ∈ d.minimizedNodes, m < d.heap.length
  hmins_closed : ∀ m ∈ d.minimizedNodes, ∀ e ∈ (getNode d.heap m).edges,
    e.2 ∈ d.minimizedNodes
  hmins_topo : ∀ m ∈ d.minimizedNodes, ∀ e ∈ (getNode d.heap m).edges,
    d.minimizedNodes.indexOf e.2 < d.minimizedNodes.indexOf m
  hmins_labels : ∀ m ∈ d.minimizedNodes,
    List.Pairwise (· < ·) ((getNode d.heap m).edges.map Prod.fst)
  hmins_nodup : d.minimizedNodes.Nodup
  hchain_lt : ∀ n ∈ chainSeq d, n < d.heap.length
  hchain_nodup : (chainSeq d).Nodup
  hchain_disj : ∀ n ∈ chainSeq d, n ∉ d.minimizedNodes
  hdead : ∀ i, i < d.heap.length → i ∉ chainSeq d → i ∉ d.minimizedNodes →
    ∀ e ∈ (getNode d.heap i).edges, e.2 ∈ d.minimizedNodes

/-- The builder invariant between operations: additionally the chain covers
the whole previous word and its tail node (the end of the previous word)
has no outgoing edges yet. -/
structure Inv (d : Dawg) extends InvW d : Prop where
  hfull : d.uncheckedNodes.length = d.prevWord.length
  htail : (getNode d.heap ((chainSeq d).getLast (by simp [chainSeq]))).edges = []

/-- A rank certifying acyclicity of a builder state: interned nodes are
ranked by interning order, chain nodes by their distance from the chain
head, dead nodes above everything. -/
def rankD (d : Dawg) (x : Nat) : Nat :=
  if x ∈ d.minimizedNodes then d.minimizedNodes.indexOf x
  else if x ∈ chainSeq d then
    d.minimizedNodes.length + ((chainSeq d).length - (chainSeq d).indexOf x)
  else d.minimizedNodes.length + (chainSeq d).length + 1

/-! ## Association-list lemmas for sparse states -/

theorem lookupSt_nil (k : Int) : lookupSt [] k = none := rfl

theorem lookupSt_cons (a : Int) (v : ℚ) (s : LevState) (k : Int) :
    lookupSt ((a, v) :: s) k = if a = k then some v else lookupSt s k := by
  by_cases h : a = k
  · subst h
    simp [lookupSt, List.find?]
  · have hb : (a == k) = false := beq_eq_false_iff_ne.mpr h
    simp [lookupSt, List.find?, hb, h]

theorem rowFrom_zero (a : Int) (g : Nat → ℚ) : rowFrom a g 0 = [] := rfl

theorem rowFrom_succ_cons (a : Int) (g : Nat → ℚ) (len : Nat) :
    rowFrom a g (len + 1) = (a, g 0) :: rowFrom (a + 1) (fun t => g (t + 1)) len := by
  simp only [rowFrom, List.range_succ_eq_map, List.map_cons, List.map_map, Nat.cast_zero,
    add_zero]
  congr 1
  apply List.map_congr_left
  intro t _
  simp only [Function.comp_apply, Prod.mk.injEq]
  exact ⟨by push_cast; ring, trivial⟩

theorem rowFrom_succ_append (a : Int) (g : Nat → ℚ) (len : Nat) :
    rowFrom a g (len + 1) = rowFrom a g len ++ [(a + len, g len)] := by
  simp [rowFrom, List.range_succ]

theorem lookupSt_rowFrom (a : Int) (g : Nat → ℚ) (len : Nat) (k : Int) :
    lookupSt (rowFrom a g len) k =
      if a ≤ k ∧ k < a + len then some (g (k - a).toNat) else none := by
  induction len generalizing a g with
  | zero =>
    rw [rowFrom_zero, lookupSt_nil, if_neg]
    omega
  | succ n ih =>
    rw [rowFrom_succ_cons, lookupSt_cons]
    by_cases hk : a = k
    · subst hk
      rw [if_pos rfl, if_pos (by omega)]
      simp
    · rw [if_neg hk, ih]
      by_cases h2 : a + 1 ≤ k ∧ k < a + 1 + n
      · rw [if_pos h2, if_pos (by omega)]
        have : (k - (a + 1)).toNat + 1 = (k - a).toNat := by omega
        rw [← this]
      · rw [if_neg h2, if_neg (by omega)]

theorem keys_rowFrom (a : Int) (g : Nat → ℚ) (len : Nat) :
    (rowFrom a g len).map Prod.fst = (List.range len).map (fun (t : Nat) => a + (t : Int)) := by
  simp only [rowFrom, List.map_map]
  rfl

theorem intsFrom_succ (a : Int) (len : Nat) :
    intsFrom a (len + 1) = a :: intsFrom (a + 1) len := by
  simp only [intsFrom, List.range_succ_eq_map, List.map_cons, List.map_map, Nat.cast_zero,
    add_zero]
  congr 1
  apply List.map_congr_left
  intro t _
  simp only [Function.comp_apply]
  push_cast
  ring

theorem hasKeySt_rowFrom_false (a : Int) (g : Nat → ℚ) (len : Nat) (k : Int)
    (h : ¬(a ≤ k ∧ k < a + len)) : hasKeySt (rowFrom a g len) k = false := by
  rw [hasKeySt, lookupSt_rowFrom, if_neg h]
  rfl

theorem setSt_append (s : LevState) (k : Int) (v : ℚ) (h : hasKeySt s k = false) :
    setSt s k v = s ++ [(k, v)] := by
  simp [setSt, h]

theorem rowFrom_congr {a a' : Int} {g g' : Nat → ℚ} {len : Nat} (ha : a = a')
    (hg : ∀ t, g t = g' t) : rowFrom a g len = rowFrom a' g' len := by
  subst ha
  congr 1
  funext t
  exact hg t

/-! ## The no-pruning invariant

When every value of the dynamic-programming table is within the budget,
the sparse state after consuming the first `j` candidate characters is the
complete `j`-th row of the table: the block of keys `-1, 0, …, len(str)-1`
holding `dpRow … j 0, …, dpRow … j len(str)`. -/

theorem startAux_eq (A : SLA)
    (hb : ∀ p, p ≤ A.str.length → dpRow0 A.dcost A.str p ≤ A.d) :
    ∀ n m, m + n = A.str.length →
      startAux A (A.str.drop m) m (dpRow0 A.dcost A.str m) =
        rowFrom (m : Int) (fun t => dpRow0 A.dcost A.str (m + t + 1)) n := by
  intro n
  induction n with
  | zero =>
    intro m hm
    rw [List.drop_eq_nil_of_le (by omega), rowFrom_zero]
    rfl
  | succ n ih =>
    intro m hm
    have hm1 : m < A.str.length := by omega
    rw [List.drop_eq_getElem_cons hm1]
    show (if dpRow0 A.dcost A.str m + A.dcost A.str[m] ≤ A.d then
        ((m : Int), dpRow0 A.dcost A.str m + A.dcost A.str[m]) ::
          startAux A (A.str.drop (m + 1)) ((m : Int) + 1)
            (dpRow0 A.dcost A.str m + A.dcost A.str[m])
      else []) = _
    have hgd : A.str.getD m 'a' = A.str[m] := List.getD_eq_getElem A.str 'a' hm1
    have hrow : dpRow0 A.dcost A.str m + A.dcost A.str[m] = dpRow0 A.dcost A.str (m + 1) := by
      show _ = dpRow0 A.dcost A.str m + A.dcost (A.str.getD m 'a')
      rw [hgd]
    rw [hrow, if_pos (hb (m + 1) (by omega))]
    have hcast : (m : Int) + 1 = ((m + 1 : Nat) : Int) := by push_cast; ring
    rw [hcast, ih (m + 1) (by omega)]
    rw [rowFrom_succ_cons]
    refine congrArg₂ List.cons (by norm_num) ?_
    refine rowFrom_congr (by push_cast; ring) (fun t => ?_)
    congr 1
    omega

theorem startState_eq (A : SLA) (C : List Char)
    (hb : ∀ p, p ≤ A.str.length → dpRow0 A.dcost A.str p ≤ A.d) :
    startState A = fullRow A C 0 := by
  unfold startState fullRow
  rw [rowFrom_succ_cons]
  have h0 : startAux A A.str 0 0 =
      startAux A (A.str.drop 0) (((0 : Nat) : Int)) (dpRow0 A.dcost A.str 0) := by
    rw [List.drop_zero]
    rfl
  rw [h0, startAux_eq A hb A.str.length 0 (by omega)]
  refine congrArg₂ List.cons rfl ?_
  refine rowFrom_congr (by simp) (fun t => ?_)
  show dpRow0 A.dcost A.str (0 + t + 1) = dpRow0 A.dcost A.str (t + 1)
  congr 1
  omega

theorem stepLoop_inv (A : SLA) (C : List Char) (j : Nat)
    (hb : ∀ p, p ≤ A.str.length →
      dpRow A.icost A.dcost A.rcost A.str C (j + 1) p ≤ A.d) :
    ∀ r t, t + r = A.str.length + 1 → t ≤ A.str.length →
      stepLoop A (C.getD j 'a') (fullRow A C j) (intsFrom ((t : Int) - 1) r)
        (rowFrom (-1) (fun p => dpRow A.icost A.dcost A.rcost A.str C (j + 1) p) (t + 1)) =
      fullRow A C (j + 1) := by
  intro r
  induction r with
  | zero => intro t h1 h2; omega
  | succ r ih =>
    intro t h1 h2
    rw [intsFrom_succ, stepLoop]
    by_cases ht : t = A.str.length
    · -- last key: idx + 1 = len(str), the loop body skips it
      subst ht
      have hr : r = 0 := by omega
      subst hr
      rw [stepEntry, if_pos (by ring)]
      show stepLoop _ _ _ (intsFrom _ 0) _ = _
      rw [show intsFrom ((A.str.length : Int) - 1 + 1) 0 = [] from rfl, stepLoop]
      rfl
    · -- interior key t - 1, targeting position t
      have htlt : t < A.str.length := by omega
      rw [stepEntry, if_neg (by omega)]
      have hidx : ((t : Int) - 1) + 1 = (t : Int) := by ring
      have hchar : charAt A.str ((t : Int) - 1 + 1) = A.str.getD t 'a' := by
        rw [hidx]; simp [charAt]
      have hlook0 : lookupSt (fullRow A C j) ((t : Int) - 1) =
          some (dpRow A.icost A.dcost A.rcost A.str C j t) := by
        rw [fullRow, lookupSt_rowFrom, if_pos (by constructor <;> omega)]
        congr 1
        congr 1
        omega
      have hlookns : lookupSt
          (rowFrom (-1) (fun p => dpRow A.icost A.dcost A.rcost A.str C (j + 1) p) (t + 1))
          ((t : Int) - 1) =
          some (dpRow A.icost A.dcost A.rcost A.str C (j + 1) t) := by
        rw [lookupSt_rowFrom, if_pos (by constructor <;> omega)]
        congr 1
        congr 1
        omega
      have hlook1 : lookupSt (fullRow A C j) ((t : Int) - 1 + 1) =
          some (dpRow A.icost A.dcost A.rcost A.str C j (t + 1)) := by
        rw [hidx, fullRow, lookupSt_rowFrom, if_pos (by constructor <;> omega)]
        congr 1
      have hrec : min (dpRow A.icost A.dcost A.rcost A.str C j (t + 1) +
              A.icost (C.getD j 'a'))
            (min (dpRow A.icost A.dcost A.rcost A.str C (j + 1) t +
                A.dcost (A.str.getD t 'a'))
              (dpRow A.icost A.dcost A.rcost A.str C j t +
                A.rcost (C.getD j 'a') (A.str.getD t 'a'))) =
          dpRow A.icost A.dcost A.rcost A.str C (j + 1) (t + 1) := by
        show _ = dpNext A.icost A.dcost A.rcost A.str
          (dpRow A.icost A.dcost A.rcost A.str C j) (C.getD j 'a') (t + 1)
        rw [dpNext]
        rw [min_comm (dpRow A.icost A.dcost A.rcost A.str C (j + 1) t +
            A.dcost (A.str.getD t 'a'))]
        rw [min_left_comm]
        rfl
      have hcost : stepEntryCost A (C.getD j 'a') (fullRow A C j)
          (rowFrom (-1) (fun p => dpRow A.icost A.dcost A.rcost A.str C (j + 1) p) (t + 1))
          ((t : Int) - 1) =
          dpRow A.icost A.dcost A.rcost A.str C (j + 1) (t + 1) := by
        rw [stepEntryCost, hchar, hlook0, hlookns, hlook1]
        show min (dpRow A.icost A.dcost A.rcost A.str C j (t + 1) + A.icost (C.getD j 'a'))
            (min (dpRow A.icost A.dcost A.rcost A.str C (j + 1) t +
                A.dcost (A.str.getD t 'a'))
              (dpRow A.icost A.dcost A.rcost A.str C j t +
                A.rcost (C.getD j 'a') (A.str.getD t 'a'))) = _
        exact hrec
      rw [hcost, if_pos (hb (t + 1) (by omega))]
      have hset : setSt
          (rowFrom (-1) (fun p => dpRow A.icost A.dcost A.rcost A.str C (j + 1) p) (t + 1))
          ((t : Int) - 1 + 1) (dpRow A.icost A.dcost A.rcost A.str C (j + 1) (t + 1)) =
          rowFrom (-1) (fun p => dpRow A.icost A.dcost A.rcost A.str C (j + 1) p) (t + 1 + 1) := by
        have hkey : hasKeySt
            (rowFrom (-1) (fun p => dpRow A.icost A.dcost A.rcost A.str C (j + 1) p) (t + 1))
            ((t : Int) - 1 + 1) = false :=
          hasKeySt_rowFrom_false _ _ _ _ (by omega)
        have hk2 : ((t : Int) - 1 + 1) = -1 + ((t + 1 : Nat) : Int) := by push_cast; ring
        rw [setSt_append _ _ _ hkey, hk2]
        conv_rhs => rw [rowFrom_succ_append]
      rw [hset]
      have hcast2 : (t : Int) - 1 + 1 = ((t + 1 : Nat) : Int) - 1 := by push_cast; ring
      rw [hcast2, ih (t + 1) (by omega) (by omega)]

/-- `step` maps the complete row `j` to the complete row `j+1`, provided no
entry of row `j+1` exceeds the budget. -/
theorem step_fullRow (A : SLA) (C : List Char) (j : Nat)
    (hb : ∀ p, p ≤ A.str.length →
      dpRow A.icost A.dcost A.rcost A.str C (j + 1) p ≤ A.d) :
    step A (C.getD j 'a') (fullRow A C j) = fullRow A C (j + 1) := by
  have hcons := rowFrom_succ_cons (-1)
    (fun p => dpRow A.icost A.dcost A.rcost A.str C j p) A.str.length
  rw [show fullRow A C j =
    rowFrom (-1) (fun p => dpRow A.icost A.dcost A.rcost A.str C j p)
      (A.str.length + 1) from rfl]
  rw [hcons, step]
  show stepLoop _ _ _ _
      (if dpRow A.icost A.dcost A.rcost A.str C j 0 + A.icost (C.getD j 'a') ≤ A.d then
        [(-1, dpRow A.icost A.dcost A.rcost A.str C j 0 + A.icost (C.getD j 'a'))]
      else []) = _
  have h0 : dpRow A.icost A.dcost A.rcost A.str C j 0 + A.icost (C.getD j 'a') =
      dpRow A.icost A.dcost A.rcost A.str C (j + 1) 0 := rfl
  rw [h0, if_pos (hb 0 (by omega)), ← hcons]
  have hkeys : ((rowFrom (-1) (fun p => dpRow A.icost A.dcost A.rcost A.str C j p)
      (A.str.length + 1)).map Prod.fst) = intsFrom (((0 : Nat) : Int) - 1) (A.str.length + 1) := by
    rw [keys_rowFrom]
    simp [intsFrom]
  rw [hkeys]
  have hns : [((-1 : Int), dpRow A.icost A.dcost A.rcost A.str C (j + 1) 0)] =
      rowFrom (-1) (fun p => dpRow A.icost A.dcost A.rcost A.str C (j + 1) p) (0 + 1) := by
    rw [rowFrom_succ_cons, rowFrom_zero]
  rw [hns]
  exact stepLoop_inv A C j hb (A.str.length + 1) 0 (by omega) (by omega)

theorem foldSteps_fullRow (A : SLA) (C : List Char)
    (hb : ∀ j, j ≤ C.length → ∀ p, p ≤ A.str.length →
      dpRow A.icost A.dcost A.rcost A.str C j p ≤ A.d) :
    ∀ r j, j + r = C.length →
      foldSteps A (C.drop j) (fullRow A C j) = fullRow A C C.length := by
  intro r
  induction r with
  | zero =>
    intro j hj
    rw [List.drop_eq_nil_of_le (by omega)]
    show fullRow A C j = _
    have hj2 : j = C.length := by omega
    rw [hj2]
  | succ r ih =>
    intro j hj
    have hjl : j < C.length := by omega
    rw [List.drop_eq_getElem_cons hjl]
    show foldSteps A (C.drop (j + 1)) (step A C[j] (fullRow A C j)) = _
    have hgd : C[j] = C.getD j 'a' := (List.getD_eq_getElem C 'a' hjl).symm
    rw [hgd, step_fullRow A C j (fun p hp => hb (j + 1) (by omega) p hp)]
    exact ih (j + 1) (by omega)

/-- The central exactness result: whenever every DP value is within the
budget, the automaton run over the whole candidate produces exactly the
final DP row. -/
theorem foldSteps_startState (A : SLA) (C : List Char)
    (hb : ∀ j, j ≤ C.length → ∀ p, p ≤ A.str.length →
      dpRow A.icost A.dcost A.rcost A.str C j p ≤ A.d) :
    foldSteps A C (startState A) = fullRow A C C.length := by
  rw [startState_eq A C (fun p hp => hb 0 (by omega) p hp)]
  have := foldSteps_fullRow A C hb C.length 0 (by omega)
  rw [List.drop_zero] at this
  exact this

/-! ## Cost bounds -/

/-- When every single-operation cost is at most `M`, the DP value for
prefixes of lengths `p` and `j` is at most `(p + j) · M`. -/
theorem dpRow_le_bound (ic dc : Char → ℚ) (rc : Char → Char → ℚ) (P C : List Char)
    (M : ℚ) (hic : ∀ c, ic c ≤ M) (hdc : ∀ c, dc c ≤ M) (hrc : ∀ x y, rc x y ≤ M) :
    ∀ j p, dpRow ic dc rc P C j p ≤ ((p : ℚ) + (j : ℚ)) * M := by
  intro j
  induction j with
  | zero =>
    intro p
    induction p with
    | zero => simp [dpRow, dpRow0]
    | succ p ihp =>
      show dpRow0 dc P p + dc (P.getD p 'a') ≤ _
      have h1 := hdc (P.getD p 'a')
      have h2 : dpRow0 dc P p ≤ ((p : ℚ) + ((0 : Nat) : ℚ)) * M := ihp
      push_cast at h2 ⊢
      linarith
  | succ j ihj =>
    intro p
    induction p with
    | zero =>
      show dpRow ic dc rc P C j 0 + ic (C.getD j 'a') ≤ _
      have h1 := hic (C.getD j 'a')
      have h2 := ihj 0
      push_cast at h2 ⊢
      linarith
    | succ p ihp =>
      show min (dpRow ic dc rc P C j p + rc (C.getD j 'a') (P.getD p 'a'))
          (min (dpRow ic dc rc P C j (p + 1) + ic (C.getD j 'a'))
            (dpRow ic dc rc P C (j + 1) p + dc (P.getD p 'a'))) ≤ _
      have h1 := hic (C.getD j 'a')
      have h2 := ihj (p + 1)
      have h3 : min (dpRow ic dc rc P C j (p + 1) + ic (C.getD j 'a'))
          (dpRow ic dc rc P C (j + 1) p + dc (P.getD p 'a')) ≤
          dpRow ic dc rc P C j (p + 1) + ic (C.getD j 'a') := min_le_left _ _
      have h4 : min (dpRow ic dc rc P C j p + rc (C.getD j 'a') (P.getD p 'a'))
          (min (dpRow ic dc rc P C j (p + 1) + ic (C.getD j 'a'))
            (dpRow ic dc rc P C (j + 1) p + dc (P.getD p 'a'))) ≤
          dpRow ic dc rc P C j (p + 1) + ic (C.getD j 'a') :=
        le_trans (min_le_right _ _) h3
      push_cast at h2 ⊢
      linarith

/-- The convenience distance function computes exactly the classical DP
distance whenever every single-operation cost is at most `1` (the default
`max_cost`): the budget `(len(A)+len(B))·1` then prunes nothing. -/
theorem levenshteinDistance_eq_dpDist (P C : List Char) (ic dc : Char → ℚ)
    (rc : Char → Char → ℚ)
    (hic : ∀ c, ic c ≤ 1) (hdc : ∀ c, dc c ≤ 1) (hrc : ∀ x y, rc x y ≤ 1) :
    levenshteinDistance P C 1 ic dc rc = some (dpDist ic dc rc P C) := by
  have hzeta : levenshteinDistance P C 1 ic dc rc =
      lookupSt (foldSteps ⟨P, ((P.length + C.length : Nat) : ℚ) * 1, ic, dc, rc⟩ C
        (startState ⟨P, ((P.length + C.length : Nat) : ℚ) * 1, ic, dc, rc⟩))
        ((P.length : Int) - 1) := rfl
  rw [hzeta]
  have hb : ∀ j, j ≤ C.length → ∀ p, p ≤ P.length →
      dpRow ic dc rc P C j p ≤ ((P.length + C.length : Nat) : ℚ) * 1 := by
    intro j hj p hp
    refine le_trans (dpRow_le_bound ic dc rc P C 1 hic hdc hrc j p) ?_
    have h1 : (p : ℚ) ≤ (P.length : ℚ) := by exact_mod_cast hp
    have h2 : (j : ℚ) ≤ (C.length : ℚ) := by exact_mod_cast hj
    push_cast
    linarith
  have hfold := foldSteps_startState ⟨P, ((P.length + C.length : Nat) : ℚ) * 1, ic, dc, rc⟩ C hb
  rw [hfold]
  show lookupSt (rowFrom (-1) _ (P.length + 1)) _ = _
  rw [lookupSt_rowFrom, if_pos (by constructor <;> omega)]
  show some (dpRow ic dc rc P C C.length (((P.length : Int) - 1 - (-1)).toNat)) = _
  have ht : (((P.length : Int) - 1 - (-1)).toNat) = P.length := by omega
  rw [ht]
  rfl

theorem defaultIcost_eq_unit : defaultIcost = unitIcost := by
  funext c
  rfl

theorem defaultDcost_eq_unit : defaultDcost = unitDcost := by
  funext c
  rfl

theorem defaultRcost_eq_unit : defaultRcost = unitRcost := by
  funext x y
  by_cases h : x = y <;> simp [defaultRcost, rcostOfTable, unitRcost, h]

theorem unit_costs_le_one :
    (∀ c, unitIcost c ≤ 1) ∧ (∀ c, unitDcost c ≤ 1) ∧ (∀ x y, unitRcost x y ≤ 1) := by
  refine ⟨fun c => le_refl 1, fun c => le_refl 1, fun x y => ?_⟩
  by_cases h : x = y <;> simp [unitRcost, h]

/-- C2.  For every pair of strings and the default costs, the sparse
automaton distance equals the classical unit-cost edit-distance DP value. -/
theorem levenshtein_distance_classical (A B : List Char) :
    levenshteinDistance A B 1 defaultIcost defaultDcost defaultRcost =
      some (dpDist unitIcost unitDcost unitRcost A B) := by
  rw [defaultIcost_eq_unit, defaultDcost_eq_unit, defaultRcost_eq_unit]
  exact levenshteinDistance_eq_dpDist A B unitIcost unitDcost unitRcost
    unit_costs_le_one.1 unit_costs_le_one.2.1 unit_costs_le_one.2.2

/-! ## Symmetry of the DP distance under symmetric costs -/

theorem dpRow_transpose (ic dc : Char → ℚ) (rc : Char → Char → ℚ)
    (hsym1 : ∀ c, ic c = dc c) (hsym2 : ∀ x y, rc x y = rc y x) (P C : List Char) :
    ∀ j p, dpRow ic dc rc P C j p = dpRow ic dc rc C P p j := by
  intro j
  induction j with
  | zero =>
    intro p
    induction p with
    | zero => rfl
    | succ p ihp =>
      show dpRow0 dc P p + dc (P.getD p 'a') =
        dpRow ic dc rc C P p 0 + ic (P.getD p 'a')
      rw [← ihp, hsym1]
      rfl
  | succ j ihj =>
    intro p
    induction p with
    | zero =>
      show dpRow ic dc rc P C j 0 + ic (C.getD j 'a') =
        dpRow ic dc rc C P 0 j + dc (C.getD j 'a')
      rw [ihj 0, hsym1]
    | succ p ihp =>
      show min (dpRow ic dc rc P C j p + rc (C.getD j 'a') (P.getD p 'a'))
          (min (dpRow ic dc rc P C j (p + 1) + ic (C.getD j 'a'))
            (dpRow ic dc rc P C (j + 1) p + dc (P.getD p 'a'))) =
        min (dpRow ic dc rc C P p j + rc (P.getD p 'a') (C.getD j 'a'))
          (min (dpRow ic dc rc C P p (j + 1) + ic (P.getD p 'a'))
            (dpRow ic dc rc C P (p + 1) j + dc (C.getD j 'a')))
      rw [ihj p, ihj (p + 1), ihp, hsym2 (C.getD j 'a') (P.getD p 'a'),
        hsym1 (C.getD j 'a'), ← hsym1 (P.getD p 'a')]
      rw [min_comm (dpRow ic dc rc C P (p + 1) j + dc (C.getD j 'a'))
        (dpRow ic dc rc C P p (j + 1) + ic (P.getD p 'a'))]

/-- C8 counterexample data.  The insert and delete tables are literally the
same table `{a: 5, b: 2}` and the replace table is empty (the default, and
symmetric), yet `distance("a","ab") = 2` while `distance("ab","a")` raises
`KeyError`: the cost 5 exceeds the pruning budget `3·max_cost` on one side
only. -/
theorem levenshtein_distance_symm_counterexample :
    icostOfTable [('a', 5), ('b', 2)] = dcostOfTable [('a', 5), ('b', 2)] ∧
    levenshteinDistance ['a'] ['a', 'b'] 1 (icostOfTable [('a', 5), ('b', 2)])
      (dcostOfTable [('a', 5), ('b', 2)]) defaultRcost = some 2 ∧
    levenshteinDistance ['a', 'b'] ['a'] 1 (icostOfTable [('a', 5), ('b', 2)])
      (dcostOfTable [('a', 5), ('b', 2)]) defaultRcost = none := by
  refine ⟨rfl, ?_, ?_⟩ <;> with_unfolding_all decide

/-- C8, amended: symmetry of the distance additionally needs every cost
value to stay within `max_cost = 1`, so that the pruning budget
`(len(A)+len(B))·max_cost` discards nothing on either side. -/
theorem levenshtein_distance_symm (A B : List Char) (ic dc : Char → ℚ)
    (rc : Char → Char → ℚ)
    (hsym1 : ∀ c, ic c = dc c) (hsym2 : ∀ x y, rc x y = rc y x)
    (hic : ∀ c, ic c ≤ 1) (hrc : ∀ x y, rc x y ≤ 1) :
    levenshteinDistance A B 1 ic dc rc = levenshteinDistance B A 1 ic dc rc := by
  have hdc : ∀ c, dc c ≤ 1 := fun c => (hsym1 c) ▸ hic c
  rw [levenshteinDistance_eq_dpDist A B ic dc rc hic hdc hrc,
    levenshteinDistance_eq_dpDist B A ic dc rc hic hdc hrc]
  exact congrArg some (dpRow_transpose ic dc rc hsym1 hsym2 A B B.length A.length)

theorem defaultRcost_symm (x y : Char) : defaultRcost x y = defaultRcost y x := by
  rw [defaultRcost_eq_unit]
  unfold unitRcost
  by_cases h : x = y
  · rw [if_pos h, if_pos h.symm]
  · rw [if_neg h, if_neg (fun hh => h hh.symm)]

/-- C8 witness: the defaults are symmetric unit costs, and for them the
distance is symmetric on the concrete pair `("ab", "b")`. -/
theorem levenshtein_distance_symm_witness :
    levenshteinDistance ['a', 'b'] ['b'] 1 defaultIcost defaultDcost defaultRcost =
      levenshteinDistance ['b'] ['a', 'b'] 1 defaultIcost defaultDcost defaultRcost :=
  levenshtein_distance_symm ['a', 'b'] ['b'] defaultIcost defaultDcost defaultRcost
    (fun _ => rfl) defaultRcost_symm
    (fun c => by rw [defaultIcost_eq_unit]; exact le_refl 1)
    (fun x y => by
      rw [defaultRcost_eq_unit]
      unfold unitRcost
      by_cases h : x = y
      · rw [if_pos h]; norm_num
      · rw [if_neg h])

/-! ## The distance from the empty pattern -/

theorem costSum_nonneg (f : Char → ℚ) (hf : ∀ c, 0 ≤ f c) :
    ∀ S : List Char, 0 ≤ costSum f S := by
  intro S
  induction S with
  | nil => exact le_refl 0
  | cons c rest ih =>
    rw [costSum]
    have := hf c
    linarith

theorem costSum_default (S : List Char) : costSum defaultIcost S = (S.length : ℚ) := by
  induction S with
  | nil => rfl
  | cons c rest ih =>
    rw [costSum, ih]
    show 1 + (rest.length : ℚ) = ((rest.length + 1 : Nat) : ℚ)
    push_cast
    ring

/-- Stepping the automaton of the empty pattern: each candidate character
only exercises the insertion branch (the position loop skips its single
key, since `idx + 1 = 0 = len(str)`), so the sole entry accumulates
insertion costs while it stays within budget. -/
theorem foldSteps_nil_str (A : SLA) (hA : A.str = []) (hpos : ∀ c, 0 ≤ A.icost c) :
    ∀ (S : List Char) (acc : ℚ), acc + costSum A.icost S ≤ A.d →
      foldSteps A S [(-1, acc)] = [(-1, acc + costSum A.icost S)] := by
  intro S
  induction S with
  | nil =>
    intro acc h
    show [((-1 : Int), acc)] = _
    rw [costSum]
    norm_num
  | cons c rest ih =>
    intro acc h
    have hnn : 0 ≤ costSum A.icost rest := costSum_nonneg A.icost hpos rest
    have hics := hpos c
    rw [costSum] at h
    have hle : acc + A.icost c ≤ A.d := by linarith
    have hstep : step A c [(-1, acc)] = [(-1, acc + A.icost c)] := by
      show stepLoop A c [(-1, acc)] [-1]
        (if acc + A.icost c ≤ A.d then [(-1, acc + A.icost c)] else []) = _
      rw [if_pos hle, stepLoop, stepEntry, if_pos (by rw [hA]; norm_num), stepLoop]
    show foldSteps A rest (step A c [(-1, acc)]) = _
    rw [hstep, ih (acc + A.icost c) (by linarith), costSum]
    have : acc + A.icost c + costSum A.icost rest =
        acc + (A.icost c + costSum A.icost rest) := by ring
    rw [this]

/-- C5 counterexample: `distance("", "a")` with deletion table `{a: 5}` is
1 (the default insertion cost of `'a'`), not 5 (the sum of the deletion
costs of the characters of `"a"`). -/
theorem levenshtein_distance_empty_counterexample :
    levenshteinDistance [] ['a'] 1 defaultIcost (dcostOfTable [('a', 5)]) defaultRcost =
      some 1 ∧
    costSum (dcostOfTable [('a', 5)]) ['a'] = 5 := by
  constructor
  · with_unfolding_all decide
  · with_unfolding_all decide

/-- C5, amended: `distance("", S)` is the sum of the *insertion* costs of
the characters of S — provided that sum stays within the pruning budget
`len(S)·max_cost` — and under the default costs that sum is `len(S)`. -/
theorem levenshtein_distance_empty (S : List Char) (ic dc : Char → ℚ)
    (rc : Char → Char → ℚ) (hpos : ∀ c, 0 ≤ ic c)
    (hsum : costSum ic S ≤ (S.length : ℚ)) :
    levenshteinDistance [] S 1 ic dc rc = some (costSum ic S) ∧
    costSum defaultIcost S = (S.length : ℚ) := by
  refine ⟨?_, costSum_default S⟩
  have hzeta : levenshteinDistance [] S 1 ic dc rc =
      lookupSt (foldSteps ⟨[], ((([] : List Char).length + S.length : Nat) : ℚ) * 1, ic, dc, rc⟩
        S (startState ⟨[], ((([] : List Char).length + S.length : Nat) : ℚ) * 1, ic, dc, rc⟩))
        ((([] : List Char).length : Int) - 1) := rfl
  rw [hzeta]
  have hstart : startState
      ⟨[], ((([] : List Char).length + S.length : Nat) : ℚ) * 1, ic, dc, rc⟩ =
      [(-1, (0 : ℚ))] := rfl
  rw [hstart]
  have hbud : (0 : ℚ) + costSum ic S ≤ ((([] : List Char).length + S.length : Nat) : ℚ) * 1 := by
    push_cast
    simpa using hsum
  rw [foldSteps_nil_str _ rfl hpos S 0 hbud]
  show (if (-1 : Int) = (([] : List Char).length : Int) - 1 then
    some ((0 : ℚ) + costSum ic S) else lookupSt [] ((([] : List Char).length : Int) - 1)) = _
  rw [if_pos (by norm_num)]
  rw [zero_add]

/-- C5 witness: the concrete instance `distance("", "ab")` under default
costs. -/
theorem levenshtein_distance_empty_witness :
    levenshteinDistance [] ['a', 'b'] 1 defaultIcost defaultDcost defaultRcost =
      some (costSum defaultIcost ['a', 'b']) ∧
    costSum defaultIcost ['a', 'b'] = ((['a', 'b'] : List Char).length : ℚ) :=
  levenshtein_distance_empty ['a', 'b'] defaultIcost defaultDcost defaultRcost
    (fun c => by norm_num [defaultIcost, icostOfTable])
    (by with_unfolding_all decide)

/-! ## The replace-cost table adapter -/

theorem find?_map_eq_lookup (tbl : List ((Char × Char) × ℚ)) (k : Char × Char) :
    ((tbl.find? (fun p => p.1 == k)).map (fun p => p.2)) = tbl.lookup k := by
  induction tbl with
  | nil => rfl
  | cons hd tl ih =>
    obtain ⟨k', v⟩ := hd
    by_cases h : k' = k
    · subst h
      show ((List.find? _ ((k', v) :: tl)).map _) = _
      rw [List.find?]
      have hb : (k' == k') = true := beq_self_eq_true k'
      show (Option.map _ (match (k', v).1 == k' with
        | true => some (k', v) | false => List.find? _ tl)) = _
      rw [show ((k', v).1 == k') = true from hb]
      show some v = List.lookup k' ((k', v) :: tl)
      rw [List.lookup]
      rw [show (k' == k') = true from hb]
    · have hb : (k' == k) = false := beq_eq_false_iff_ne.mpr h
      have hb2 : (k == k') = false := beq_eq_false_iff_ne.mpr (fun hh => h hh.symm)
      show (Option.map _ (match (k', v).1 == k with
        | true => some (k', v) | false => List.find? _ tl)) = _
      rw [show ((k', v).1 == k) = false from hb]
      rw [List.lookup, hb2]
      exact ih

/-- C6 counterexample: the pair `('a','a')` is present in the table with
weight 5, but the adapter returns 0 — the Python conditional
`replace_cost.get((x, y), 1) if x != y else 0` never consults the table
for an identical pair. -/
theorem rcost_table_identical_counterexample :
    List.lookup ('a', 'a') [(('a', 'a'), (5 : ℚ))] = some 5 ∧
    rcostOfTable [(('a', 'a'), 5)] 'a' 'a' = 0 := by
  constructor
  · rfl
  · rfl

/-- C6, amended: the adapted replace-cost function consults the table only
for distinct characters (with default 1), and returns 0 for an identical
pair regardless of the table. -/
theorem rcost_table_spec (tbl : List ((Char × Char) × ℚ)) (x y : Char) :
    rcostOfTable tbl x y = if x = y then 0 else (tbl.lookup (x, y)).getD 1 := by
  by_cases h : x = y
  · rw [if_pos h]
    unfold rcostOfTable
    rw [if_neg (by simpa using h)]
  · rw [if_neg h]
    unfold rcostOfTable
    rw [if_pos (by simpa using h), find?_map_eq_lookup]

/-! ## Ordering invariant of sparse states -/

theorem lookupSt_eq_none_of_forall (s : LevState) (k : Int) (h : ∀ kv ∈ s, kv.1 ≠ k) :
    lookupSt s k = none := by
  have hf : s.find? (fun p => p.1 == k) = none :=
    List.find?_eq_none.mpr (fun x hx => by simpa using h x hx)
  rw [lookupSt, hf]
  rfl

theorem hasKeySt_false_of (s : LevState) (k : Int) (h : ∀ kv ∈ s, kv.1 ≠ k) :
    hasKeySt s k = false := by
  rw [hasKeySt, lookupSt_eq_none_of_forall s k h]
  rfl

/-- Every branch of `stepEntry` either leaves `new_state` unchanged or
stores a guarded (`≤ budget`) cost at key `idx + 1`. -/
theorem stepEntry_cases (A : SLA) (c : Char) (state ns : LevState) (idx : Int) :
    stepEntry A c state ns idx = ns ∨
    ∃ v, v ≤ A.d ∧ stepEntry A c state ns idx = setSt ns (idx + 1) v := by
  unfold stepEntry
  split
  · exact Or.inl rfl
  · split
    · right
      exact ⟨_, by assumption, rfl⟩
    · exact Or.inl rfl

theorem stepLoop_ordered (A : SLA) (c : Char) (state : LevState) :
    ∀ (rs : List Int) (ns : LevState),
      List.Pairwise (· < ·) (ns.map Prod.fst) →
      List.Pairwise (· < ·) rs →
      (∀ k ∈ ns.map Prod.fst, ∀ r ∈ rs, k ≤ r) →
      (∀ kv ∈ ns, kv.2 ≤ A.d) →
      List.Pairwise (· < ·) ((stepLoop A c state rs ns).map Prod.fst) ∧
      (∀ kv ∈ stepLoop A c state rs ns, kv.2 ≤ A.d) := by
  intro rs
  induction rs with
  | nil => exact fun ns h1 _ _ h4 => ⟨h1, h4⟩
  | cons r rs ih =>
    intro ns h1 h2 h3 h4
    rw [stepLoop]
    rcases stepEntry_cases A c state ns r with hcase | ⟨v, hv, hcase⟩
    · rw [hcase]
      exact ih ns h1 h2.of_cons
        (fun k hk r' hr' => h3 k hk r' (List.mem_cons_of_mem r hr')) h4
    · rw [hcase]
      have hkey : hasKeySt ns (r + 1) = false := by
        refine hasKeySt_false_of ns (r + 1) (fun kv hkv => ?_)
        have := h3 kv.1 (List.mem_map_of_mem Prod.fst hkv) r (List.mem_cons_self r rs)
        omega
      rw [setSt_append ns (r + 1) v hkey]
      have hlt : ∀ k ∈ ns.map Prod.fst, k < r + 1 := by
        intro k hk
        have := h3 k hk r (List.mem_cons_self r rs)
        omega
      refine ih (ns ++ [(r + 1, v)]) ?_ h2.of_cons ?_ ?_
      · rw [List.map_append]
        rw [List.pairwise_append]
        refine ⟨h1, List.pairwise_singleton _ _, ?_⟩
        intro k hk k' hk'
        simp only [List.map_cons, List.map_nil, List.mem_singleton] at hk'
        subst hk'
        exact hlt k hk
      · intro k hk r' hr'
        rw [List.map_append, List.mem_append] at hk
        rcases hk with hk | hk
        · have h5 := h3 k hk r' (List.mem_cons_of_mem r hr')
          exact h5
        · simp only [List.map_cons, List.map_nil, List.mem_singleton] at hk
          subst hk
          rcases List.rel_of_pairwise_cons h2 hr' with hlt2
          omega
      · intro kv hkv
        rw [List.mem_append] at hkv
        rcases hkv with hkv | hkv
        · exact h4 kv hkv
        · rw [List.mem_singleton] at hkv
          subst hkv
          exact hv

theorem step_ordered (A : SLA) (c : Char) (s : LevState)
    (h1 : List.Pairwise (· < ·) (s.map Prod.fst)) :
    List.Pairwise (· < ·) ((step A c s).map Prod.fst) ∧
    (∀ kv ∈ step A c s, kv.2 ≤ A.d) := by
  match s with
  | [] => exact ⟨List.Pairwise.nil, fun kv hkv => absurd hkv (List.not_mem_nil kv)⟩
  | (k0, v0) :: rest =>
    have hstep : step A c ((k0, v0) :: rest) =
        stepLoop A c ((k0, v0) :: rest) (((k0, v0) :: rest).map Prod.fst)
          (if v0 + A.icost c ≤ A.d then [(k0, v0 + A.icost c)] else []) := rfl
    rw [hstep]
    have hks : ∀ r ∈ ((k0, v0) :: rest).map Prod.fst, k0 ≤ r := by
      intro r hr
      rw [List.map_cons] at hr
      rcases List.mem_cons.mp hr with hr | hr
      · omega
      · have := List.rel_of_pairwise_cons (by rw [List.map_cons] at h1; exact h1) hr
        omega
    by_cases hg : v0 + A.icost c ≤ A.d
    · rw [if_pos hg]
      refine stepLoop_ordered A c _ _ _ ?_ h1 ?_ ?_
      · exact List.pairwise_singleton _ _
      · intro k hk r hr
        simp only [List.map_cons, List.map_nil, List.mem_singleton] at hk
        subst hk
        exact hks r hr
      · intro kv hkv
        rw [List.mem_singleton] at hkv
        subst hkv
        exact hg
    · rw [if_neg hg]
      exact stepLoop_ordered A c _ _ ([] : LevState) List.Pairwise.nil h1
        (fun k hk => absurd hk (by simp)) (fun kv hkv => absurd hkv (List.not_mem_nil kv))

theorem startAux_ordered (A : SLA) :
    ∀ (cs : List Char) (i : Int) (cost : ℚ),
      List.Pairwise (· < ·) ((startAux A cs i cost).map Prod.fst) ∧
      (∀ kv ∈ startAux A cs i cost, i ≤ kv.1 ∧ kv.2 ≤ A.d) := by
  intro cs
  induction cs with
  | nil => exact fun i cost => ⟨List.Pairwise.nil, fun kv hkv => absurd hkv (List.not_mem_nil kv)⟩
  | cons c rest ih =>
    intro i cost
    rw [startAux]
    split
    · rcases ih (i + 1) (cost + A.dcost c) with ⟨ihp, ihm⟩
      constructor
      · rw [List.map_cons]
        refine List.Pairwise.cons ?_ ihp
        intro k hk
        rw [List.mem_map] at hk
        obtain ⟨kv, hkv, hkk⟩ := hk
        have := (ihm kv hkv).1
        omega
      · intro kv hkv
        rcases List.mem_cons.mp hkv with hkv | hkv
        · subst hkv
          exact ⟨le_refl i, by assumption⟩
        · have := ihm kv hkv
          exact ⟨by omega, this.2⟩
    · exact ⟨List.Pairwise.nil, fun kv hkv => absurd hkv (List.not_mem_nil kv)⟩

theorem startState_ordered (A : SLA) (hd : 0 ≤ A.d) :
    List.Pairwise (· < ·) ((startState A).map Prod.fst) ∧
    (∀ kv ∈ startState A, kv.2 ≤ A.d) := by
  rcases startAux_ordered A A.str 0 0 with ⟨hp, hm⟩
  constructor
  · rw [startState, List.map_cons]
    refine List.Pairwise.cons ?_ hp
    intro k hk
    rw [List.mem_map] at hk
    obtain ⟨kv, hkv, hkk⟩ := hk
    have := (hm kv hkv).1
    omega
  · intro kv hkv
    rcases List.mem_cons.mp hkv with hkv | hkv
    · subst hkv
      exact hd
    · exact (hm kv hkv).2

theorem pairwise_head_min (s : LevState)
    (h : List.Pairwise (· < ·) (s.map Prod.fst)) :
    ∀ (k : Int) (v : ℚ) (rest : LevState), s = (k, v) :: rest → ∀ kv ∈ s, k ≤ kv.1 := by
  intro k v rest hs kv hkv
  subst hs
  rcases List.mem_cons.mp hkv with hkv | hkv
  · subst hkv
    exact le_refl k
  · rw [List.map_cons] at h
    have := List.rel_of_pairwise_cons h (List.mem_map_of_mem Prod.fst hkv)
    omega

/-- C10 counterexample: with a negative budget the claim fails — with the
(non-negative) default costs and budget `-1`, `start_state` still stores
the sentinel entry `(-1, 0)` whose cost 0 exceeds the budget. -/
theorem sparse_state_invariant_counterexample :
    startState ⟨['a'], -1, defaultIcost, defaultDcost, defaultRcost⟩ =
      [((-1 : Int), (0 : ℚ))] ∧
    ¬ ((0 : ℚ) ≤ -1) := by
  constructor
  · with_unfolding_all decide
  · norm_num

/-- C10, amended: additionally assuming a non-negative budget, every state
reachable from `start_state` by `step`s has strictly ascending keys (in
particular its first key is its minimum) and all its stored costs are
within the budget. -/
theorem sparse_state_invariant (A : SLA) (hd : 0 ≤ A.d)
    (hic : ∀ c, 0 ≤ A.icost c) (hdc : ∀ c, 0 ≤ A.dcost c)
    (hrc : ∀ x y, 0 ≤ A.rcost x y)
    (s : LevState) (hs : ReachableState A s) :
    List.Pairwise (· < ·) (s.map Prod.fst) ∧
    (∀ kv ∈ s, kv.2 ≤ A.d) ∧
    (∀ (k : Int) (v : ℚ) (rest : LevState), s = (k, v) :: rest → ∀ kv ∈ s, k ≤ kv.1) := by
  induction hs with
  | start =>
    rcases startState_ordered A hd with ⟨h1, h2⟩
    exact ⟨h1, h2, pairwise_head_min _ h1⟩
  | step c s' _ ih =>
    rcases step_ordered A c s' ih.1 with ⟨h1, h2⟩
    exact ⟨h1, h2, pairwise_head_min _ h1⟩

/-- C10 witness: the automaton of pattern `"a"`, budget 1, default costs,
at its start state. -/
theorem sparse_state_invariant_witness :
    List.Pairwise (· < ·) ((startState ⟨['a'], 1, defaultIcost, defaultDcost,
      defaultRcost⟩).map Prod.fst) ∧
    (∀ kv ∈ startState ⟨['a'], 1, defaultIcost, defaultDcost, defaultRcost⟩,
      kv.2 ≤ (1 : ℚ)) ∧
    (∀ (k : Int) (v : ℚ) (rest : LevState),
      startState ⟨['a'], 1, defaultIcost, defaultDcost, defaultRcost⟩ = (k, v) :: rest →
      ∀ kv ∈ startState ⟨['a'], 1, defaultIcost, defaultDcost, defaultRcost⟩, k ≤ kv.1) :=
  sparse_state_invariant ⟨['a'], 1, defaultIcost, defaultDcost, defaultRcost⟩
    (by norm_num)
    (fun c => by norm_num [defaultIcost, icostOfTable])
    (fun c => by norm_num [defaultDcost, dcostOfTable])
    (fun x y => by
      show (0 : ℚ) ≤ defaultRcost x y
      rw [defaultRcost_eq_unit]
      unfold unitRcost
      by_cases h : x = y
      · rw [if_pos h]
      · rw [if_neg h]; norm_num)
    _ ReachableState.start

/-! ## The insertion contract of the builder -/

/-- C3: `insert` raises exactly when the new word is not strictly greater
than the previously inserted word, and in particular inserting `"b"` then
`"a"` fails. -/
theorem insert_ordering_violation :
    (∀ (d : Dawg) (w : List Char), insertD d w = none ↔ strLE w d.prevWord = true) ∧
    (insertD freshDawg ['b']).bind (fun d => insertD d ['a']) = none := by
  constructor
  · intro d w
    by_cases h : strLE w d.prevWord = true
    · rw [insertD, if_pos h]
      simp [h]
    · rw [insertD, if_neg h]
      simp [h]
  · with_unfolding_all decide

/-- C7 counterexample: inserting the empty string into a fresh builder does
not succeed — `"" <= ""` holds, so `insert("")` raises the ordering error
instead of marking the root terminal. -/
theorem insert_empty_counterexample :
    insertD freshDawg [] = none := by
  rfl

/-- C7, amended: inserting `""` into a fresh builder fails with the
ordering violation (the empty string is not strictly greater than the
initial previous word `""`), and the ordering violation is the only
failure of `insert`: whenever the word is strictly greater than the
previous word, `insert` succeeds. -/
theorem insert_empty_and_only_ordering_error :
    insertD freshDawg [] = none ∧
    (∀ (d : Dawg) (w : List Char), strLE w d.prevWord = false → (insertD d w).isSome = true) := by
  constructor
  · rfl
  · intro d w h
    rw [insertD, if_neg (by rw [h]; exact Bool.false_ne_true)]
    rfl

/-- C7 witness. -/
theorem insert_empty_and_only_ordering_error_witness :
    strLE ['a'] (freshDawg).prevWord = false ∧ (insertD freshDawg ['a']).isSome = true :=
  ⟨by with_unfolding_all decide,
    insert_empty_and_only_ordering_error.2 freshDawg ['a'] (by with_unfolding_all decide)⟩

/-! ## The fuzzy search misses matches through shared nodes -/

/-- C1 counterexample.  Insert `"aa"` then `"ba"` (in order) and finish:
minimization shares the suffix node, so the root's edges `a` and `b` lead
to the same node.  Searching for `"ba"` with budget 1 under default unit
costs returns only `{"ba"}`, although `"aa"` is an inserted word with
`distance("ba", "aa") = 1 ≤ 1`: the shared node is expanded only with the
Levenshtein state of the `b`-branch (which is popped first), and the
visited set then blocks the `a`-branch. -/
theorem levenshtein_search_counterexample :
    (buildDawg [['a', 'a'], ['b', 'a']]).map
        (fun g => levenshteinSearch g ['b', 'a'] 1 defaultIcost defaultDcost defaultRcost) =
      some [['b', 'a']] ∧
    dpDist unitIcost unitDcost unitRcost ['b', 'a'] ['a', 'a'] = 1 ∧
    ((1 : ℚ) ≤ 1) ∧
    (['a', 'a'] : List Char) ∉ [(['b', 'a'] : List Char)] := by
  refine ⟨?_, ?_, le_refl 1, ?_⟩
  · with_unfolding_all decide
  · with_unfolding_all decide
  · with_unfolding_all decide

/-! ## Heap access lemmas -/

theorem length_setNode (h : Heap) (i : Nat) (nd : DNode) :
    (setNode h i nd).length = h.length := by
  simp [setNode]

theorem getNode_setNode_self (h : Heap) (i : Nat) (nd : DNode) (hi : i < h.length) :
    getNode (setNode h i nd) i = nd := by
  simp [getNode, setNode, List.getD, List.getElem?_set_self, hi]

theorem getNode_setNode_ne (h : Heap) (i : Nat) (nd : DNode) (j : Nat) (hij : i ≠ j) :
    getNode (setNode h i nd) j = getNode h j := by
  simp [getNode, setNode, List.getD, List.getElem?_set_ne hij]

theorem getNode_append_lt (h h2 : Heap) (i : Nat) (hi : i < h.length) :
    getNode (h ++ h2) i = getNode h i := by
  simp [getNode, List.getD, List.getElem?_append, hi]

theorem getNode_append_self (h : Heap) (nd : DNode) :
    getNode (h ++ [nd]) h.length = nd := by
  simp [getNode, List.getD]

theorem getNode_oob (h : Heap) (i : Nat) (hi : h.length ≤ i) :
    getNode h i = blankNode := by
  simp [getNode, List.getD, List.getElem?_eq_none hi]

/-! ## Surgery lemmas for `accepts` -/

/-- `accepts` only looks at the record of its start node and then recurses:
nodes with equal records accept the same words. -/
theorem accepts_record_eq (h : Heap) (a b : Nat) (hab : getNode h a = getNode h b) :
    ∀ w, accepts h a w = accepts h b w := by
  intro w
  cases w with
  | nil => rw [accepts, accepts, hab]
  | cons c cs => rw [accepts, accepts, hab]

theorem lookupEdge_mem (nd : DNode) (c : Char) (j : Nat)
    (hlk : lookupEdge nd c = some j) : ∃ e ∈ nd.edges, e.1 = c ∧ e.2 = j := by
  rcases Option.map_eq_some'.mp hlk with ⟨e, he, hej⟩
  refine ⟨e, List.mem_of_find?_eq_some he, ?_, hej⟩
  have := List.find?_some he
  simpa using this

/-- Two heaps that agree on an edge-closed set of nodes accept the same
words from any node of the set. -/
theorem accepts_agree (F : Nat → Prop) (h h' : Heap)
    (hagree : ∀ i, F i → getNode h' i = getNode h i)
    (hclosed : ∀ i, F i → ∀ e ∈ (getNode h i).edges, F e.2) :
    ∀ (w : List Char) (n : Nat), F n → accepts h' n w = accepts h n w := by
  intro w
  induction w with
  | nil =>
    intro n hn
    rw [accepts, accepts, hagree n hn]
  | cons c cs ih =>
    intro n hn
    rw [accepts, accepts, hagree n hn]
    cases hlk : lookupEdge (getNode h n) c with
    | none => rfl
    | some j =>
      rcases lookupEdge_mem _ c j hlk with ⟨e, hemem, _, hej⟩
      exact ih j (hej ▸ hclosed n hn e hemem)

/-- `setEdge` on a present key: the lookup of that key now returns the new
target, other lookups are unchanged. -/
theorem lookupEdge_setEdge_present (nd : DNode) (c0 : Char) (m : Nat)
    (hpres : (lookupEdge nd c0).isSome) (c : Char) :
    lookupEdge (setEdge nd c0 m) c =
      if c0 = c then some m else lookupEdge nd c := by
  rw [setEdge, if_pos hpres]
  have hfind : List.find? (fun p : Char × Nat => p.1 == c)
      (nd.edges.map (fun p => if p.1 == c0 then (c0, m) else p)) =
      (nd.edges.find? (fun q : Char × Nat => q.1 == c)).map
        (fun p => if p.1 == c0 then (c0, m) else p) := by
    rw [List.find?_map]
    have hpred : ((fun p : Char × Nat => p.1 == c) ∘
        (fun p : Char × Nat => if p.1 == c0 then (c0, m) else p)) =
        (fun q : Char × Nat => q.1 == c) := by
      funext q
      by_cases hq : q.1 = c0
      · simp [Function.comp, hq]
      · simp [Function.comp, hq]
    rw [hpred]
  show (List.find? _ _).map _ = _
  rw [hfind]
  cases hres : nd.edges.find? (fun q : Char × Nat => q.1 == c) with
  | none =>
    by_cases hc : c0 = c
    · exfalso
      subst hc
      rw [lookupEdge, hres] at hpres
      simp at hpres
    · rw [if_neg hc, lookupEdge, hres]
      rfl
  | some e =>
    have he1 : e.1 = c := by simpa using List.find?_some hres
    by_cases hc : c0 = c
    · subst hc
      rw [if_pos rfl]
      simp [he1]
    · rw [if_neg hc, lookupEdge, hres]
      have hne : ¬ e.1 = c0 := by
        rw [he1]
        exact fun hh => hc hh.symm
      simp [hne]

/-- The central surgery lemma: redirecting one edge of node `x` from
`child` to an interned node `m` with an identical record changes no
acceptance anywhere, provided the interned set is edge-closed and does not
contain `x`. -/
theorem accepts_redirect (h : Heap) (mins : List Nat) (x child m : Nat) (c0 : Char)
    (hx : x < h.length)
    (hlk : lookupEdge (getNode h x) c0 = some child)
    (hrec : getNode h child = getNode h m)
    (hmem : m ∈ mins)
    (hxnot : x ∉ mins)
    (hclosed : ∀ i ∈ mins, ∀ e ∈ (getNode h i).edges, e.2 ∈ mins) :
    ∀ (w : List Char) (n : Nat),
      accepts (setNode h x (setEdge (getNode h x) c0 m)) n w = accepts h n w := by
  have hagree : ∀ i, i ∈ mins →
      getNode (setNode h x (setEdge (getNode h x) c0 m)) i = getNode h i := by
    intro i hi
    exact getNode_setNode_ne h x _ i (fun hh => hxnot (hh ▸ hi))
  intro w
  induction w with
  | nil =>
    intro n
    by_cases hn : n = x
    · subst hn
      rw [accepts, accepts, getNode_setNode_self h n _ hx]
      rw [setEdge]
      split <;> rfl
    · rw [accepts, accepts, getNode_setNode_ne h x _ n (fun hh => hn hh.symm)]
  | cons c cs ih =>
    intro n
    by_cases hn : n = x
    · subst hn
      rw [accepts, accepts, getNode_setNode_self h n _ hx]
      rw [lookupEdge_setEdge_present (getNode h n) c0 m (by rw [hlk]; rfl) c]
      by_cases hc : c0 = c
      · rw [if_pos hc]
        subst hc
        rw [hlk]
        show accepts _ m cs = accepts h child cs
        rw [accepts_agree (· ∈ mins) h _ hagree hclosed cs m hmem]
        exact (accepts_record_eq h child m hrec cs).symm
      · rw [if_neg hc]
        cases hlk2 : lookupEdge (getNode h n) c with
        | none => rfl
        | some j => exact ih j
    · rw [accepts, accepts, getNode_setNode_ne h x _ n (fun hh => hn hh.symm)]
      cases hlk2 : lookupEdge (getNode h n) c with
      | none => rfl
      | some j => exact ih j

/-! ## Lexicographic facts about `strLE` and `commonPrefixLen` -/

theorem commonPrefixLen_le_left (a : List Char) : ∀ b, commonPrefixLen a b ≤ a.length := by
  induction a with
  | nil => intro b; cases b <;> simp [commonPrefixLen]
  | cons x xs ih =>
    intro b
    cases b with
    | nil => simp [commonPrefixLen]
    | cons y ys =>
      by_cases h : x = y
      · simp only [commonPrefixLen, if_pos h, List.length_cons]
        exact Nat.succ_le_succ (ih ys)
      · simp [commonPrefixLen, if_neg h]

theorem commonPrefixLen_le_right (a : List Char) : ∀ b, commonPrefixLen a b ≤ b.length := by
  induction a with
  | nil => intro b; cases b <;> simp [commonPrefixLen]
  | cons x xs ih =>
    intro b
    cases b with
    | nil => simp [commonPrefixLen]
    | cons y ys =>
      by_cases h : x = y
      · simp only [commonPrefixLen, if_pos h, List.length_cons]
        exact Nat.succ_le_succ (ih ys)
      · simp [commonPrefixLen, if_neg h]

theorem take_commonPrefixLen (a : List Char) :
    ∀ b, a.take (commonPrefixLen a b) = b.take (commonPrefixLen a b) := by
  induction a with
  | nil => intro b; cases b <;> simp [commonPrefixLen]
  | cons x xs ih =>
    intro b
    cases b with
    | nil => simp [commonPrefixLen]
    | cons y ys =>
      by_cases h : x = y
      · simp only [commonPrefixLen, if_pos h, List.take_succ_cons]
        rw [h, ih ys]
      · simp [commonPrefixLen, if_neg h]

theorem strLE_of_commonPrefixLen_eq_length (a : List Char) :
    ∀ b, commonPrefixLen a b = a.length → strLE a b = true := by
  induction a with
  | nil => intro b _; rfl
  | cons x xs ih =>
    intro b hcp
    cases b with
    | nil => simp [commonPrefixLen] at hcp
    | cons y ys =>
      by_cases h : x = y
      · simp only [commonPrefixLen, if_pos h, List.length_cons, Nat.add_right_cancel_iff]
          at hcp
        simp only [strLE, if_pos h]
        exact ih ys hcp
      · simp [commonPrefixLen, if_neg h] at hcp

theorem commonPrefixLen_lt_length (a b : List Char) (h : strLE a b = false) :
    commonPrefixLen a b < a.length := by
  rcases Nat.lt_or_ge (commonPrefixLen a b) a.length with h1 | h1
  · exact h1
  · have h2 : commonPrefixLen a b = a.length :=
      le_antisymm (commonPrefixLen_le_left a b) h1
    rw [strLE_of_commonPrefixLen_eq_length a b h2] at h
    cases h

theorem get_lt_of_not_strLE (a : List Char) :
    ∀ b, strLE a b = false → commonPrefixLen a b < b.length →
      b.getD (commonPrefixLen a b) 'a' < a.getD (commonPrefixLen a b) 'a' := by
  induction a with
  | nil => intro b hle _; simp [strLE] at hle
  | cons x xs ih =>
    intro b hle hlt
    cases b with
    | nil => simp [commonPrefixLen] at hlt
    | cons y ys =>
      by_cases h : x = y
      · simp only [commonPrefixLen, if_pos h] at hlt ⊢
        simp only [strLE, if_pos h] at hle
        simpa using ih ys hle (by simpa using hlt)
      · simp only [commonPrefixLen, if_neg h] at hlt ⊢
        simp only [strLE, if_neg h, decide_eq_false_iff_not, not_lt] at hle
        simp only [List.getD_cons_zero]
        exact lt_of_le_of_ne hle (fun hh => h hh.symm)

/-! ## Edge-list lemmas -/

theorem lookupEdge_eq_none (nd : DNode) (c : Char) (h : ∀ e ∈ nd.edges, e.1 ≠ c) :
    lookupEdge nd c = none := by
  rw [lookupEdge]
  have h2 : nd.edges.find? (fun p => p.1 == c) = none :=
    List.find?_eq_none.mpr (fun p hp => by simpa using h p hp)
  rw [h2]
  rfl

theorem lookupEdge_append_last (f : Bool) (es : List (Char × Nat)) (c : Char) (t : Nat)
    (hne : ∀ e ∈ es, e.1 ≠ c) (x : Char) :
    lookupEdge ⟨f, es ++ [(c, t)]⟩ x =
      if x = c then some t else lookupEdge ⟨f, es⟩ x := by
  induction es with
  | nil =>
    by_cases hx : x = c
    · subst hx
      simp [lookupEdge, List.find?]
    · have hb : ¬ ((((c, t) : Char × Nat)).1 == x) = true := by
        simp
        exact fun hh => hx hh.symm
      rw [if_neg hx]
      show (List.find? (fun p : Char × Nat => p.1 == x) ([] ++ [(c, t)])).map
        (fun p => p.2) = _
      rw [List.nil_append,
        @List.find?_cons_of_neg (Char × Nat) (fun p => p.1 == x) (c, t) [] hb]
      rfl
  | cons e es ih =>
    have hne2 : ∀ e2 ∈ es, e2.1 ≠ c := fun e2 he2 => hne e2 (List.mem_cons_of_mem e he2)
    by_cases hbeq : (e.1 == x) = true
    · have hx : ¬ x = c := by
        intro hxc
        exact hne e (List.mem_cons_self e es) (by rw [eq_of_beq hbeq, hxc])
      rw [if_neg hx]
      show (List.find? (fun p : Char × Nat => p.1 == x) (e :: (es ++ [(c, t)]))).map
          (fun p => p.2) =
        (List.find? (fun p : Char × Nat => p.1 == x) (e :: es)).map (fun p => p.2)
      rw [@List.find?_cons_of_pos (Char × Nat) (fun p => p.1 == x) e (es ++ [(c, t)]) hbeq,
        @List.find?_cons_of_pos (Char × Nat) (fun p => p.1 == x) e es hbeq]
    · show (List.find? (fun p : Char × Nat => p.1 == x) (e :: (es ++ [(c, t)]))).map
        (fun p => p.2) = _
      rw [@List.find?_cons_of_neg (Char × Nat) (fun p => p.1 == x) e (es ++ [(c, t)]) hbeq]
      have hih := ih hne2
      rw [lookupEdge] at hih
      rw [hih]
      by_cases hx : x = c
      · rw [if_pos hx, if_pos hx]
      · rw [if_neg hx, if_neg hx, lookupEdge]
        show _ = (List.find? (fun p : Char × Nat => p.1 == x) (e :: es)).map (fun p => p.2)
        rw [@List.find?_cons_of_neg (Char × Nat) (fun p => p.1 == x) e es hbeq]

theorem setEdge_absent (nd : DNode) (c : Char) (j : Nat)
    (h : ∀ e ∈ nd.edges, e.1 ≠ c) :
    setEdge nd c j = ⟨nd.final, nd.edges ++ [(c, j)]⟩ := by
  rw [setEdge, lookupEdge_eq_none nd c h]
  rfl

theorem find?_map_snd_of_pairwise :
    ∀ (es : List (Char × Nat)) (e : Char × Nat), e ∈ es →
      List.Pairwise (· < ·) (es.map Prod.fst) →
      (es.find? (fun p => p.1 == e.1)).map (fun p => p.2) = some e.2 := by
  intro es
  induction es with
  | nil => intro e hmem; cases hmem
  | cons a es ih =>
    intro e hmem hp
    rw [List.map_cons, List.pairwise_cons] at hp
    rcases List.mem_cons.mp hmem with rfl | hmem2
    · rw [@List.find?_cons_of_pos (Char × Nat) (fun p => p.1 == e.1) e es (by simp)]
      rfl
    · have hlt : a.1 < e.1 := hp.1 e.1 (List.mem_map_of_mem Prod.fst hmem2)
      have hb : ¬ (a.1 == e.1) = true := by
        simp
        exact ne_of_lt hlt
      rw [@List.find?_cons_of_neg (Char × Nat) (fun p => p.1 == e.1) a es hb]
      exact ih e hmem2 hp.2

theorem lookupEdge_of_mem_pairwise (nd : DNode) (e : Char × Nat)
    (hmem : e ∈ nd.edges) (hp : List.Pairwise (· < ·) (nd.edges.map Prod.fst)) :
    lookupEdge nd e.1 = some e.2 :=
  find?_map_snd_of_pairwise nd.edges e hmem hp

/-! ## Paths, acyclicity through a rank function -/

theorem accepts_true_iff (h : Heap) :
    ∀ (w : List Char) (i : Nat), accepts h i w = true ↔
      ∃ m, followPath h i w = some m ∧ (getNode h m).final = true := by
  intro w
  induction w with
  | nil =>
    intro i
    rw [accepts, followPath]
    constructor
    · intro hf; exact ⟨i, rfl, hf⟩
    · rintro ⟨m, hm, hf⟩; cases hm; exact hf
  | cons c cs ih =>
    intro i
    rw [accepts, followPath]
    cases lookupEdge (getNode h i) c with
    | none => simp
    | some j => exact ih j

theorem followPath_append (h : Heap) :
    ∀ (u v : List Char) (i : Nat),
      followPath h i (u ++ v) = (followPath h i u).bind (fun t => followPath h t v) := by
  intro u
  induction u with
  | nil => intro v i; rw [List.nil_append]; rfl
  | cons c cs ih =>
    intro v i
    rw [List.cons_append, followPath, followPath]
    cases lookupEdge (getNode h i) c with
    | none => rfl
    | some j => exact ih v j

theorem followPath_transGen (h : Heap) :
    ∀ (cs : List Char) (c : Char) (i m : Nat),
      followPath h i (c :: cs) = some m → Relation.TransGen (edgeRel h) i m := by
  intro cs
  induction cs with
  | nil =>
    intro c i m hm
    rw [followPath] at hm
    cases hlk : lookupEdge (getNode h i) c with
    | none => rw [hlk] at hm; cases hm
    | some j =>
      rw [hlk] at hm
      have hm2 : some j = some m := hm
      cases hm2
      rcases lookupEdge_mem _ _ _ hlk with ⟨e, he, _, he2⟩
      exact Relation.TransGen.single ⟨e, he, he2⟩
  | cons c2 cs2 ih =>
    intro c i m hm
    rw [followPath] at hm
    cases hlk : lookupEdge (getNode h i) c with
    | none => rw [hlk] at hm; cases hm
    | some j =>
      rw [hlk] at hm
      rcases lookupEdge_mem _ _ _ hlk with ⟨e, he, _, he2⟩
      exact Relation.TransGen.head ⟨e, he, he2⟩ (ih c2 j m hm)

theorem acyclic_of_rank (h : Heap) (r : Nat → Nat)
    (hr : ∀ i j, edgeRel h i j → r j < r i) : AcyclicHeap h := by
  intro i hi
  have key : ∀ a b, Relation.TransGen (edgeRel h) a b → r b < r a := by
    intro a b hab
    induction hab with
    | single h1 => exact hr _ _ h1
    | tail _ h2 ih => exact lt_trans (hr _ _ h2) ih
  exact absurd (key i i hi) (lt_irrefl _)

theorem pathLen_le_rank (h : Heap) (r : Nat → Nat)
    (hr : ∀ i j, edgeRel h i j → r j < r i) :
    ∀ (cs : List Char) (i : Nat), pathLen h i cs ≤ r i := by
  intro cs
  induction cs with
  | nil => intro i; rw [pathLen]; exact Nat.zero_le _
  | cons c cs2 ih =>
    intro i
    rw [pathLen]
    cases hlk : lookupEdge (getNode h i) c with
    | none => exact Nat.zero_le _
    | some j =>
      show pathLen h j cs2 + 1 ≤ r i
      rcases lookupEdge_mem _ _ _ hlk with ⟨e, he, _, he2⟩
      have h1 := hr i j ⟨e, he, he2⟩
      have h2 := ih j
      omega

/-! ## Sparse-state lookup helpers -/

theorem lookupSt_mem (s : LevState) (k : Int) (v : ℚ) (h : lookupSt s k = some v) :
    (k, v) ∈ s := by
  rw [lookupSt] at h
  rcases Option.map_eq_some'.mp h with ⟨⟨pa, pb⟩, hp, hpv⟩
  have h1 : pa = k := by simpa using List.find?_some hp
  subst h1
  cases hpv
  exact List.mem_of_find?_eq_some hp

theorem lookupSt_of_mem_keys (s : LevState) (k : Int)
    (h : k ∈ s.map Prod.fst) : ∃ v, lookupSt s k = some v ∧ (k, v) ∈ s := by
  rcases List.mem_map.mp h with ⟨p, hp, hpk⟩
  have hsome : (s.find? (fun q => q.1 == k)).isSome := by
    rw [List.find?_isSome]
    exact ⟨p, hp, by simpa using hpk⟩
  rcases Option.isSome_iff_exists.mp hsome with ⟨q, hq⟩
  have h1 : q.1 = k := by simpa using List.find?_some hq
  refine ⟨q.2, ?_, ?_⟩
  · rw [lookupSt, hq]
    rfl
  · rw [← h1]
    exact List.mem_of_find?_eq_some hq

/-! ## Chain lemmas -/

theorem ChainLE_congr {h h' : Heap} {mins mins' : List Nat}
    (hsub : ∀ x ∈ mins, x ∈ mins') :
    ∀ {par : Nat} {entries : List (Nat × Char × Nat)} {word : List Char},
      ChainLE h mins par entries word →
      (∀ i ∈ par :: entries.map (fun e => e.2.2),
        (getNode h' i).edges = (getNode h i).edges) →
      ChainLE h' mins' par entries word := by
  intro par entries word hch
  induction hch with
  | tail par word htail =>
    intro hagree
    apply ChainLE.tail
    rcases htail with ⟨h1, h2, h3⟩
    have he : (getNode h' par).edges = (getNode h par).edges := hagree par (by simp)
    refine ⟨fun e hme => hsub _ (h1 e (he ▸ hme)), ?_, fun e hme => h3 e (he ▸ hme)⟩
    rw [he]
    exact h2
  | cons par ch n rest word hok hsub2 ih =>
    intro hagree
    apply ChainLE.cons
    · rcases hok with ⟨pre, hpre, hmem, hpair⟩
      have he : (getNode h' par).edges = (getNode h par).edges := hagree par (by simp)
      exact ⟨pre, by rw [he]; exact hpre,
        fun e hme => ⟨hsub _ (hmem e hme).1, (hmem e hme).2⟩, hpair⟩
    · exact ih (fun i hi => hagree i (List.mem_cons_of_mem _ hi))

theorem ChainLE_tailOK {h : Heap} {mins : List Nat} :
    ∀ {par : Nat} {entries : List (Nat × Char × Nat)} {word : List Char},
      ChainLE h mins par entries word →
      TailOK mins (getNode h ((par :: entries.map (fun e => e.2.2)).getLast
        (List.cons_ne_nil _ _))) (word.drop entries.length) := by
  intro par entries word hch
  induction hch with
  | tail par word htail => simpa using htail
  | cons par ch n rest word hok hsub ih =>
    have hne : (n :: rest.map (fun e => e.2.2)) ≠ [] := List.cons_ne_nil _ _
    show TailOK mins (getNode h ((par :: n :: rest.map (fun e => e.2.2)).getLast
      (List.cons_ne_nil _ _))) ((ch :: word).drop (rest.length + 1))
    rw [List.getLast_cons hne]
    exact ih

theorem ChainLE_snoc {h : Heap} {mins : List Nat} :
    ∀ (entries : List (Nat × Char × Nat)) (par p : Nat) (c : Char) (ch : Nat)
      (word : List Char),
      ChainLE h mins par (entries ++ [(p, c, ch)]) word →
      (par :: (entries ++ [(p, c, ch)]).map (fun e => e.2.2)).Nodup →
      ∃ pre wrest,
        (par :: entries.map (fun e => e.2.2)).getLast (List.cons_ne_nil _ _) = p ∧
        word.drop entries.length = c :: wrest ∧
        (getNode h p).edges = pre ++ [(c, ch)] ∧
        (∀ e ∈ pre, e.2 ∈ mins ∧ e.1 < c) ∧
        List.Pairwise (· < ·) (pre.map Prod.fst) ∧
        TailOK mins (getNode h ch) wrest ∧
        (∀ (mins' : List Nat) (h' : Heap), (∀ x ∈ mins, x ∈ mins') →
          (∀ i ∈ par :: entries.map (fun e => e.2.2), i ≠ p →
            (getNode h' i).edges = (getNode h i).edges) →
          TailOK mins' (getNode h' p) (c :: wrest) →
          ChainLE h' mins' par entries word) := by
  intro entries
  induction entries with
  | nil =>
    intro par p c ch word hch hnd
    rw [List.nil_append] at hch
    cases hch with
    | cons _ _ _ _ word' hok hsub =>
      rcases hok with ⟨pre, hpre, hmem, hpair⟩
      have htl : TailOK mins (getNode h ch) word' := by
        cases hsub with
        | tail _ _ ht => exact ht
      refine ⟨pre, word', by simp, rfl, hpre,
        fun e hme => hmem e hme, hpair, htl, ?_⟩
      intro mins' h' hsubm hagree htail'
      exact ChainLE.tail _ _ htail'
  | cons a entries ih =>
    obtain ⟨a1, a2, a3⟩ := a
    intro par p c ch word hch hnd
    rw [List.cons_append] at hch
    cases hch with
    | cons _ _ _ _ word' hok hsub =>
      have hnd_sub : (a3 :: (entries ++ [(p, c, ch)]).map (fun e => e.2.2)).Nodup :=
        hnd.of_cons
      rcases ih a3 p c ch word' hsub hnd_sub with
        ⟨pre, wrest, hlast, hdrop, hedges, hmem, hpair, htl, himp⟩
      have hglne : (a3 :: entries.map (fun e => e.2.2)) ≠ [] := List.cons_ne_nil _ _
      refine ⟨pre, wrest, ?_, ?_, hedges, hmem, hpair, htl, ?_⟩
      · show (a1 :: a3 :: entries.map (fun e => e.2.2)).getLast (List.cons_ne_nil _ _) = p
        rw [List.getLast_cons hglne]
        exact hlast
      · show (a2 :: word').drop (entries.length + 1) = c :: wrest
        rw [List.drop_succ_cons]
        exact hdrop
      · intro mins' h' hsubm hagree htail'
        have hp_mem : p ∈ a3 :: entries.map (fun e => e.2.2) := by
          rw [← hlast]
          exact List.getLast_mem hglne
        apply ChainLE.cons
        · rcases hok with ⟨pre2, hpre2, hmem2, hpair2⟩
          have ha1ne : a1 ≠ p := by
            have hnotin : a1 ∉ ((a1, a2, a3) :: (entries ++ [(p, c, ch)])).map
                (fun e => e.2.2) := (List.nodup_cons.mp hnd).1
            intro hh
            apply hnotin
            show a1 ∈ a3 :: (entries ++ [(p, c, ch)]).map (fun e => e.2.2)
            rw [List.map_append]
            rcases List.mem_cons.mp (hh ▸ hp_mem) with h1 | h1
            · rw [h1]
              exact List.mem_cons_self _ _
            · exact List.mem_cons_of_mem _ (List.mem_append_left _ h1)
          have he : (getNode h' a1).edges = (getNode h a1).edges :=
            hagree a1 (List.mem_cons_self _ _) ha1ne
          exact ⟨pre2, by rw [he]; exact hpre2,
            fun e hme => ⟨hsubm _ (hmem2 e hme).1, (hmem2 e hme).2⟩, hpair2⟩
        · exact himp mins' h' hsubm
            (fun i hi hine => hagree i (List.mem_cons_of_mem _ hi) hine) htail'

theorem ChainLE_append {h h' : Heap} {mins : List Nat} :
    ∀ (entries : List (Nat × Char × Nat)) (par : Nat) (word word2 : List Char)
      (E : List (Nat × Char × Nat)),
      ChainLE h mins par entries word →
      (par :: entries.map (fun e => e.2.2)).Nodup →
      word2.take entries.length = word.take entries.length →
      (∀ i ∈ par :: entries.map (fun e => e.2.2),
        i ≠ (par :: entries.map (fun e => e.2.2)).getLast (List.cons_ne_nil _ _) →
        (getNode h' i).edges = (getNode h i).edges) →
      ChainLE h' mins ((par :: entries.map (fun e => e.2.2)).getLast (List.cons_ne_nil _ _))
        E (word2.drop entries.length) →
      ChainLE h' mins par (entries ++ E) word2 := by
  intro entries
  induction entries with
  | nil =>
    intro par word word2 E hch hnd htake hagree hE
    rw [List.nil_append]
    simpa using hE
  | cons a entries ih =>
    obtain ⟨a1, a2, a3⟩ := a
    intro par word word2 E hch hnd htake hagree hE
    cases hch with
    | cons _ _ _ _ word' hok hsub =>
      cases word2 with
      | nil => simp at htake
      | cons b word2' =>
        simp only [List.map_cons, List.length_cons] at hnd hagree hE htake
        have hb : b = a2 ∧ word2'.take entries.length = word'.take entries.length := by
          rw [List.take_succ_cons, List.take_succ_cons] at htake
          exact ⟨List.head_eq_of_cons_eq htake, List.tail_eq_of_cons_eq htake⟩
        have hglne : (a3 :: entries.map (fun e => e.2.2)) ≠ [] := List.cons_ne_nil _ _
        have hgl : (a1 :: a3 :: entries.map (fun e => e.2.2)).getLast
            (List.cons_ne_nil _ _) = (a3 :: entries.map (fun e => e.2.2)).getLast hglne :=
          List.getLast_cons hglne
        have ha1ne : a1 ≠ (a3 :: entries.map (fun e => e.2.2)).getLast hglne := by
          intro hh
          have h2 := (List.nodup_cons.mp hnd).1
          apply h2
          rw [hh]
          exact List.getLast_mem hglne
        rw [List.cons_append]
        cases hb.1
        apply ChainLE.cons
        · rcases hok with ⟨pre2, hpre2, hmem2, hpair2⟩
          have he : (getNode h' a1).edges = (getNode h a1).edges := by
            apply hagree a1 (List.mem_cons_self _ _)
            rw [hgl]
            exact ha1ne
          exact ⟨pre2, by rw [he]; exact hpre2, hmem2, hpair2⟩
        · apply ih a3 word' word2' E hsub hnd.of_cons hb.2
          · intro i hi hine
            apply hagree i (List.mem_cons_of_mem _ hi)
            rw [hgl]
            exact hine
          · rw [List.drop_succ_cons] at hE
            rw [← hgl]
            exact hE

theorem ChainLE_edges {h : Heap} {mins : List Nat} :
    ∀ {par : Nat} {entries : List (Nat × Char × Nat)} {word : List Char},
      ChainLE h mins par entries word →
      (par :: entries.map (fun e => e.2.2)).Nodup →
      ∀ i ∈ par :: entries.map (fun e => e.2.2),
        ∀ e ∈ (getNode h i).edges,
          e.2 ∈ mins ∨ (e.2 ∈ par :: entries.map (fun e => e.2.2) ∧
            (par :: entries.map (fun e => e.2.2)).indexOf i <
              (par :: entries.map (fun e => e.2.2)).indexOf e.2) := by
  intro par entries word hch
  induction hch with
  | tail par word htail =>
    intro _ i hi e he
    have hip : i = par := by simpa using hi
    subst hip
    exact Or.inl (htail.1 e he)
  | cons par ch n rest word hok hsub ih =>
    intro hnd i hi e he
    have hpar_not : par ∉ n :: rest.map (fun e => e.2.2) := by
      have := (List.nodup_cons.mp hnd).1
      simpa using this
    rcases List.mem_cons.mp hi with rfl | hi2
    · rcases hok with ⟨pre, hpre, hmem, hpair⟩
      rw [hpre] at he
      rcases List.mem_append.mp he with hepre | helast
      · exact Or.inl (hmem e hepre).1
      · have he2 : e = (ch, n) := by simpa using helast
        subst he2
        refine Or.inr ⟨by simp, ?_⟩
        have hne : n ≠ i := by
          intro hh
          exact hpar_not (hh ▸ List.mem_cons_self _ _)
        rw [List.indexOf_cons_self]
        rw [List.indexOf_cons_ne _ (fun hh => hne hh.symm)]
        exact Nat.succ_pos _
    · have hnd_sub : (n :: rest.map (fun e => e.2.2)).Nodup := hnd.of_cons
      rcases ih hnd_sub i hi2 e he with hl | ⟨hmem2, hidx⟩
      · exact Or.inl hl
      · refine Or.inr ⟨List.mem_cons_of_mem _ hmem2, ?_⟩
        have hi_ne : i ≠ par := fun hh => hpar_not (hh ▸ hi2)
        have he_ne : e.2 ≠ par := fun hh => hpar_not (hh ▸ hmem2)
        rw [List.indexOf_cons_ne _ (fun hh => hi_ne hh.symm),
          List.indexOf_cons_ne _ (fun hh => he_ne hh.symm)]
        simp only [List.map_cons]
        omega

/-! ## Helpers for `_minimize` -/

theorem indexOf_append_of_mem {l1 l2 : List Nat} {a : Nat} (h : a ∈ l1) :
    (l1 ++ l2).indexOf a = l1.indexOf a := by
  induction l1 with
  | nil => cases h
  | cons b t ih =>
    by_cases hab : b = a
    · subst hab
      rw [List.cons_append, List.indexOf_cons_self, List.indexOf_cons_self]
    · rcases List.mem_cons.mp h with h1 | h1
      · exact absurd h1.symm hab
      · rw [List.cons_append, List.indexOf_cons_ne _ hab, List.indexOf_cons_ne _ hab,
          ih h1]

theorem indexOf_append_of_not_mem {l1 l2 : List Nat} {a : Nat} (h : a ∉ l1) :
    (l1 ++ l2).indexOf a = l1.length + l2.indexOf a := by
  induction l1 with
  | nil => simp
  | cons b t ih =>
    have hab : b ≠ a := fun hh => h (hh ▸ List.mem_cons_self _ _)
    have h2 : a ∉ t := fun hh => h (List.mem_cons_of_mem _ hh)
    rw [List.cons_append, List.indexOf_cons_ne _ hab, ih h2, List.length_cons]
    omega

theorem setEdge_redirect (nd : DNode) (pre : List (Char × Nat)) (c : Char) (ch m : Nat)
    (hedges : nd.edges = pre ++ [(c, ch)])
    (hne : ∀ e ∈ pre, e.1 ≠ c) :
    setEdge nd c m = ⟨nd.final, pre ++ [(c, m)]⟩ := by
  have h2 : lookupEdge nd c = some ch := by
    have h1 := lookupEdge_append_last nd.final pre c ch hne c
    rw [if_pos rfl] at h1
    show lookupEdge ⟨nd.final, nd.edges⟩ c = some ch
    rw [hedges]
    exact h1
  have hpres : (lookupEdge nd c).isSome := by rw [h2]; rfl
  rw [setEdge, if_pos hpres, hedges]
  congr 1
  rw [List.map_append]
  congr 1
  · have hid : ∀ e ∈ pre, (if e.1 == c then ((c, m) : Char × Nat) else e) = e := by
      intro e he
      rw [if_neg]
      simp
      exact hne e he
    calc pre.map (fun p => if p.1 == c then (c, m) else p)
        = pre.map id := List.map_congr_left hid
      _ = pre := List.map_id pre
  · simp

theorem findMinimized_some (h : Heap) (mins : List Nat) (child m : Nat)
    (hfm : findMinimized h mins child = some m) :
    m ∈ mins ∧ getNode h m = getNode h child := by
  rw [findMinimized] at hfm
  refine ⟨List.mem_of_find?_eq_some hfm, ?_⟩
  have := List.find?_some hfm
  simpa using this

theorem chainSeq_getLast? (d : Dawg) :
    (chainSeq d).getLast? = some (chainStart d) := by
  rcases List.eq_nil_or_concat d.uncheckedNodes with hn | ⟨us, e, hc⟩
  · rw [chainStart, chainSeq, hn]
    rfl
  · rw [List.concat_eq_append] at hc
    rw [chainStart, chainSeq, hc, List.getLast?_concat, List.map_append]
    show ((0 :: us.map (fun e => e.2.2)) ++ [e.2.2]).getLast? = _
    rw [List.getLast?_concat]

theorem chainStart_eq (d : Dawg) :
    chainStart d = (chainSeq d).getLast (by simp [chainSeq]) := by
  have h1 := chainSeq_getLast? d
  rw [List.getLast?_eq_getLast (chainSeq d) (by simp [chainSeq])] at h1
  exact (Option.some.inj h1).symm

theorem minimizeStep_concat (d : Dawg) (us : List (Nat × Char × Nat)) (p : Nat) (c : Char)
    (ch : Nat) (hc : d.uncheckedNodes = us ++ [(p, c, ch)]) :
    minimizeStep d = (match findMinimized d.heap d.minimizedNodes ch with
      | some m => ⟨setNode d.heap p (setEdge (getNode d.heap p) c m),
          d.prevWord, us, d.minimizedNodes⟩
      | none => ⟨d.heap, d.prevWord, us, d.minimizedNodes ++ [ch]⟩) := by
  rw [minimizeStep, hc, List.getLast?_concat, List.dropLast_concat]

/-- One `_minimize` iteration preserves the builder invariant, pops the last
unchecked entry, keeps the heap size and the previous word, only extends the
interned list, and changes no acceptance anywhere in the graph. -/
theorem minimizeStep_spec (d : Dawg) (hd : InvW d) :
    InvW (minimizeStep d) ∧
    (minimizeStep d).uncheckedNodes = d.uncheckedNodes.dropLast ∧
    (minimizeStep d).prevWord = d.prevWord ∧
    (minimizeStep d).heap.length = d.heap.length ∧
    (∀ x ∈ d.minimizedNodes, x ∈ (minimizeStep d).minimizedNodes) ∧
    (∀ n u, accepts (minimizeStep d).heap n u = accepts d.heap n u) := by
  rcases List.eq_nil_or_concat d.uncheckedNodes with hn | ⟨us, e, hc⟩
  · have hms : minimizeStep d = d := by
      rw [minimizeStep, hn]
      rfl
    rw [hms, hn]
    exact ⟨hd, by simp, rfl, rfl, fun x hx => hx, fun n u => rfl⟩
  · rw [List.concat_eq_append] at hc
    obtain ⟨p, c, ch⟩ := e
    have hchain0 := hd.hchain
    rw [hc] at hchain0
    have hnd0 := hd.hchain_nodup
    rw [chainSeq, hc] at hnd0
    rcases ChainLE_snoc us 0 p c ch d.prevWord hchain0 hnd0 with
      ⟨pre, wrest, hlast, hdrop, hedges, hpremem, hprepair, htailch, himp⟩
    have hp_mem0 : p ∈ (0 :: us.map (fun e => e.2.2)) := by
      rw [← hlast]
      exact List.getLast_mem _
    have hsplit : chainSeq d = (0 :: us.map (fun e => e.2.2)) ++ [ch] := by
      rw [chainSeq, hc, List.map_append]
      rfl
    have hp_mem : p ∈ chainSeq d := by
      rw [hsplit]
      exact List.mem_append_left _ hp_mem0
    have hch_mem : ch ∈ chainSeq d := by
      rw [hsplit]
      exact List.mem_append_right _ (by simp)
    have hnd_split : ((0 :: us.map (fun e => e.2.2)) ++ [ch]).Nodup := by
      rw [← hsplit]
      exact hd.hchain_nodup
    have hnd_pref : (0 :: us.map (fun e => e.2.2)).Nodup :=
      (List.nodup_append.mp hnd_split).1
    have hch_notin0 : ch ∉ (0 :: us.map (fun e => e.2.2)) := by
      rcases List.nodup_append.mp hnd_split with ⟨_, _, hdisj⟩
      intro hmem
      exact hdisj hmem (by simp)
    have hpc_ne : p ≠ ch := fun hh => hch_notin0 (hh ▸ hp_mem0)
    have hp_lt : p < d.heap.length := hd.hchain_lt p hp_mem
    have hp_notmins : p ∉ d.minimizedNodes := hd.hchain_disj p hp_mem
    have hch_notmins : ch ∉ d.minimizedNodes := hd.hchain_disj ch hch_mem
    have hch_lt : ch < d.heap.length := hd.hchain_lt ch hch_mem
    have hpre_ne : ∀ e ∈ pre, e.1 ≠ c := fun e he => ne_of_lt (hpremem e he).2
    have hlk : lookupEdge (getNode d.heap p) c = some ch := by
      have h1 := lookupEdge_append_last (getNode d.heap p).final pre c ch hpre_ne c
      rw [if_pos rfl] at h1
      show lookupEdge ⟨(getNode d.heap p).final, (getNode d.heap p).edges⟩ c = some ch
      rw [hedges]
      exact h1
    have hlen_us : us.length ≤ d.prevWord.length := by
      have := hd.hlen
      rw [hc, List.length_append] at this
      simp at this
      omega
    have hchlt_lift : ∀ n ∈ (0 :: us.map (fun e => e.2.2)), n < d.heap.length :=
      fun n hn => hd.hchain_lt n (by rw [hsplit]; exact List.mem_append_left _ hn)
    have hchdisj_lift : ∀ n ∈ (0 :: us.map (fun e => e.2.2)), n ∉ d.minimizedNodes :=
      fun n hn => hd.hchain_disj n (by rw [hsplit]; exact List.mem_append_left _ hn)
    cases hfm : findMinimized d.heap d.minimizedNodes ch with
    | some m =>
      have hms : minimizeStep d =
          ⟨setNode d.heap p (setEdge (getNode d.heap p) c m), d.prevWord, us,
            d.minimizedNodes⟩ := by
        rw [minimizeStep_concat d us p c ch hc, hfm]
      rcases findMinimized_some _ _ _ _ hfm with ⟨hm_mem, hm_rec⟩
      have hrecp : getNode (setNode d.heap p (setEdge (getNode d.heap p) c m)) p =
          ⟨(getNode d.heap p).final, pre ++ [(c, m)]⟩ := by
        rw [getNode_setNode_self d.heap p _ hp_lt,
          setEdge_redirect _ pre c ch m hedges hpre_ne]
      have hrec_other : ∀ i, i ≠ p →
          getNode (setNode d.heap p (setEdge (getNode d.heap p) c m)) i =
            getNode d.heap i :=
        fun i hi => getNode_setNode_ne d.heap p _ i (fun hh => hi hh.symm)
      have hlen' : (setNode d.heap p (setEdge (getNode d.heap p) c m)).length =
          d.heap.length := length_setNode _ _ _
      have htail' : TailOK d.minimizedNodes
          (getNode (setNode d.heap p (setEdge (getNode d.heap p) c m)) p)
          (c :: wrest) := by
        rw [hrecp]
        refine ⟨?_, ?_, ?_⟩
        · intro e he
          rcases List.mem_append.mp he with h1 | h1
          · exact (hpremem e h1).1
          · have he2 : e = (c, m) := by simpa using h1
            rw [he2]
            exact hm_mem
        · show List.Pairwise (· < ·) ((pre ++ [(c, m)]).map Prod.fst)
          rw [List.map_append, List.pairwise_append]
          refine ⟨hprepair, by simp, ?_⟩
          intro x hx y hy
          have hy2 : y = c := by simpa using hy
          rcases List.mem_map.mp hx with ⟨e, he, hex⟩
          rw [hy2, ← hex]
          exact (hpremem e he).2
        · intro e he ch2 hch2
          have hch2' : ch2 = c := by have := hch2; simp at this; exact this.symm
          rcases List.mem_append.mp he with h1 | h1
          · rw [hch2']
            exact le_of_lt (hpremem e h1).2
          · have he2 : e = (c, m) := by simpa using h1
            rw [he2, hch2']
      have hchain' : ChainLE (setNode d.heap p (setEdge (getNode d.heap p) c m))
          d.minimizedNodes 0 us d.prevWord :=
        himp d.minimizedNodes _ (fun x hx => hx)
          (fun i _ hine => by rw [hrec_other i hine]) htail'
      have hacc : ∀ u n, accepts (setNode d.heap p (setEdge (getNode d.heap p) c m)) n u
          = accepts d.heap n u :=
        accepts_redirect d.heap d.minimizedNodes p ch m c hp_lt hlk hm_rec.symm hm_mem
          hp_notmins hd.hmins_closed
      have hrec_mins : ∀ x ∈ d.minimizedNodes,
          getNode (setNode d.heap p (setEdge (getNode d.heap p) c m)) x =
            getNode d.heap x :=
        fun x hx => hrec_other x (fun hh => hp_notmins (hh ▸ hx))
      rw [hms]
      refine ⟨⟨?_, hchain', hlen_us, ?_, ?_, ?_, ?_, hd.hmins_nodup, ?_, hnd_pref, ?_, ?_⟩,
        ?_, rfl, hlen', fun x hx => hx, fun n u => hacc u n⟩
      · show 0 < (setNode d.heap p (setEdge (getNode d.heap p) c m)).length
        rw [hlen']
        exact hd.hroot
      · intro x hx
        show x < (setNode d.heap p (setEdge (getNode d.heap p) c m)).length
        rw [hlen']
        exact hd.hmins_lt x hx
      · intro x hx e he
        rw [hrec_mins x hx] at he
        exact hd.hmins_closed x hx e he
      · intro x hx e he
        rw [hrec_mins x hx] at he
        exact hd.hmins_topo x hx e he
      · intro x hx
        rw [hrec_mins x hx]
        exact hd.hmins_labels x hx
      · intro n hn
        show n < (setNode d.heap p (setEdge (getNode d.heap p) c m)).length
        rw [hlen']
        exact hchlt_lift n hn
      · exact fun n hn => hchdisj_lift n hn
      · intro i hi hichain himins e he
        have hip : i ≠ p := fun hh => hichain (hh ▸ hp_mem0)
        rw [hrec_other i hip] at he
        by_cases hich : i = ch
        · subst hich
          exact htailch.1 e he
        · have hinot : i ∉ chainSeq d := by
            rw [hsplit]
            intro hmem
            rcases List.mem_append.mp hmem with h1 | h1
            · exact hichain h1
            · exact hich (by simpa using h1)
          have hilt : i < d.heap.length := by
            have : i < (setNode d.heap p (setEdge (getNode d.heap p) c m)).length := hi
            rw [hlen'] at this
            exact this
          exact hd.hdead i hilt hinot himins e he
      · show us = d.uncheckedNodes.dropLast
        rw [hc, List.dropLast_concat]
    | none =>
      have hms : minimizeStep d =
          ⟨d.heap, d.prevWord, us, d.minimizedNodes ++ [ch]⟩ := by
        rw [minimizeStep_concat d us p c ch hc, hfm]
      have htail' : TailOK (d.minimizedNodes ++ [ch]) (getNode d.heap p) (c :: wrest) := by
        refine ⟨?_, ?_, ?_⟩
        · intro e he
          rw [hedges] at he
          rcases List.mem_append.mp he with h1 | h1
          · exact List.mem_append_left _ (hpremem e h1).1
          · have he2 : e = (c, ch) := by simpa using h1
            rw [he2]
            exact List.mem_append_right _ (by simp)
        · show List.Pairwise (· < ·) ((getNode d.heap p).edges.map Prod.fst)
          rw [hedges, List.map_append, List.pairwise_append]
          refine ⟨hprepair, by simp, ?_⟩
          intro x hx y hy
          have hy2 : y = c := by simpa using hy
          rcases List.mem_map.mp hx with ⟨e2, he2, hex⟩
          rw [hy2, ← hex]
          exact (hpremem e2 he2).2
        · intro e he ch2 hch2
          have hch2' : ch2 = c := by have := hch2; simp at this; exact this.symm
          rw [hedges] at he
          rcases List.mem_append.mp he with h1 | h1
          · rw [hch2']
            exact le_of_lt (hpremem e h1).2
          · have he2 : e = (c, ch) := by simpa using h1
            rw [he2, hch2']
      have hchain' : ChainLE d.heap (d.minimizedNodes ++ [ch]) 0 us d.prevWord :=
        himp (d.minimizedNodes ++ [ch]) d.heap (fun x hx => List.mem_append_left _ hx)
          (fun i _ _ => rfl) htail'
      rw [hms]
      refine ⟨⟨hd.hroot, hchain', hlen_us, ?_, ?_, ?_, ?_, ?_, ?_, hnd_pref, ?_, ?_⟩,
        ?_, rfl, rfl, fun x hx => List.mem_append_left _ hx, fun n u => rfl⟩
      · intro x hx
        rcases List.mem_append.mp hx with h1 | h1
        · exact hd.hmins_lt x h1
        · have : x = ch := by simpa using h1
          rw [this]
          exact hch_lt
      · intro x hx e he
        rcases List.mem_append.mp hx with h1 | h1
        · exact List.mem_append_left _ (hd.hmins_closed x h1 e he)
        · have hx2 : x = ch := by simpa using h1
          subst hx2
          exact List.mem_append_left _ (htailch.1 e he)
      · intro x hx e he
        rcases List.mem_append.mp hx with h1 | h1
        · have ht := hd.hmins_topo x h1 e he
          have hte : e.2 ∈ d.minimizedNodes := hd.hmins_closed x h1 e he
          rw [indexOf_append_of_mem h1, indexOf_append_of_mem hte]
          exact ht
        · have hx2 : x = ch := by simpa using h1
          subst hx2
          have hte : e.2 ∈ d.minimizedNodes := htailch.1 e he
          rw [indexOf_append_of_not_mem hch_notmins, indexOf_append_of_mem hte,
            List.indexOf_cons_self]
          have := List.indexOf_lt_length.mpr hte
          omega
      · intro x hx
        rcases List.mem_append.mp hx with h1 | h1
        · exact hd.hmins_labels x h1
        · have hx2 : x = ch := by simpa using h1
          subst hx2
          exact htailch.2.1
      · rw [List.nodup_append]
        refine ⟨hd.hmins_nodup, by simp, ?_⟩
        intro a ha hb
        have : a = ch := by simpa using hb
        exact hch_notmins (this ▸ ha)
      · exact fun n hn => hchlt_lift n hn
      · intro n hn
        intro hmem
        rcases List.mem_append.mp hmem with h1 | h1
        · exact hchdisj_lift n hn h1
        · have : n = ch := by simpa using h1
          exact hch_notin0 (this ▸ hn)
      · intro i hi hichain himins e he
        have hich : i ≠ ch := by
          intro hh
          exact himins (hh ▸ List.mem_append_right _ (by simp))
        have hinot : i ∉ chainSeq d := by
          rw [hsplit]
          intro hmem
          rcases List.mem_append.mp hmem with h1 | h1
          · exact hichain h1
          · exact hich (by simpa using h1)
        have himins2 : i ∉ d.minimizedNodes :=
          fun hh => himins (List.mem_append_left _ hh)
        exact List.mem_append_left _ (hd.hdead i hi hinot himins2 e he)
      · show us = d.uncheckedNodes.dropLast
        rw [hc, List.dropLast_concat]

theorem minimizeLoop_spec : ∀ (n : Nat) (d : Dawg), InvW d →
    InvW (minimizeLoop d n) ∧
    (minimizeLoop d n).uncheckedNodes =
      d.uncheckedNodes.take (d.uncheckedNodes.length - n) ∧
    (minimizeLoop d n).prevWord = d.prevWord ∧
    (minimizeLoop d n).heap.length = d.heap.length ∧
    (∀ x ∈ d.minimizedNodes, x ∈ (minimizeLoop d n).minimizedNodes) ∧
    (∀ n2 u, accepts (minimizeLoop d n).heap n2 u = accepts d.heap n2 u) := by
  intro n
  induction n with
  | zero =>
    intro d hd
    refine ⟨hd, ?_, rfl, rfl, fun x hx => hx, fun n2 u => rfl⟩
    show d.uncheckedNodes = d.uncheckedNodes.take (d.uncheckedNodes.length - 0)
    simp
  | succ k ih =>
    intro d hd
    rcases minimizeStep_spec d hd with ⟨h1, h2, h3, h4, h5, h6⟩
    rcases ih (minimizeStep d) h1 with ⟨g1, g2, g3, g4, g5, g6⟩
    rw [minimizeLoop]
    refine ⟨g1, ?_, by rw [g3, h3], by rw [g4, h4], fun x hx => g5 x (h5 x hx),
      fun n2 u => by rw [g6, h6]⟩
    rw [g2, h2, List.dropLast_eq_take, List.take_take, List.length_take]
    congr 1
    omega

theorem minimizeD_spec (d : Dawg) (hd : InvW d) (downTo : Nat) :
    InvW (minimizeD d downTo) ∧
    (minimizeD d downTo).uncheckedNodes =
      d.uncheckedNodes.take (d.uncheckedNodes.length -
        (d.uncheckedNodes.length - downTo)) ∧
    (minimizeD d downTo).prevWord = d.prevWord ∧
    (minimizeD d downTo).heap.length = d.heap.length ∧
    (∀ x ∈ d.minimizedNodes, x ∈ (minimizeD d downTo).minimizedNodes) ∧
    (∀ n u, accepts (minimizeD d downTo).heap n u = accepts d.heap n u) := by
  rcases minimizeLoop_spec (d.uncheckedNodes.length - downTo) d hd with
    ⟨g1, g2, g3, g4, g5, g6⟩
  exact ⟨g1, g2, g3, g4, g5, g6⟩

theorem accepts_blank_node (h : Heap) (i : Nat) (hrec : getNode h i = blankNode) :
    ∀ u, accepts h i u = false := by
  intro u
  cases u with
  | nil => rw [accepts, hrec]; rfl
  | cons c cs =>
    rw [accepts, hrec]
    rfl

theorem Inv_freshDawg : Inv freshDawg := by
  refine ⟨⟨?_, ?_, ?_, ?_, ?_, ?_, ?_, ?_, ?_, ?_, ?_, ?_⟩, rfl, ?_⟩
  · show (0 : Nat) < 1
    omega
  · apply ChainLE.tail
    exact ⟨fun e he => absurd he (by simp [freshDawg, getNode, blankNode]),
      by simp [freshDawg, getNode, blankNode],
      fun e he => absurd he (by simp [freshDawg, getNode, blankNode])⟩
  · exact Nat.le_refl 0
  · intro m hm
    cases hm
  · intro m hm
    cases hm
  · intro m hm
    cases hm
  · intro m hm
    cases hm
  · exact List.nodup_nil
  · intro n hn
    have : n = 0 := by simpa [chainSeq, freshDawg] using hn
    rw [this]
    show (0 : Nat) < 1
    omega
  · simp [chainSeq, freshDawg]
  · intro n _ hmem
    cases hmem
  · intro i hi hichain _
    exfalso
    apply hichain
    have : i = 0 := by
      have : i < 1 := hi
      omega
    rw [this]
    simp [chainSeq, freshDawg]
  · rfl

/-- Structure of the suffix-appending loop of `insert`: fresh consecutive
node ids, unchecked entries extended by a chain spelling the suffix, all old
records untouched except the start node. -/
theorem addChain_spec : ∀ (suffix : List Char) (d : Dawg) (node : Nat),
    suffix ≠ [] →
    node < d.heap.length →
    (∀ e ∈ (getNode d.heap node).edges, e.2 ∈ d.minimizedNodes ∧
      (∀ c0, suffix.head? = some c0 → e.1 < c0)) →
    List.Pairwise (· < ·) ((getNode d.heap node).edges.map Prod.fst) →
    (addChain d node suffix).1.prevWord = d.prevWord ∧
    (addChain d node suffix).1.minimizedNodes = d.minimizedNodes ∧
    (addChain d node suffix).1.heap.length = d.heap.length + suffix.length ∧
    d.heap.length ≤ (addChain d node suffix).2 ∧
    (addChain d node suffix).2 < (addChain d node suffix).1.heap.length ∧
    getNode (addChain d node suffix).1.heap (addChain d node suffix).2 = blankNode ∧
    (∀ i, i < d.heap.length → i ≠ node →
      getNode (addChain d node suffix).1.heap i = getNode d.heap i) ∧
    ∃ E, (addChain d node suffix).1.uncheckedNodes = d.uncheckedNodes ++ E ∧
      E.map (fun e => e.2.2) = List.range' d.heap.length suffix.length ∧
      (E.map (fun e => e.2.2)).getLast? = some (addChain d node suffix).2 ∧
      ChainLE (addChain d node suffix).1.heap d.minimizedNodes node E suffix := by
  intro suffix
  induction suffix with
  | nil => intro d node hne; exact absurd rfl hne
  | cons c rest ih =>
    intro d node _ hnode hedges hpair
    have hnotc : ∀ e ∈ (getNode d.heap node).edges, e.1 ≠ c :=
      fun e he => ne_of_lt ((hedges e he).2 c rfl)
    have hsetE : setEdge (getNode d.heap node) c d.heap.length =
        ⟨(getNode d.heap node).final,
          (getNode d.heap node).edges ++ [(c, d.heap.length)]⟩ :=
      setEdge_absent _ _ _ hnotc
    have hlen1 : (setNode d.heap node
        (setEdge (getNode d.heap node) c d.heap.length)).length = d.heap.length :=
      length_setNode _ _ _
    have heq : addChain d node (c :: rest) =
        addChain ⟨(setNode d.heap node
            (setEdge (getNode d.heap node) c d.heap.length)) ++ [blankNode],
          d.prevWord, d.uncheckedNodes ++ [(node, c, d.heap.length)],
          d.minimizedNodes⟩ d.heap.length rest := rfl
    have hrec_node : getNode ((setNode d.heap node
        (setEdge (getNode d.heap node) c d.heap.length)) ++ [blankNode]) node =
        ⟨(getNode d.heap node).final,
          (getNode d.heap node).edges ++ [(c, d.heap.length)]⟩ := by
      rw [getNode_append_lt _ _ node (by rw [hlen1]; exact hnode),
        getNode_setNode_self _ _ _ hnode, hsetE]
    have hrec_nid : getNode ((setNode d.heap node
        (setEdge (getNode d.heap node) c d.heap.length)) ++ [blankNode])
        d.heap.length = blankNode := by
      have h2 := getNode_append_self (setNode d.heap node
        (setEdge (getNode d.heap node) c d.heap.length)) blankNode
      rw [hlen1] at h2
      exact h2
    have hrec_old : ∀ i, i < d.heap.length → i ≠ node →
        getNode ((setNode d.heap node
          (setEdge (getNode d.heap node) c d.heap.length)) ++ [blankNode]) i =
          getNode d.heap i := by
      intro i hi hin
      rw [getNode_append_lt _ _ i (by rw [hlen1]; exact hi),
        getNode_setNode_ne _ _ _ i (fun hh => hin hh.symm)]
    by_cases hrest : rest = []
    · subst hrest
      have heq2 : addChain d node [c] =
          (⟨(setNode d.heap node (setEdge (getNode d.heap node) c d.heap.length))
              ++ [blankNode], d.prevWord,
            d.uncheckedNodes ++ [(node, c, d.heap.length)], d.minimizedNodes⟩,
           d.heap.length) := rfl
      rw [heq2]
      refine ⟨rfl, rfl, ?_, le_refl _, ?_, hrec_nid, hrec_old,
        [(node, c, d.heap.length)], rfl, ?_, rfl, ?_⟩
      · show ((setNode d.heap node (setEdge (getNode d.heap node) c d.heap.length))
            ++ [blankNode] : Heap).length = d.heap.length + 1
        simp [hlen1]
      · show d.heap.length < ((setNode d.heap node (setEdge (getNode d.heap node) c
            d.heap.length)) ++ [blankNode] : Heap).length
        rw [List.length_append, hlen1]
        simp
      · show [d.heap.length] = List.range' d.heap.length 1
        rw [List.range'_one]
      · apply ChainLE.cons
        · refine ⟨(getNode d.heap node).edges, ?_,
            fun e he => ⟨(hedges e he).1, (hedges e he).2 c rfl⟩, hpair⟩
          show (getNode ((setNode d.heap node (setEdge (getNode d.heap node) c
              d.heap.length)) ++ [blankNode]) node).edges = _
          rw [hrec_node]
        · apply ChainLE.tail
          show TailOK d.minimizedNodes (getNode ((setNode d.heap node
            (setEdge (getNode d.heap node) c d.heap.length)) ++ [blankNode])
            d.heap.length) []
          rw [hrec_nid]
          exact ⟨fun e he => absurd he (by simp [blankNode]),
            by simp [blankNode], fun e he => absurd he (by simp [blankNode])⟩
    · have hrestne : rest ≠ [] := hrest
      rcases ih ⟨(setNode d.heap node
          (setEdge (getNode d.heap node) c d.heap.length)) ++ [blankNode],
        d.prevWord, d.uncheckedNodes ++ [(node, c, d.heap.length)],
        d.minimizedNodes⟩ d.heap.length hrestne
        (by show d.heap.length < ((setNode d.heap node _) ++ [blankNode]).length
            rw [List.length_append, hlen1]; simp)
        (by intro e he
            rw [hrec_nid] at he
            exact absurd he (by simp [blankNode]))
        (by rw [hrec_nid]; simp [blankNode]) with
        ⟨g1, g2, g3, g4, g5, g6, g7, E', gE1, gE2, gE3, gE4⟩
      have hlen2 : ((setNode d.heap node
          (setEdge (getNode d.heap node) c d.heap.length)) ++ [blankNode]).length =
          d.heap.length + 1 := by
        rw [List.length_append, hlen1]
        rfl
      rw [heq]
      refine ⟨g1, g2, ?_, ?_, g5, g6, ?_, (node, c, d.heap.length) :: E', ?_, ?_, ?_, ?_⟩
      · rw [g3, hlen2, List.length_cons]
        omega
      · rw [hlen2] at g4
        omega
      · intro i hi hin
        rw [g7 i (by rw [hlen2]; omega) (by omega)]
        exact hrec_old i hi hin
      · rw [gE1]
        simp
      · show d.heap.length :: E'.map (fun e => e.2.2) = _
        rw [gE2, hlen2, List.length_cons]
        rw [List.range'_succ]
      · show (d.heap.length :: E'.map (fun e => e.2.2)).getLast? = _
        have hEne : E'.map (fun e => e.2.2) ≠ [] := by
          rw [gE2, hlen2]
          have : rest.length ≠ 0 := fun hh => hrestne (List.length_eq_zero.mp hh)
          intro hh
          apply this
          have := congrArg List.length hh
          simpa using this
        cases hE : E'.map (fun e => e.2.2) with
        | nil => exact absurd hE hEne
        | cons x xs =>
          rw [List.getLast?_cons_cons, ← hE]
          exact gE3
      · apply ChainLE.cons
        · have hrn : getNode (addChain ⟨(setNode d.heap node
              (setEdge (getNode d.heap node) c d.heap.length)) ++ [blankNode],
              d.prevWord, d.uncheckedNodes ++ [(node, c, d.heap.length)],
              d.minimizedNodes⟩ d.heap.length rest).1.heap node =
              ⟨(getNode d.heap node).final,
                (getNode d.heap node).edges ++ [(c, d.heap.length)]⟩ := by
            rw [g7 node (by rw [hlen2]; omega) (by omega)]
            exact hrec_node
          exact ⟨(getNode d.heap node).edges, by rw [hrn],
            fun e he => ⟨(hedges e he).1, (hedges e he).2 c rfl⟩, hpair⟩
        · exact gE4

theorem getNode_markFinal_ne (h : Heap) (x i : Nat) (hix : x ≠ i) :
    getNode (markFinal h x) i = getNode h i :=
  getNode_setNode_ne h x _ i hix

theorem getNode_markFinal_self (h : Heap) (x : Nat) (hx : x < h.length) :
    getNode (markFinal h x) x = ⟨true, (getNode h x).edges⟩ :=
  getNode_setNode_self h x _ hx

theorem length_markFinal (h : Heap) (x : Nat) : (markFinal h x).length = h.length :=
  length_setNode h x _

theorem markFinal_edges (h : Heap) (x i : Nat) (hx : x < h.length) :
    (getNode (markFinal h x) i).edges = (getNode h i).edges := by
  by_cases hix : x = i
  · subst hix
    rw [getNode_markFinal_self h x hx]
  · rw [getNode_markFinal_ne h x i hix]

theorem accepts_cons_eq (h : Heap) (i : Nat) (c : Char) (cs : List Char) (j : Nat)
    (hlk : lookupEdge (getNode h i) c = some j) :
    accepts h i (c :: cs) = accepts h j cs := by
  rw [accepts, hlk]

theorem accepts_cons_none (h : Heap) (i : Nat) (c : Char) (cs : List Char)
    (hlk : lookupEdge (getNode h i) c = none) :
    accepts h i (c :: cs) = false := by
  rw [accepts, hlk]

/-- Appending one fresh edge `(c, nid)` to `node` (all other interned records
untouched) extends the accepted language of `node` by exactly `c`-then-
whatever `nid` accepts. -/
theorem accepts_snoc_edge (h1 h2 : Heap) (node nid : Nat) (mins : List Nat)
    (c : Char) (rest : List Char)
    (hrecN : getNode h2 node = ⟨(getNode h1 node).final,
      (getNode h1 node).edges ++ [(c, nid)]⟩)
    (hnotc : ∀ e ∈ (getNode h1 node).edges, e.1 ≠ c)
    (htargets : ∀ e ∈ (getNode h1 node).edges, e.2 ∈ mins)
    (hagree : ∀ m ∈ mins, getNode h2 m = getNode h1 m)
    (hclosed : ∀ m ∈ mins, ∀ e ∈ (getNode h1 m).edges, e.2 ∈ mins)
    (hnid_acc : ∀ u, accepts h2 nid u = decide (u = rest)) :
    ∀ u, accepts h2 node u = (accepts h1 node u || decide (u = c :: rest)) := by
  intro u
  cases u with
  | nil =>
    rw [accepts, accepts, hrecN]
    simp
  | cons c2 cs =>
    by_cases hc2 : c2 = c
    · subst hc2
      have hlkM : lookupEdge (getNode h2 node) c2 = some nid := by
        rw [hrecN]
        have h3 := lookupEdge_append_last (getNode h1 node).final
          (getNode h1 node).edges c2 nid hnotc c2
        rw [if_pos rfl] at h3
        exact h3
      rw [accepts_cons_eq h2 node c2 cs nid hlkM, hnid_acc cs,
        accepts_cons_none h1 node c2 cs (lookupEdge_eq_none _ _ hnotc)]
      by_cases hcs : cs = rest
      · subst hcs
        simp
      · simp [hcs]
    · have hlkM : lookupEdge (getNode h2 node) c2 = lookupEdge (getNode h1 node) c2 := by
        rw [hrecN]
        have h3 := lookupEdge_append_last (getNode h1 node).final
          (getNode h1 node).edges c nid hnotc c2
        rw [if_neg (fun hh => hc2 hh)] at h3
        exact h3
      cases hlk2 : lookupEdge (getNode h1 node) c2 with
      | none =>
        rw [accepts_cons_none h2 node c2 cs (by rw [hlkM, hlk2]),
          accepts_cons_none h1 node c2 cs hlk2]
        simp [hc2]
      | some t =>
        have ht : t ∈ mins := by
          rcases lookupEdge_mem _ _ _ hlk2 with ⟨e, he, _, he2⟩
          exact he2 ▸ htargets e he
        rw [accepts_cons_eq h2 node c2 cs t (by rw [hlkM, hlk2]),
          accepts_cons_eq h1 node c2 cs t hlk2,
          accepts_agree (· ∈ mins) h1 h2 hagree hclosed cs t ht]
        simp [hc2]

/-- The language effect of the suffix loop of `insert` followed by marking
the final chain node terminal: every old record except the start node's is
untouched, and the start node accepts its old language plus the suffix. -/
theorem addChain_accepts : ∀ (suffix : List Char) (d : Dawg) (node : Nat)
    (mins : List Nat),
    suffix ≠ [] →
    node < d.heap.length →
    (∀ e ∈ (getNode d.heap node).edges, e.2 ∈ mins ∧
      (∀ c0, suffix.head? = some c0 → e.1 ≠ c0)) →
    (∀ m ∈ mins, m < d.heap.length ∧ m ≠ node) →
    (∀ m ∈ mins, ∀ e ∈ (getNode d.heap m).edges, e.2 ∈ mins) →
    (∀ i, i < d.heap.length → i ≠ node →
      getNode (markFinal (addChain d node suffix).1.heap (addChain d node suffix).2) i =
        getNode d.heap i) ∧
    (∀ u, accepts (markFinal (addChain d node suffix).1.heap (addChain d node suffix).2)
        node u = (accepts d.heap node u || decide (u = suffix))) := by
  intro suffix
  induction suffix with
  | nil => intro d node mins hne; exact absurd rfl hne
  | cons c rest ih =>
    intro d node mins _ hnode hedges hmins hclosed
    have hnotc : ∀ e ∈ (getNode d.heap node).edges, e.1 ≠ c :=
      fun e he => (hedges e he).2 c rfl
    have hsetE : setEdge (getNode d.heap node) c d.heap.length =
        ⟨(getNode d.heap node).final,
          (getNode d.heap node).edges ++ [(c, d.heap.length)]⟩ :=
      setEdge_absent _ _ _ hnotc
    have hlen1 : (setNode d.heap node
        (setEdge (getNode d.heap node) c d.heap.length)).length = d.heap.length :=
      length_setNode _ _ _
    have hrec_node : getNode ((setNode d.heap node
        (setEdge (getNode d.heap node) c d.heap.length)) ++ [blankNode]) node =
        ⟨(getNode d.heap node).final,
          (getNode d.heap node).edges ++ [(c, d.heap.length)]⟩ := by
      rw [getNode_append_lt _ _ node (by rw [hlen1]; exact hnode),
        getNode_setNode_self _ _ _ hnode, hsetE]
    have hrec_nid : getNode ((setNode d.heap node
        (setEdge (getNode d.heap node) c d.heap.length)) ++ [blankNode])
        d.heap.length = blankNode := by
      have h2 := getNode_append_self (setNode d.heap node
        (setEdge (getNode d.heap node) c d.heap.length)) blankNode
      rw [hlen1] at h2
      exact h2
    have hrec_old : ∀ i, i < d.heap.length → i ≠ node →
        getNode ((setNode d.heap node
          (setEdge (getNode d.heap node) c d.heap.length)) ++ [blankNode]) i =
          getNode d.heap i := by
      intro i hi hin
      rw [getNode_append_lt _ _ i (by rw [hlen1]; exact hi),
        getNode_setNode_ne _ _ _ i (fun hh => hin hh.symm)]
    have hflen : d.heap.length < ((setNode d.heap node
        (setEdge (getNode d.heap node) c d.heap.length)) ++ [blankNode]).length := by
      rw [List.length_append, hlen1]
      simp
    by_cases hrest : rest = []
    · subst hrest
      have heq3 : markFinal (addChain d node [c]).1.heap (addChain d node [c]).2 =
          markFinal ((setNode d.heap node
            (setEdge (getNode d.heap node) c d.heap.length)) ++ [blankNode])
            d.heap.length := rfl
      rw [heq3]
      have hM_old : ∀ i, i < d.heap.length → i ≠ node →
          getNode (markFinal ((setNode d.heap node
            (setEdge (getNode d.heap node) c d.heap.length)) ++ [blankNode])
            d.heap.length) i = getNode d.heap i := by
        intro i hi hin
        rw [getNode_markFinal_ne _ _ _ (by omega), hrec_old i hi hin]
      have hM_node : getNode (markFinal ((setNode d.heap node
          (setEdge (getNode d.heap node) c d.heap.length)) ++ [blankNode])
          d.heap.length) node = ⟨(getNode d.heap node).final,
            (getNode d.heap node).edges ++ [(c, d.heap.length)]⟩ := by
        rw [getNode_markFinal_ne _ _ _ (by omega), hrec_node]
      have hM_nid : getNode (markFinal ((setNode d.heap node
          (setEdge (getNode d.heap node) c d.heap.length)) ++ [blankNode])
          d.heap.length) d.heap.length = ⟨true, []⟩ := by
        rw [getNode_markFinal_self _ _ hflen, hrec_nid]
        rfl
      have hnid_acc : ∀ u, accepts (markFinal ((setNode d.heap node
          (setEdge (getNode d.heap node) c d.heap.length)) ++ [blankNode])
          d.heap.length) d.heap.length u = decide (u = ([] : List Char)) := by
        intro u
        cases u with
        | nil =>
          rw [accepts, hM_nid]
          simp
        | cons x xs =>
          have hno : lookupEdge (getNode (markFinal ((setNode d.heap node
              (setEdge (getNode d.heap node) c d.heap.length)) ++ [blankNode])
              d.heap.length) d.heap.length) x = none := by
            rw [hM_nid]
            rfl
          rw [accepts_cons_none _ _ _ _ hno]
          simp
      exact ⟨hM_old, accepts_snoc_edge d.heap _ node d.heap.length mins c [] hM_node
        hnotc (fun e he => (hedges e he).1)
        (fun m hm => hM_old m (hmins m hm).1 (hmins m hm).2) hclosed hnid_acc⟩
    · have heq : addChain d node (c :: rest) =
          addChain ⟨(setNode d.heap node
              (setEdge (getNode d.heap node) c d.heap.length)) ++ [blankNode],
            d.prevWord, d.uncheckedNodes ++ [(node, c, d.heap.length)],
            d.minimizedNodes⟩ d.heap.length rest := rfl
      rcases ih ⟨(setNode d.heap node
            (setEdge (getNode d.heap node) c d.heap.length)) ++ [blankNode],
          d.prevWord, d.uncheckedNodes ++ [(node, c, d.heap.length)],
          d.minimizedNodes⟩ d.heap.length mins hrest
        (by show d.heap.length < ((setNode d.heap node
              (setEdge (getNode d.heap node) c d.heap.length)) ++ [blankNode]).length
            exact hflen)
        (by intro e he
            rw [show getNode ((setNode d.heap node
              (setEdge (getNode d.heap node) c d.heap.length)) ++ [blankNode])
              d.heap.length = blankNode from hrec_nid] at he
            exact absurd he (by simp [blankNode]))
        (by intro m hm
            refine ⟨?_, ?_⟩
            · show m < ((setNode d.heap node
                (setEdge (getNode d.heap node) c d.heap.length)) ++ [blankNode]).length
              have := (hmins m hm).1
              omega
            · have := (hmins m hm).1
              omega)
        (by intro m hm e he
            rw [show getNode ((setNode d.heap node
              (setEdge (getNode d.heap node) c d.heap.length)) ++ [blankNode]) m =
              getNode d.heap m from hrec_old m (hmins m hm).1 (hmins m hm).2] at he
            exact hclosed m hm e he) with ⟨ihrec, ihacc⟩
      rw [heq]
      have hM_old : ∀ i, i < d.heap.length → i ≠ node →
          getNode (markFinal (addChain ⟨(setNode d.heap node
              (setEdge (getNode d.heap node) c d.heap.length)) ++ [blankNode],
            d.prevWord, d.uncheckedNodes ++ [(node, c, d.heap.length)],
            d.minimizedNodes⟩ d.heap.length rest).1.heap
            (addChain ⟨(setNode d.heap node
              (setEdge (getNode d.heap node) c d.heap.length)) ++ [blankNode],
            d.prevWord, d.uncheckedNodes ++ [(node, c, d.heap.length)],
            d.minimizedNodes⟩ d.heap.length rest).2) i = getNode d.heap i := by
        intro i hi hin
        have hlt2 : i < ((setNode d.heap node
            (setEdge (getNode d.heap node) c d.heap.length)) ++ [blankNode]).length := by
          rw [List.length_append, hlen1]
          omega
        exact (ihrec i hlt2 (by omega)).trans (hrec_old i hi hin)
      have hM_node : getNode (markFinal (addChain ⟨(setNode d.heap node
            (setEdge (getNode d.heap node) c d.heap.length)) ++ [blankNode],
          d.prevWord, d.uncheckedNodes ++ [(node, c, d.heap.length)],
          d.minimizedNodes⟩ d.heap.length rest).1.heap
          (addChain ⟨(setNode d.heap node
            (setEdge (getNode d.heap node) c d.heap.length)) ++ [blankNode],
          d.prevWord, d.uncheckedNodes ++ [(node, c, d.heap.length)],
          d.minimizedNodes⟩ d.heap.length rest).2) node =
          ⟨(getNode d.heap node).final,
            (getNode d.heap node).edges ++ [(c, d.heap.length)]⟩ := by
        have hlt2 : node < ((setNode d.heap node
            (setEdge (getNode d.heap node) c d.heap.length)) ++ [blankNode]).length := by
          rw [List.length_append, hlen1]
          omega
        exact (ihrec node hlt2 (by omega)).trans hrec_node
      have hnid_acc : ∀ u, accepts (markFinal (addChain ⟨(setNode d.heap node
            (setEdge (getNode d.heap node) c d.heap.length)) ++ [blankNode],
          d.prevWord, d.uncheckedNodes ++ [(node, c, d.heap.length)],
          d.minimizedNodes⟩ d.heap.length rest).1.heap
          (addChain ⟨(setNode d.heap node
            (setEdge (getNode d.heap node) c d.heap.length)) ++ [blankNode],
          d.prevWord, d.uncheckedNodes ++ [(node, c, d.heap.length)],
          d.minimizedNodes⟩ d.heap.length rest).2) d.heap.length u =
          decide (u = rest) := by
        intro u
        exact ((ihacc u).trans (congrArg (fun b => b || decide (u = rest))
          (accepts_blank_node _ _ hrec_nid u))).trans (Bool.false_or _)
      exact ⟨hM_old, accepts_snoc_edge d.heap _ node d.heap.length mins c rest hM_node
        hnotc (fun e he => (hedges e he).1)
        (fun m hm => hM_old m (hmins m hm).1 (hmins m hm).2) hclosed hnid_acc⟩

theorem drop_head_getD : ∀ (l : List Char) (n : Nat), n < l.length →
    (l.drop n).head? = some (l.getD n 'a') := by
  intro l
  induction l with
  | nil => intro n hn; simp at hn
  | cons a t ih =>
    intro n hn
    cases n with
    | zero => rfl
    | succ k =>
      rw [List.drop_succ_cons, List.getD_cons_succ]
      exact ih k (by simpa using hn)

/-- Lift the tail node's language extension along the chain of interior
nodes: if the tail now accepts its old language plus `suffix2` and no other
chain or interned record changed, the chain head accepts its old language
plus the spelled prefix followed by `suffix2`. -/
theorem chain_accepts_lift {h h' : Heap} {mins : List Nat} :
    ∀ (entries : List (Nat × Char × Nat)) (par : Nat) (word suffix2 : List Char),
      ChainLE h mins par entries word →
      (par :: entries.map (fun e => e.2.2)).Nodup →
      (∀ m ∈ mins, getNode h' m = getNode h m) →
      (∀ m ∈ mins, ∀ e ∈ (getNode h m).edges, e.2 ∈ mins) →
      (∀ i ∈ par :: entries.map (fun e => e.2.2),
        i ≠ (par :: entries.map (fun e => e.2.2)).getLast (List.cons_ne_nil _ _) →
        getNode h' i = getNode h i) →
      (∀ u, accepts h' ((par :: entries.map (fun e => e.2.2)).getLast
          (List.cons_ne_nil _ _)) u =
        (accepts h ((par :: entries.map (fun e => e.2.2)).getLast
          (List.cons_ne_nil _ _)) u || decide (u = suffix2))) →
      ∀ u, accepts h' par u =
        (accepts h par u || decide (u = word.take entries.length ++ suffix2)) := by
  intro entries
  induction entries with
  | nil =>
    intro par word suffix2 _ _ _ _ _ htail u
    have h1 := htail u
    simpa using h1
  | cons a entries ih =>
    obtain ⟨a1, a2, a3⟩ := a
    intro par word suffix2 hch hnd hagreem hclosed hagreei htail u
    cases hch with
    | cons _ _ _ _ word' hok hsub =>
      simp only [List.map_cons, List.length_cons, List.take_succ_cons,
        List.cons_append] at hnd hagreei htail ⊢
      have hglne : (a3 :: entries.map (fun e => e.2.2)) ≠ [] := List.cons_ne_nil _ _
      have hgl : (a1 :: a3 :: entries.map (fun e => e.2.2)).getLast (List.cons_ne_nil _ _)
          = (a3 :: entries.map (fun e => e.2.2)).getLast hglne := List.getLast_cons hglne
      have ha1ne : a1 ≠ (a3 :: entries.map (fun e => e.2.2)).getLast hglne := by
        intro hh
        have h2 := (List.nodup_cons.mp hnd).1
        apply h2
        rw [hh]
        exact List.getLast_mem hglne
      have hrec_a1 : getNode h' a1 = getNode h a1 := by
        apply hagreei a1 (List.mem_cons_self _ _)
        rw [hgl]
        exact ha1ne
      have hsubacc : ∀ v, accepts h' a3 v =
          (accepts h a3 v || decide (v = word'.take entries.length ++ suffix2)) := by
        apply ih a3 word' suffix2 hsub hnd.of_cons hagreem hclosed
        · intro i hi hine
          apply hagreei i (List.mem_cons_of_mem _ hi)
          rw [hgl]
          exact hine
        · intro v
          have h3 := htail v
          rw [hgl] at h3
          exact h3
      rcases hok with ⟨pre, hpre, hmem, hpair⟩
      cases u with
      | nil =>
        rw [accepts, accepts, hrec_a1]
        simp
      | cons c cs =>
        by_cases hc : c = a2
        · subst hc
          have hlk : lookupEdge (getNode h a1) c = some a3 := by
            have h3 := lookupEdge_append_last (getNode h a1).final pre c a3
              (fun e he => ne_of_lt (hmem e he).2) c
            rw [if_pos rfl] at h3
            show lookupEdge ⟨(getNode h a1).final, (getNode h a1).edges⟩ c = some a3
            rw [hpre]
            exact h3
          rw [accepts_cons_eq h' a1 c cs a3 (by rw [hrec_a1]; exact hlk),
            accepts_cons_eq h a1 c cs a3 hlk, hsubacc cs]
          by_cases hcs : cs = word'.take entries.length ++ suffix2
          · subst hcs
            simp
          · simp [hcs]
        · have hlkeq : lookupEdge (getNode h' a1) c = lookupEdge (getNode h a1) c := by
            rw [hrec_a1]
          cases hlk2 : lookupEdge (getNode h a1) c with
          | none =>
            rw [accepts_cons_none h' a1 c cs (by rw [hlkeq, hlk2]),
              accepts_cons_none h a1 c cs hlk2]
            simp [hc]
          | some t =>
            have ht : t ∈ mins := by
              rcases lookupEdge_mem _ _ _ hlk2 with ⟨e, he, he1, he2⟩
              rw [hpre] at he
              rcases List.mem_append.mp he with h1 | h1
              · exact he2 ▸ (hmem e h1).1
              · exfalso
                have he3 : e = (a2, a3) := by simpa using h1
                rw [he3] at he1
                exact hc (by simpa using he1.symm)
            rw [accepts_cons_eq h' a1 c cs t (by rw [hlkeq, hlk2]),
              accepts_cons_eq h a1 c cs t hlk2,
              accepts_agree (· ∈ mins) h h' hagreem hclosed cs t ht]
            simp [hc]

theorem getLast?_append_right (l1 l2 : List Nat) (h : l2 ≠ []) :
    (l1 ++ l2).getLast? = l2.getLast? := by
  induction l1 with
  | nil => rw [List.nil_append]
  | cons a t ih =>
    rw [List.cons_append]
    cases hr : t ++ l2 with
    | nil => exact absurd (List.append_eq_nil.mp hr).2 h
    | cons x xs =>
      rw [List.getLast?_cons_cons, ← hr, ih]

theorem getLast_eq_of_getLast? (l : List Nat) (hne : l ≠ []) (x : Nat)
    (h : l.getLast? = some x) : l.getLast hne = x := by
  rw [List.getLast?_eq_getLast l hne] at h
  exact Option.some.inj h

/-- The core of a successful `insert`: minimization has already run (`d1`),
the unchecked chain covers exactly the common prefix `cp` of the new word
`w`, and every edge label of the suffix start node lies strictly below the
divergence character.  The resulting builder satisfies the full invariant
and accepts exactly the old language plus `w`. -/
theorem insert_core (d1 : Dawg) (w : List Char) (cp : Nat) (hIw1 : InvW d1)
    (hun_len : d1.uncheckedNodes.length = cp)
    (hcp_lt : cp < w.length)
    (htake_pw : w.take cp = d1.prevWord.take cp)
    (hbound : ∀ e ∈ (getNode d1.heap (chainStart d1)).edges, e.1 < w.getD cp 'a') :
    Inv ⟨markFinal (addChain d1 (chainStart d1) (w.drop cp)).1.heap
        (addChain d1 (chainStart d1) (w.drop cp)).2, w,
      (addChain d1 (chainStart d1) (w.drop cp)).1.uncheckedNodes,
      (addChain d1 (chainStart d1) (w.drop cp)).1.minimizedNodes⟩ ∧
    (∀ u, accepts (markFinal (addChain d1 (chainStart d1) (w.drop cp)).1.heap
        (addChain d1 (chainStart d1) (w.drop cp)).2) 0 u =
      (accepts d1.heap 0 u || decide (u = w))) := by
  have hst_eq2 : chainStart d1 = (0 :: d1.uncheckedNodes.map (fun e => e.2.2)).getLast
      (List.cons_ne_nil _ _) := chainStart_eq d1
  have hnd1 : (0 :: d1.uncheckedNodes.map (fun e => e.2.2)).Nodup := hIw1.hchain_nodup
  have hst_mem : chainStart d1 ∈ chainSeq d1 := by
    rw [chainStart_eq d1]
    exact List.getLast_mem _
  have hst_lt : chainStart d1 < d1.heap.length := hIw1.hchain_lt _ hst_mem
  have hst_nm : chainStart d1 ∉ d1.minimizedNodes := hIw1.hchain_disj _ hst_mem
  have htail1 : TailOK d1.minimizedNodes (getNode d1.heap (chainStart d1))
      (d1.prevWord.drop cp) := by
    have h2 := ChainLE_tailOK hIw1.hchain
    rw [← hst_eq2, hun_len] at h2
    exact h2
  have hsuffix_ne : w.drop cp ≠ [] := by
    intro hh
    have h3 := congrArg List.length hh
    rw [List.length_drop] at h3
    simp at h3
    omega
  have hsuffix_head : (w.drop cp).head? = some (w.getD cp 'a') :=
    drop_head_getD w cp hcp_lt
  have hedges_spec : ∀ e ∈ (getNode d1.heap (chainStart d1)).edges,
      e.2 ∈ d1.minimizedNodes ∧ (∀ c0, (w.drop cp).head? = some c0 → e.1 < c0) := by
    intro e he
    refine ⟨htail1.1 e he, ?_⟩
    intro c0 hc0
    rw [hsuffix_head] at hc0
    cases hc0
    exact hbound e he
  rcases addChain_spec (w.drop cp) d1 (chainStart d1) hsuffix_ne hst_lt hedges_spec
    htail1.2.1 with ⟨a1, a2, a3, a4, a5, a6, a7, E, aE1, aE2, aE3, aE4⟩
  rcases addChain_accepts (w.drop cp) d1 (chainStart d1) d1.minimizedNodes hsuffix_ne
    hst_lt (fun e he => ⟨(hedges_spec e he).1,
      fun c0 hc0 => ne_of_lt ((hedges_spec e he).2 c0 hc0)⟩)
    (fun m hm => ⟨hIw1.hmins_lt m hm, fun hh => hst_nm (hh ▸ hm)⟩)
    hIw1.hmins_closed with ⟨brec, bacc⟩
  have hlenM : (markFinal (addChain d1 (chainStart d1) (w.drop cp)).1.heap
      (addChain d1 (chainStart d1) (w.drop cp)).2).length =
      d1.heap.length + (w.length - cp) := by
    rw [length_markFinal, a3, List.length_drop]
  have hE_len : E.length = w.length - cp := by
    have h2 := congrArg List.length aE2
    rw [List.length_map, List.length_range'] at h2
    rw [h2, List.length_drop]
  have hmarkedges : ∀ i, (getNode (markFinal (addChain d1 (chainStart d1)
      (w.drop cp)).1.heap (addChain d1 (chainStart d1) (w.drop cp)).2) i).edges =
      (getNode (addChain d1 (chainStart d1) (w.drop cp)).1.heap i).edges :=
    fun i => markFinal_edges _ _ i a5
  have hEchain : ChainLE (markFinal (addChain d1 (chainStart d1) (w.drop cp)).1.heap
      (addChain d1 (chainStart d1) (w.drop cp)).2) d1.minimizedNodes (chainStart d1) E
      (w.drop cp) :=
    ChainLE_congr (fun x hx => hx) aE4 (fun i _ => hmarkedges i)
  have hagreem : ∀ m ∈ d1.minimizedNodes,
      getNode (markFinal (addChain d1 (chainStart d1) (w.drop cp)).1.heap
        (addChain d1 (chainStart d1) (w.drop cp)).2) m = getNode d1.heap m :=
    fun m hm => brec m (hIw1.hmins_lt m hm) (fun hh => hst_nm (hh ▸ hm))
  have hagreei : ∀ i ∈ (0 :: d1.uncheckedNodes.map (fun e => e.2.2)),
      i ≠ (0 :: d1.uncheckedNodes.map (fun e => e.2.2)).getLast (List.cons_ne_nil _ _) →
      getNode (markFinal (addChain d1 (chainStart d1) (w.drop cp)).1.heap
        (addChain d1 (chainStart d1) (w.drop cp)).2) i = getNode d1.heap i := by
    intro i hi hine
    apply brec i (hIw1.hchain_lt i hi)
    rw [hst_eq2]
    exact hine
  have hchain' : ChainLE (markFinal (addChain d1 (chainStart d1) (w.drop cp)).1.heap
      (addChain d1 (chainStart d1) (w.drop cp)).2) d1.minimizedNodes 0
      (d1.uncheckedNodes ++ E) w := by
    apply ChainLE_append d1.uncheckedNodes 0 d1.prevWord w E hIw1.hchain hnd1
    · rw [hun_len]
      exact htake_pw
    · intro i hi hine
      rw [hagreei i hi hine]
    · rw [← hst_eq2, hun_len]
      exact hEchain
  have hunA : (addChain d1 (chainStart d1) (w.drop cp)).1.uncheckedNodes.length =
      w.length := by
    rw [aE1, List.length_append, hun_len, hE_len]
    omega
  have hEmapne : E.map (fun e => e.2.2) ≠ [] := by
    intro hh
    have h2 := congrArg List.length hh
    rw [List.length_map, List.length_nil] at h2
    omega
  have hgl? : (0 :: (addChain d1 (chainStart d1)
      (w.drop cp)).1.uncheckedNodes.map (fun e => e.2.2)).getLast? =
      some (addChain d1 (chainStart d1) (w.drop cp)).2 := by
    rw [aE1, List.map_append]
    show ((0 :: d1.uncheckedNodes.map (fun e => e.2.2)) ++
      E.map (fun e => e.2.2)).getLast? = _
    rw [getLast?_append_right _ _ hEmapne]
    exact aE3
  have hfinalrec : getNode (markFinal (addChain d1 (chainStart d1) (w.drop cp)).1.heap
      (addChain d1 (chainStart d1) (w.drop cp)).2)
      (addChain d1 (chainStart d1) (w.drop cp)).2 = ⟨true, []⟩ := by
    have h2 := getNode_markFinal_self (addChain d1 (chainStart d1) (w.drop cp)).1.heap
      (addChain d1 (chainStart d1) (w.drop cp)).2 a5
    rw [a6] at h2
    exact h2
  have htailacc : ∀ u, accepts (markFinal (addChain d1 (chainStart d1)
      (w.drop cp)).1.heap (addChain d1 (chainStart d1) (w.drop cp)).2)
      ((0 :: d1.uncheckedNodes.map (fun e => e.2.2)).getLast (List.cons_ne_nil _ _)) u =
      (accepts d1.heap ((0 :: d1.uncheckedNodes.map (fun e => e.2.2)).getLast
        (List.cons_ne_nil _ _)) u || decide (u = w.drop cp)) := by
    intro u
    rw [← hst_eq2]
    exact bacc u
  have hacc0 : ∀ u, accepts (markFinal (addChain d1 (chainStart d1)
      (w.drop cp)).1.heap (addChain d1 (chainStart d1) (w.drop cp)).2) 0 u =
      (accepts d1.heap 0 u || decide (u = w)) := by
    intro u
    have h2 := chain_accepts_lift d1.uncheckedNodes 0 d1.prevWord (w.drop cp)
      hIw1.hchain hnd1 hagreem hIw1.hmins_closed hagreei htailacc u
    rw [hun_len, ← htake_pw, List.take_append_drop] at h2
    exact h2
  refine ⟨⟨⟨?_, ?_, ?_, ?_, ?_, ?_, ?_, ?_, ?_, ?_, ?_, ?_⟩, ?_, ?_⟩, hacc0⟩
  · show 0 < (markFinal (addChain d1 (chainStart d1) (w.drop cp)).1.heap
      (addChain d1 (chainStart d1) (w.drop cp)).2).length
    rw [hlenM]
    have := hIw1.hroot
    omega
  · show ChainLE (markFinal (addChain d1 (chainStart d1) (w.drop cp)).1.heap
      (addChain d1 (chainStart d1) (w.drop cp)).2)
      (addChain d1 (chainStart d1) (w.drop cp)).1.minimizedNodes 0
      (addChain d1 (chainStart d1) (w.drop cp)).1.uncheckedNodes w
    rw [a2, aE1]
    exact hchain'
  · show (addChain d1 (chainStart d1) (w.drop cp)).1.uncheckedNodes.length ≤ w.length
    exact le_of_eq hunA
  · intro m hm
    have hm2 : m ∈ (addChain d1 (chainStart d1) (w.drop cp)).1.minimizedNodes := hm
    rw [a2] at hm2
    show m < (markFinal (addChain d1 (chainStart d1) (w.drop cp)).1.heap
      (addChain d1 (chainStart d1) (w.drop cp)).2).length
    rw [hlenM]
    have := hIw1.hmins_lt m hm2
    omega
  · intro m hm e he
    have hm2 : m ∈ (addChain d1 (chainStart d1) (w.drop cp)).1.minimizedNodes := hm
    rw [a2] at hm2
    have he2 : e ∈ (getNode (markFinal (addChain d1 (chainStart d1)
      (w.drop cp)).1.heap (addChain d1 (chainStart d1) (w.drop cp)).2) m).edges := he
    rw [hagreem m hm2] at he2
    show e.2 ∈ (addChain d1 (chainStart d1) (w.drop cp)).1.minimizedNodes
    rw [a2]
    exact hIw1.hmins_closed m hm2 e he2
  · intro m hm e he
    have hm2 : m ∈ (addChain d1 (chainStart d1) (w.drop cp)).1.minimizedNodes := hm
    rw [a2] at hm2
    have he2 : e ∈ (getNode (markFinal (addChain d1 (chainStart d1)
      (w.drop cp)).1.heap (addChain d1 (chainStart d1) (w.drop cp)).2) m).edges := he
    rw [hagreem m hm2] at he2
    show (addChain d1 (chainStart d1) (w.drop cp)).1.minimizedNodes.indexOf e.2 <
      (addChain d1 (chainStart d1) (w.drop cp)).1.minimizedNodes.indexOf m
    rw [a2]
    exact hIw1.hmins_topo m hm2 e he2
  · intro m hm
    have hm2 : m ∈ (addChain d1 (chainStart d1) (w.drop cp)).1.minimizedNodes := hm
    rw [a2] at hm2
    show List.Pairwise (· < ·) ((getNode (markFinal (addChain d1 (chainStart d1)
      (w.drop cp)).1.heap (addChain d1 (chainStart d1) (w.drop cp)).2) m).edges.map
      Prod.fst)
    rw [hagreem m hm2]
    exact hIw1.hmins_labels m hm2
  · show (addChain d1 (chainStart d1) (w.drop cp)).1.minimizedNodes.Nodup
    rw [a2]
    exact hIw1.hmins_nodup
  · intro n hn
    have hn2 : n ∈ (0 :: d1.uncheckedNodes.map (fun e => e.2.2)) ++
        E.map (fun e => e.2.2) := by
      have hn3 : n ∈ 0 :: (addChain d1 (chainStart d1)
        (w.drop cp)).1.uncheckedNodes.map (fun e => e.2.2) := hn
      rw [aE1, List.map_append] at hn3
      exact hn3
    show n < (markFinal (addChain d1 (chainStart d1) (w.drop cp)).1.heap
      (addChain d1 (chainStart d1) (w.drop cp)).2).length
    rw [hlenM]
    rcases List.mem_append.mp hn2 with h1 | h1
    · have := hIw1.hchain_lt n h1
      omega
    · rw [aE2] at h1
      have := List.mem_range'_1.mp h1
      rw [List.length_drop] at this
      omega
  · show (0 :: (addChain d1 (chainStart d1)
      (w.drop cp)).1.uncheckedNodes.map (fun e => e.2.2)).Nodup
    rw [aE1, List.map_append]
    show ((0 :: d1.uncheckedNodes.map (fun e => e.2.2)) ++
      E.map (fun e => e.2.2)).Nodup
    rw [List.nodup_append]
    refine ⟨hnd1, ?_, ?_⟩
    · rw [aE2]
      exact List.nodup_range' _ _
    · intro a ha hb
      have h1 := hIw1.hchain_lt a ha
      rw [aE2] at hb
      have h2 := List.mem_range'_1.mp hb
      omega
  · intro n hn
    have hn2 : n ∈ (0 :: d1.uncheckedNodes.map (fun e => e.2.2)) ++
        E.map (fun e => e.2.2) := by
      have hn3 : n ∈ 0 :: (addChain d1 (chainStart d1)
        (w.drop cp)).1.uncheckedNodes.map (fun e => e.2.2) := hn
      rw [aE1, List.map_append] at hn3
      exact hn3
    intro hmem
    have hmem2 : n ∈ (addChain d1 (chainStart d1) (w.drop cp)).1.minimizedNodes := hmem
    rw [a2] at hmem2
    rcases List.mem_append.mp hn2 with h1 | h1
    · exact hIw1.hchain_disj n h1 hmem2
    · rw [aE2] at h1
      have h2 := List.mem_range'_1.mp h1
      have h3 := hIw1.hmins_lt n hmem2
      omega
  · intro i hi hic him e he
    have hi2 : i < d1.heap.length + (w.length - cp) := by
      have h3 : i < (markFinal (addChain d1 (chainStart d1) (w.drop cp)).1.heap
        (addChain d1 (chainStart d1) (w.drop cp)).2).length := hi
      rw [hlenM] at h3
      exact h3
    by_cases hcase : i < d1.heap.length
    · have hic1 : i ∉ chainSeq d1 := by
        intro hmem
        apply hic
        show i ∈ 0 :: (addChain d1 (chainStart d1)
          (w.drop cp)).1.uncheckedNodes.map (fun e => e.2.2)
        rw [aE1, List.map_append]
        show i ∈ (0 :: d1.uncheckedNodes.map (fun e => e.2.2)) ++
          E.map (fun e => e.2.2)
        exact List.mem_append_left _ hmem
      have hine : i ≠ chainStart d1 := fun hh => hic1 (hh ▸ hst_mem)
      have him2 : i ∉ d1.minimizedNodes := by
        intro hmem
        apply him
        show i ∈ (addChain d1 (chainStart d1) (w.drop cp)).1.minimizedNodes
        rw [a2]
        exact hmem
      have he2 : e ∈ (getNode d1.heap i).edges := by
        have he3 : e ∈ (getNode (markFinal (addChain d1 (chainStart d1)
          (w.drop cp)).1.heap (addChain d1 (chainStart d1) (w.drop cp)).2) i).edges := he
        rw [brec i hcase hine] at he3
        exact he3
      show e.2 ∈ (addChain d1 (chainStart d1) (w.drop cp)).1.minimizedNodes
      rw [a2]
      exact hIw1.hdead i hcase hic1 him2 e he2
    · exfalso
      apply hic
      show i ∈ 0 :: (addChain d1 (chainStart d1)
        (w.drop cp)).1.uncheckedNodes.map (fun e => e.2.2)
      rw [aE1, List.map_append]
      show i ∈ (0 :: d1.uncheckedNodes.map (fun e => e.2.2)) ++
        E.map (fun e => e.2.2)
      apply List.mem_append_right
      rw [aE2]
      rw [List.mem_range'_1]
      rw [List.length_drop]
      omega
  · show (addChain d1 (chainStart d1) (w.drop cp)).1.uncheckedNodes.length = w.length
    exact hunA
  · show (getNode (markFinal (addChain d1 (chainStart d1) (w.drop cp)).1.heap
      (addChain d1 (chainStart d1) (w.drop cp)).2)
      ((0 :: (addChain d1 (chainStart d1)
        (w.drop cp)).1.uncheckedNodes.map (fun e => e.2.2)).getLast
        (List.cons_ne_nil _ _))).edges = []
    rw [getLast_eq_of_getLast? _ _ _ hgl?]
    rw [hfinalrec]

/-- A successful `insert` preserves the builder invariant, records the new
previous word, and extends the accepted language by exactly the new word. -/
theorem insertD_spec (d : Dawg) (w : List Char) (d' : Dawg) (hd : Inv d)
    (hins : insertD d w = some d') :
    Inv d' ∧ d'.prevWord = w ∧
    (∀ u, accepts d'.heap 0 u = (accepts d.heap 0 u || decide (u = w))) := by
  rw [insertD] at hins
  by_cases hle : strLE w d.prevWord = true
  · rw [if_pos hle] at hins
    cases hins
  · rw [if_neg hle] at hins
    have hlef : strLE w d.prevWord = false := by
      cases h2 : strLE w d.prevWord
      · rfl
      · exact absurd h2 hle
    have hins2 : (⟨markFinal (addChain (minimizeD d (commonPrefixLen w d.prevWord))
        (chainStart (minimizeD d (commonPrefixLen w d.prevWord)))
        (w.drop (commonPrefixLen w d.prevWord))).1.heap
        (addChain (minimizeD d (commonPrefixLen w d.prevWord))
        (chainStart (minimizeD d (commonPrefixLen w d.prevWord)))
        (w.drop (commonPrefixLen w d.prevWord))).2, w,
        (addChain (minimizeD d (commonPrefixLen w d.prevWord))
        (chainStart (minimizeD d (commonPrefixLen w d.prevWord)))
        (w.drop (commonPrefixLen w d.prevWord))).1.uncheckedNodes,
        (addChain (minimizeD d (commonPrefixLen w d.prevWord))
        (chainStart (minimizeD d (commonPrefixLen w d.prevWord)))
        (w.drop (commonPrefixLen w d.prevWord))).1.minimizedNodes⟩ : Dawg) = d' :=
      Option.some.inj hins
    subst hins2
    have hcp_le : commonPrefixLen w d.prevWord ≤ d.prevWord.length :=
      commonPrefixLen_le_right w d.prevWord
    have hcp_ltw : commonPrefixLen w d.prevWord < w.length :=
      commonPrefixLen_lt_length w d.prevWord hlef
    rcases minimizeD_spec d hd.toInvW (commonPrefixLen w d.prevWord) with
      ⟨hIw1, hun1, hpw1, hhl1, hmins1, hacc1⟩
    have hun_len : (minimizeD d (commonPrefixLen w d.prevWord)).uncheckedNodes.length =
        commonPrefixLen w d.prevWord := by
      rw [hun1, List.length_take]
      have := hd.hfull
      omega
    have htake_pw : w.take (commonPrefixLen w d.prevWord) =
        (minimizeD d (commonPrefixLen w d.prevWord)).prevWord.take
          (commonPrefixLen w d.prevWord) := by
      rw [hpw1]
      exact take_commonPrefixLen w d.prevWord
    have hbound : ∀ e ∈ (getNode (minimizeD d (commonPrefixLen w d.prevWord)).heap
        (chainStart (minimizeD d (commonPrefixLen w d.prevWord)))).edges,
        e.1 < w.getD (commonPrefixLen w d.prevWord) 'a' := by
      by_cases hcase : commonPrefixLen w d.prevWord = d.prevWord.length
      · have hd1 : minimizeD d (commonPrefixLen w d.prevWord) = d := by
          rw [minimizeD]
          have hz : d.uncheckedNodes.length - commonPrefixLen w d.prevWord = 0 := by
            have := hd.hfull
            omega
          rw [hz]
          rfl
        have hempty : (getNode d.heap (chainStart d)).edges = [] := by
          have h3 : chainStart d = (chainSeq d).getLast (by simp [chainSeq]) :=
            chainStart_eq d
          rw [h3]
          exact hd.htail
        intro e he
        rw [hd1, hempty] at he
        cases he
      · have hcp_ltp : commonPrefixLen w d.prevWord < d.prevWord.length := by omega
        have htail1 : TailOK (minimizeD d (commonPrefixLen w d.prevWord)).minimizedNodes
            (getNode (minimizeD d (commonPrefixLen w d.prevWord)).heap
              (chainStart (minimizeD d (commonPrefixLen w d.prevWord))))
            ((minimizeD d (commonPrefixLen w d.prevWord)).prevWord.drop
              (commonPrefixLen w d.prevWord)) := by
          have h2 := ChainLE_tailOK hIw1.hchain
          have h3 : chainStart (minimizeD d (commonPrefixLen w d.prevWord)) =
              (0 :: (minimizeD d (commonPrefixLen w d.prevWord)).uncheckedNodes.map
                (fun e => e.2.2)).getLast (List.cons_ne_nil _ _) := chainStart_eq _
          rw [← h3, hun_len] at h2
          exact h2
        intro e he
        have hhead : ((minimizeD d (commonPrefixLen w d.prevWord)).prevWord.drop
            (commonPrefixLen w d.prevWord)).head? =
            some (d.prevWord.getD (commonPrefixLen w d.prevWord) 'a') := by
          rw [hpw1]
          exact drop_head_getD d.prevWord (commonPrefixLen w d.prevWord) hcp_ltp
        have h5 := htail1.2.2 e he (d.prevWord.getD (commonPrefixLen w d.prevWord) 'a')
          hhead
        have h6 := get_lt_of_not_strLE w d.prevWord hlef hcp_ltp
        exact lt_of_le_of_lt h5 h6
    rcases insert_core (minimizeD d (commonPrefixLen w d.prevWord)) w
      (commonPrefixLen w d.prevWord) hIw1 hun_len hcp_ltw htake_pw hbound with
      ⟨hInv', hacc'⟩
    refine ⟨hInv', rfl, ?_⟩
    intro u
    have h7 := hacc' u
    rw [hacc1 0 u] at h7
    exact h7

theorem buildPartial_none : ∀ (ws : List (List Char)),
    ws.foldl (fun od w => od.bind (fun d => insertD d w)) none = none := by
  intro ws
  induction ws with
  | nil => rfl
  | cons w ws ih => exact ih

theorem buildPartial_inv : ∀ (ws : List (List Char)) (d0 d : Dawg), Inv d0 →
    ws.foldl (fun od w => od.bind (fun d => insertD d w)) (some d0) = some d →
    Inv d ∧ (∀ u, accepts d.heap 0 u =
      (accepts d0.heap 0 u || decide (u ∈ ws))) := by
  intro ws
  induction ws with
  | nil =>
    intro d0 d h0 hfold
    cases hfold
    exact ⟨h0, fun u => by simp⟩
  | cons w ws ih =>
    intro d0 d h0 hfold
    rw [List.foldl_cons] at hfold
    cases hins : insertD d0 w with
    | none =>
      have h2 : (some d0).bind (fun d2 => insertD d2 w) = none := hins
      rw [h2, buildPartial_none ws] at hfold
      cases hfold
    | some d1 =>
      have h2 : (some d0).bind (fun d2 => insertD d2 w) = some d1 := hins
      rw [h2] at hfold
      rcases insertD_spec d0 w d1 h0 hins with ⟨hInv1, _, hacc1⟩
      rcases ih d1 d hInv1 hfold with ⟨hInvd, haccd⟩
      refine ⟨hInvd, ?_⟩
      intro u
      rw [haccd u, hacc1 u, Bool.or_assoc]
      congr 1
      by_cases h3 : u = w
      · subst h3
        simp
      · by_cases h4 : u ∈ ws
        · simp [h3, h4]
        · simp [h3, h4]

theorem buildPartial_no_nil : ∀ (ws : List (List Char)) (d0 d : Dawg),
    ws.foldl (fun od w => od.bind (fun d => insertD d w)) (some d0) = some d →
    [] ∉ ws := by
  intro ws
  induction ws with
  | nil =>
    intro d0 d _ hmem
    cases hmem
  | cons w ws ih =>
    intro d0 d hfold hmem
    rw [List.foldl_cons] at hfold
    rcases List.mem_cons.mp hmem with h1 | h1
    · have hnone : insertD d0 w = none := by
        rw [← h1, insertD]
        have : strLE [] d0.prevWord = true := rfl
        rw [if_pos this]
      have h2 : (some d0).bind (fun d2 => insertD d2 w) = none := hnone
      rw [h2, buildPartial_none ws] at hfold
      cases hfold
    · cases hins : insertD d0 w with
      | none =>
        have h2 : (some d0).bind (fun d2 => insertD d2 w) = none := hins
        rw [h2, buildPartial_none ws] at hfold
        cases hfold
      | some d1 =>
        have h2 : (some d0).bind (fun d2 => insertD d2 w) = some d1 := hins
        rw [h2] at hfold
        exact ih d1 d hfold h1

theorem buildPartial_spec (ws : List (List Char)) (d : Dawg)
    (h : buildPartial ws = some d) :
    Inv d ∧ (∀ u, accepts d.heap 0 u = decide (u ∈ ws)) := by
  rw [buildPartial] at h
  rcases buildPartial_inv ws freshDawg d Inv_freshDawg h with ⟨h1, h2⟩
  refine ⟨h1, fun u => ?_⟩
  rw [h2 u, accepts_blank_node freshDawg.heap 0 rfl u, Bool.false_or]

theorem buildDawg_spec (ws : List (List Char)) (g : Dawg)
    (h : buildDawg ws = some g) :
    InvW g ∧ g.uncheckedNodes = [] ∧
    (∀ u, accepts g.heap 0 u = decide (u ∈ ws)) := by
  rw [buildDawg] at h
  cases hb : buildPartial ws with
  | none =>
    rw [hb] at h
    cases h
  | some d =>
    rw [hb] at h
    have hg : finishD d = g := Option.some.inj h
    rcases buildPartial_spec ws d hb with ⟨hInv, hacc⟩
    rcases minimizeD_spec d hInv.toInvW 0 with ⟨g1, g2, _, _, _, g6⟩
    subst hg
    refine ⟨g1, ?_, fun u => (g6 0 u).trans (hacc u)⟩
    show (minimizeD d 0).uncheckedNodes = []
    rw [g2]
    simp

/-- Every heap edge of a builder state satisfying the invariant strictly
decreases `rankD`. -/
theorem InvW_rank_edge (d : Dawg) (hd : InvW d) :
    ∀ i j, edgeRel d.heap i j → rankD d j < rankD d i := by
  simp only [rankD]
  intro i j hij
  rcases hij with ⟨e, he, rfl⟩
  by_cases him : i ∈ d.minimizedNodes
  · have hj : e.2 ∈ d.minimizedNodes := hd.hmins_closed i him e he
    have htopo := hd.hmins_topo i him e he
    rw [if_pos him, if_pos hj]
    exact htopo
  · by_cases hic : i ∈ chainSeq d
    · have hcl := ChainLE_edges hd.hchain hd.hchain_nodup i hic e he
      rw [if_neg him, if_pos hic]
      rcases hcl with h1 | ⟨h1, h2⟩
      · rw [if_pos h1]
        have h3 : d.minimizedNodes.indexOf e.2 < d.minimizedNodes.length :=
          List.indexOf_lt_length.mpr h1
        have h4 : (chainSeq d).indexOf i < (chainSeq d).length :=
          List.indexOf_lt_length.mpr hic
        omega
      · have h1' : e.2 ∈ chainSeq d := h1
        have h2' : (chainSeq d).indexOf i < (chainSeq d).indexOf e.2 := h2
        have hjm : e.2 ∉ d.minimizedNodes := hd.hchain_disj e.2 h1'
        rw [if_neg hjm, if_pos h1']
        have h4 : (chainSeq d).indexOf e.2 < (chainSeq d).length :=
          List.indexOf_lt_length.mpr h1'
        omega
    · by_cases hlt : i < d.heap.length
      · have hj := hd.hdead i hlt hic him e he
        rw [if_neg him, if_neg hic, if_pos hj]
        have h3 : d.minimizedNodes.indexOf e.2 < d.minimizedNodes.length :=
          List.indexOf_lt_length.mpr hj
        omega
      · exfalso
        have hob : getNode d.heap i = blankNode := getNode_oob d.heap i (by omega)
        rw [hob] at he
        exact absurd he (by simp [blankNode])

/-- Every builder state satisfying the invariant has an acyclic heap. -/
theorem InvW_acyclic (d : Dawg) (hd : InvW d) : AcyclicHeap d.heap :=
  acyclic_of_rank d.heap (rankD d) (InvW_rank_edge d hd)

theorem rankD_le (d : Dawg) (x : Nat) :
    rankD d x ≤ d.minimizedNodes.length + (chainSeq d).length + 1 := by
  rw [rankD]
  by_cases h1 : x ∈ d.minimizedNodes
  · rw [if_pos h1]
    have := List.indexOf_lt_length.mpr h1
    omega
  · rw [if_neg h1]
    by_cases h2 : x ∈ chainSeq d
    · rw [if_pos h2]
      omega
    · rw [if_neg h2]

/-- The length of any successful path through a builder heap is bounded by
the node classes' sizes. -/
theorem InvW_pathLen (d : Dawg) (hd : InvW d) (cs : List Char) (i : Nat) :
    pathLen d.heap i cs ≤ d.minimizedNodes.length + (chainSeq d).length + 1 :=
  le_trans (pathLen_le_rank d.heap (rankD d) (InvW_rank_edge d hd) cs i) (rankD_le d i)

theorem mins_length_le (d : Dawg) (hd : InvW d) :
    d.minimizedNodes.length ≤ d.heap.length := by
  have hsub : d.minimizedNodes ⊆ List.range d.heap.length := by
    intro m hm
    exact List.mem_range.mpr (hd.hmins_lt m hm)
  have h2 := (hd.hmins_nodup.subperm hsub).length_le
  simpa using h2

/-! ## The budget-0 automaton under the default (unit) costs -/

theorem defaultIcost_eq (c : Char) : defaultIcost c = 1 := rfl

theorem defaultDcost_eq (c : Char) : defaultDcost c = 1 := rfl

theorem defaultRcost_self (c : Char) : defaultRcost c c = 0 := by
  simp [defaultRcost, rcostOfTable]

theorem defaultRcost_ne (c c2 : Char) (h : c ≠ c2) : defaultRcost c c2 = 1 := by
  simp [defaultRcost, rcostOfTable, h]

theorem forall_ne_of_lookupEdge_none (nd : DNode) (c : Char)
    (h : lookupEdge nd c = none) : ∀ e ∈ nd.edges, e.1 ≠ c := by
  intro e he hec
  rw [lookupEdge, Option.map_eq_none'] at h
  rw [List.find?_eq_none] at h
  exact h e he (by simp [hec])

/-- With cost budget 0 and the default unit deletion costs, `start_state`
is the single sentinel entry. -/
theorem startState_budget0 (w : List Char) :
    startState ⟨w, 0, defaultIcost, defaultDcost, defaultRcost⟩ = [(-1, 0)] := by
  have h1 : ∀ v, startAux ⟨w, 0, defaultIcost, defaultDcost, defaultRcost⟩ v 0 0 = [] := by
    intro v
    cases v with
    | nil => rfl
    | cons c rest =>
      simp only [startAux]
      rw [if_neg]
      rw [defaultDcost_eq]
      norm_num
  rw [startState, h1]

/-- With cost budget 0 and the default unit costs, stepping the singleton
state `{k: 0}` on `c` yields `{k+1: 0}` exactly when the pattern has a
character at position `k+1` and it equals `c`, and the empty state
otherwise. -/
theorem step_budget0 (w : List Char) (c : Char) (k : Int) :
    step ⟨w, 0, defaultIcost, defaultDcost, defaultRcost⟩ c [(k, 0)] =
      (if k + 1 = (w.length : Int) then []
       else if c = charAt w (k + 1) then [(k + 1, 0)] else []) := by
  have e1 : step ⟨w, 0, defaultIcost, defaultDcost, defaultRcost⟩ c [(k, 0)] =
      stepEntry ⟨w, 0, defaultIcost, defaultDcost, defaultRcost⟩ c [(k, 0)]
        (if (0 : ℚ) + defaultIcost c ≤ 0 then [(k, 0 + defaultIcost c)] else []) k := rfl
  have e2 : (if (0 : ℚ) + defaultIcost c ≤ 0 then [(k, 0 + defaultIcost c)]
      else ([] : LevState)) = [] := by
    rw [defaultIcost_eq, if_neg]
    norm_num
  rw [e1, e2]
  simp only [stepEntry]
  by_cases hk1 : k + 1 = (w.length : Int)
  · rw [if_pos hk1, if_pos hk1]
  · rw [if_neg hk1, if_neg hk1]
    have l1 : lookupSt [(k, (0 : ℚ))] k = some 0 := by
      rw [lookupSt_cons, if_pos rfl]
    have l3 : lookupSt [(k, (0 : ℚ))] (k + 1) = none := by
      rw [lookupSt_cons, if_neg (by omega)]
      rfl
    have hc : stepEntryCost ⟨w, 0, defaultIcost, defaultDcost, defaultRcost⟩ c [(k, 0)] [] k
        = defaultRcost c (charAt w (k + 1)) := by
      simp only [stepEntryCost, l1, lookupSt_nil, l3]
      simp
    by_cases hcc : c = charAt w (k + 1)
    · rw [if_pos hcc]
      have hv : stepEntryCost ⟨w, 0, defaultIcost, defaultDcost, defaultRcost⟩ c [(k, 0)] [] k
          = 0 := by
        rw [hc, hcc, defaultRcost_self]
      rw [if_pos (le_of_eq hv), hv]
      rfl
    · rw [if_neg hcc]
      rw [if_neg]
      rw [hc, defaultRcost_ne c _ hcc]
      norm_num

theorem isMatch_budget0 (w : List Char) (k : Int) :
    isMatch ⟨w, 0, defaultIcost, defaultDcost, defaultRcost⟩ [(k, 0)] =
      decide (k = (w.length : Int) - 1) := by
  simp only [isMatch]
  by_cases h : k = (w.length : Int) - 1
  · rw [lookupSt_cons, if_pos h]
    simp [h]
  · rw [lookupSt_cons, if_neg h, lookupSt_nil]
    rw [decide_eq_false h, decide_eq_false]
    rw [Option.getD_none]
    norm_num

theorem isMatch_budget0_nil (w : List Char) :
    isMatch ⟨w, 0, defaultIcost, defaultDcost, defaultRcost⟩ [] = false := by
  simp only [isMatch, lookupSt_nil, Option.getD_none]
  exact decide_eq_false (by norm_num)

theorem canMatch_nil : canMatch [] = false := rfl

theorem canMatch_cons (p : Int × ℚ) (s : LevState) : canMatch (p :: s) = true := rfl

/-- Expanding a node along edges none of whose steps survive leaves the
stack and the match set unchanged. -/
theorem expandNode_noop (A : SLA) (h : Heap) (word : List Char) (st : LevState)
    (hm : isMatch A [] = false) :
    ∀ (E : List (Char × Nat)) (stack : List (List Char × Nat × LevState))
      (matched : List (List Char)),
      (∀ e ∈ E, step A e.1 st = []) →
      expandNode A h word E st stack matched = (stack, matched) := by
  intro E
  induction E with
  | nil => intro stack matched _; rfl
  | cons e E ih =>
    intro stack matched hall
    have h1 : step A e.1 st = [] := hall e (List.mem_cons_self e E)
    rw [expandNode, List.foldl_cons]
    simp only [h1, hm, canMatch_nil, Bool.false_and, Bool.false_eq_true, if_false]
    exact ih stack matched (fun e2 he2 => hall e2 (List.mem_cons_of_mem e he2))

/-- Expanding a node under budget 0 from the singleton state `{k: 0}`:
when some edge is labelled with the next pattern character (and labels are
duplicate-free), exactly that branch is pushed, and the completed word is
recorded when the automaton is in its accepting position and the child is
final. -/
theorem expandNode_budget0_hit (w : List Char) (h : Heap) (word : List Char)
    (k : Int) (m : Nat) (hk1 : ¬ (k + 1 = (w.length : Int))) :
    ∀ (E : List (Char × Nat)) (stack : List (List Char × Nat × LevState))
      (matched : List (List Char)),
      (charAt w (k + 1), m) ∈ E →
      (E.map Prod.fst).Nodup →
      expandNode ⟨w, 0, defaultIcost, defaultDcost, defaultRcost⟩ h word E [(k, 0)]
        stack matched =
      ((word ++ [charAt w (k + 1)], m, [(k + 1, 0)]) :: stack,
       if decide (k + 1 = (w.length : Int) - 1) && (getNode h m).final then
         addMatch matched (word ++ [charAt w (k + 1)]) else matched) := by
  intro E
  induction E with
  | nil => intro stack matched hmem _; cases hmem
  | cons e E ih =>
    intro stack matched hmem hnd
    rw [List.map_cons, List.nodup_cons] at hnd
    rcases List.mem_cons.mp hmem with heq | hmem2
    · subst heq
      have hstep : step ⟨w, 0, defaultIcost, defaultDcost, defaultRcost⟩
          (charAt w (k + 1)) [(k, 0)] = [(k + 1, 0)] := by
        rw [step_budget0, if_neg hk1, if_pos rfl]
      have hall : ∀ e2 ∈ E,
          step ⟨w, 0, defaultIcost, defaultDcost, defaultRcost⟩ e2.1 [(k, 0)] = [] := by
        intro e2 he2
        rw [step_budget0, if_neg hk1, if_neg]
        intro hcc
        have hin : charAt w (k + 1) ∈ List.map Prod.fst E := by
          rw [← hcc]
          exact List.mem_map_of_mem Prod.fst he2
        exact hnd.1 hin
      rw [expandNode, List.foldl_cons]
      simp only [hstep, canMatch_cons, isMatch_budget0, eq_self_iff_true, if_true]
      by_cases hb : (decide (k + 1 = (w.length : Int) - 1) && (getNode h m).final) = true
      · rw [if_pos hb, if_pos hb]
        exact expandNode_noop _ h word [(k, 0)] (isMatch_budget0_nil w) E _ _ hall
      · rw [if_neg hb, if_neg hb]
        exact expandNode_noop _ h word [(k, 0)] (isMatch_budget0_nil w) E _ _ hall
    · have hne : e.1 ≠ charAt w (k + 1) := by
        intro hcc
        apply hnd.1
        rw [hcc]
        exact List.mem_map_of_mem Prod.fst hmem2
      have hstep : step ⟨w, 0, defaultIcost, defaultDcost, defaultRcost⟩ e.1 [(k, 0)]
          = [] := by
        rw [step_budget0, if_neg hk1, if_neg hne]
      rw [expandNode, List.foldl_cons]
      simp only [hstep, canMatch_nil, isMatch_budget0_nil, Bool.false_and,
        Bool.false_eq_true, if_false]
      exact ih stack matched hmem2 hnd.2

/-- The budget-0 search loop on a finished DAWG follows the single matching
path of the query and records the query exactly when the remaining suffix is
accepted. -/
theorem searchLoop_budget0_run (g : Dawg) (hg : InvW g) (hun : g.uncheckedNodes = [])
    (w : List Char) :
    ∀ (jrem j n fuel : Nat) (searched : List Nat) (matched : List (List Char)),
      j + jrem = w.length →
      followPath g.heap 0 (w.take j) = some n →
      (n = 0 ∨ n ∈ g.minimizedNodes) →
      (∀ i ni, j ≤ i → followPath g.heap 0 (w.take i) = some ni → ni ∉ searched) →
      pathLen g.heap n (w.drop j) + 2 ≤ fuel →
      searchLoop ⟨w, 0, defaultIcost, defaultDcost, defaultRcost⟩ g.heap fuel
        ((w.take j, n, [((j : Int) - 1, 0)]) :: []) searched matched =
      (if 0 < jrem ∧ accepts g.heap n (w.drop j) = true then addMatch matched w
       else matched) := by
  have hac : AcyclicHeap g.heap := InvW_acyclic g hg
  have htl : TailOK g.minimizedNodes (getNode g.heap 0) g.prevWord := by
    have hc := hg.hchain
    rw [hun] at hc
    cases hc with
    | tail _ _ ht => exact ht
  have hgood_pw : ∀ n, (n = 0 ∨ n ∈ g.minimizedNodes) →
      List.Pairwise (· < ·) ((getNode g.heap n).edges.map Prod.fst) := by
    rintro n (rfl | hn)
    · exact htl.2.1
    · exact hg.hmins_labels n hn
  have hgood_child : ∀ n, (n = 0 ∨ n ∈ g.minimizedNodes) →
      ∀ e ∈ (getNode g.heap n).edges, e.2 ∈ g.minimizedNodes := by
    rintro n (rfl | hn)
    · exact fun e he => htl.1 e he
    · exact hg.hmins_closed n hn
  intro jrem
  induction jrem with
  | zero =>
    intro j n fuel searched matched hj hfp hgood hsea hfuel
    have hjw : j = w.length := by omega
    obtain ⟨f1, rfl⟩ : ∃ f1, fuel = f1 + 1 := ⟨fuel - 1, by omega⟩
    rw [searchLoop]
    have hns : n ∉ searched := hsea j n le_rfl hfp
    rw [if_neg hns]
    have hnoop : expandNode ⟨w, 0, defaultIcost, defaultDcost, defaultRcost⟩ g.heap
        (w.take j) (getNode g.heap n).edges [((j : Int) - 1, 0)] [] matched
        = ([], matched) := by
      apply expandNode_noop _ _ _ _ (isMatch_budget0_nil w)
      intro e he
      rw [step_budget0, if_pos (by omega : ((j : Int) - 1 + 1 = (w.length : Int)))]
    simp only [hnoop]
    obtain ⟨f2, rfl⟩ : ∃ f2, f1 = f2 + 1 := ⟨f1 - 1, by omega⟩
    rw [searchLoop]
    simp
  | succ jr ih =>
    intro j n fuel searched matched hj hfp hgood hsea hfuel
    have hjw : j < w.length := by omega
    obtain ⟨f1, rfl⟩ : ∃ f1, fuel = f1 + 1 := ⟨fuel - 1, by omega⟩
    rw [searchLoop]
    have hns : n ∉ searched := hsea j n le_rfl hfp
    rw [if_neg hns]
    have hca : charAt w ((j : Int) - 1 + 1) = w.getD j 'a' := by
      rw [charAt]
      congr 1
      omega
    have hdrop : w.drop j = w.getD j 'a' :: w.drop (j + 1) := by
      rw [List.drop_eq_getElem_cons hjw, List.getD_eq_getElem w 'a' hjw]
    cases hlk : lookupEdge (getNode g.heap n) (w.getD j 'a') with
    | none =>
      have hnoop : expandNode ⟨w, 0, defaultIcost, defaultDcost, defaultRcost⟩ g.heap
          (w.take j) (getNode g.heap n).edges [((j : Int) - 1, 0)] [] matched
          = ([], matched) := by
        apply expandNode_noop _ _ _ _ (isMatch_budget0_nil w)
        intro e he
        rw [step_budget0, if_neg (by omega : ¬ ((j : Int) - 1 + 1 = (w.length : Int))),
          if_neg]
        rw [hca]
        exact fun hec => forall_ne_of_lookupEdge_none _ _ hlk e he hec
      simp only [hnoop]
      obtain ⟨f2, rfl⟩ : ∃ f2, f1 = f2 + 1 := ⟨f1 - 1, by omega⟩
      rw [searchLoop]
      have haccf : accepts g.heap n (w.drop j) = false := by
        rw [hdrop]
        exact accepts_cons_none g.heap n _ _ hlk
      rw [haccf]
      simp
    | some m =>
      have hk1ne : ¬ ((j : Int) - 1 + 1 = (w.length : Int)) := by omega
      have hmE : (charAt w ((j : Int) - 1 + 1), m) ∈ (getNode g.heap n).edges := by
        rw [hca]
        rcases lookupEdge_mem _ _ _ hlk with ⟨e, he, he1, he2⟩
        have hpe : e = (w.getD j 'a', m) := Prod.ext he1 he2
        rw [← hpe]
        exact he
      have hpw := hgood_pw n hgood
      have hnd2 : ((getNode g.heap n).edges.map Prod.fst).Nodup :=
        List.Pairwise.imp (fun hab => ne_of_lt hab) hpw
      have hhit := expandNode_budget0_hit w g.heap (w.take j) ((j : Int) - 1) m hk1ne
        (getNode g.heap n).edges [] matched hmE hnd2
      simp only [hhit]
      have htake : w.take j ++ [charAt w ((j : Int) - 1 + 1)] = w.take (j + 1) := by
        rw [hca, List.getD_eq_getElem w 'a' hjw, List.take_succ,
          List.getElem?_eq_getElem hjw]
        rfl
      rw [htake]
      have hfp2 : followPath g.heap 0 (w.take (j + 1)) = some m := by
        have ht2 : w.take (j + 1) = w.take j ++ [w.getD j 'a'] := by
          rw [List.getD_eq_getElem w 'a' hjw, List.take_succ,
            List.getElem?_eq_getElem hjw]
          rfl
        rw [ht2, followPath_append, hfp]
        show followPath g.heap n [w.getD j 'a'] = some m
        simp only [followPath, hlk]
      have hgood2 : m = 0 ∨ m ∈ g.minimizedNodes :=
        Or.inr (hgood_child n hgood _ hmE)
      have hsea2 : ∀ i ni, j + 1 ≤ i →
          followPath g.heap 0 (w.take i) = some ni → ni ∉ n :: searched := by
        intro i ni hi hfpi hmem
        rcases List.mem_cons.mp hmem with rfl | hmem2
        · have hsplit : w.take i = w.take j ++ (w.take i).drop j := by
            conv_lhs => rw [← List.take_append_drop j (w.take i)]
            rw [List.take_take, min_eq_left (by omega)]
          have hseg : (w.take i).drop j ≠ [] := by
            intro hnil
            have hlen := congrArg List.length hnil
            rw [List.length_drop, List.length_take, List.length_nil] at hlen
            omega
          obtain ⟨c0, rest0, hcr⟩ := List.exists_cons_of_ne_nil hseg
          rw [hsplit, followPath_append, hfp] at hfpi
          have hfpi2 : followPath g.heap ni ((w.take i).drop j) = some ni := hfpi
          rw [hcr] at hfpi2
          exact hac ni (followPath_transGen g.heap rest0 c0 ni ni hfpi2)
        · exact hsea i ni (by omega) hfpi hmem2
      have hfuel2 : pathLen g.heap m (w.drop (j + 1)) + 2 ≤ f1 := by
        have hpl : pathLen g.heap n (w.drop j)
            = pathLen g.heap m (w.drop (j + 1)) + 1 := by
          rw [hdrop]
          simp only [pathLen, hlk]
        omega
      have hacc : accepts g.heap n (w.drop j) = accepts g.heap m (w.drop (j + 1)) := by
        rw [hdrop]
        exact accepts_cons_eq g.heap n _ _ m hlk
      have hidx : (j : Int) - 1 + 1 = ((j + 1 : Nat) : Int) - 1 := by push_cast; ring
      rcases Nat.eq_zero_or_pos jr with hjr0 | hjrpos
      · subst hjr0
        have hdec : decide ((j : Int) - 1 + 1 = (w.length : Int) - 1) = true :=
          decide_eq_true (by omega)
        rw [hdec, Bool.true_and, hidx]
        have hrec := ih (j + 1) m f1 (n :: searched)
          (if (getNode g.heap m).final = true then addMatch matched (w.take (j + 1))
           else matched)
          (by omega) hfp2 hgood2 hsea2 hfuel2
        rw [hrec, if_neg (by simp)]
        have hwtake : w.take (j + 1) = w := List.take_of_length_le (by omega)
        rw [hwtake, hacc]
        have hdropw : w.drop (j + 1) = [] := List.drop_eq_nil_of_le (by omega)
        rw [hdropw]
        simp only [accepts]
        by_cases hfin : (getNode g.heap m).final = true
        · simp [hfin]
        · simp [hfin]
      · have hdec : decide ((j : Int) - 1 + 1 = (w.length : Int) - 1) = false :=
          decide_eq_false (by omega)
        rw [hdec, Bool.false_and, if_neg Bool.false_ne_true, hidx]
        have hrec := ih (j + 1) m f1 (n :: searched) matched
          (by omega) hfp2 hgood2 hsea2 hfuel2
        rw [hrec, hacc]
        simp only [hjrpos, Nat.succ_pos, true_and]

/-! ## Soundness of the sparse automaton with respect to the DP table -/

theorem dpNext_congr (ic dc : Char → ℚ) (rc : Char → Char → ℚ) (P : List Char)
    (prev prev2 : Nat → ℚ) (b : Char) (hp : ∀ t, prev t = prev2 t) :
    ∀ p, dpNext ic dc rc P prev b p = dpNext ic dc rc P prev2 b p := by
  intro p
  induction p with
  | zero => rw [dpNext, dpNext, hp 0]
  | succ p ih => rw [dpNext, dpNext, hp p, hp (p + 1), ih]

/-- A row of the DP table only depends on the prefix of the candidate
consumed so far. -/
theorem dpRow_prefix (ic dc : Char → ℚ) (rc : Char → Char → ℚ) (P u v : List Char) :
    ∀ j, j ≤ u.length → ∀ p,
      dpRow ic dc rc P (u ++ v) j p = dpRow ic dc rc P u j p := by
  intro j
  induction j with
  | zero => intro _ p; rfl
  | succ j ih =>
    intro hj p
    show dpNext ic dc rc P (dpRow ic dc rc P (u ++ v) j) ((u ++ v).getD j 'a') p
      = dpNext ic dc rc P (dpRow ic dc rc P u j) (u.getD j 'a') p
    rw [List.getD_append u v 'a' j (by omega)]
    exact dpNext_congr ic dc rc P _ _ _ (fun t => ih (by omega) t) p

/-- Appending one candidate character advances the DP table by one
`dpNext` row. -/
theorem dpRow_snoc (ic dc : Char → ℚ) (rc : Char → Char → ℚ) (P u : List Char)
    (c : Char) :
    ∀ p, dpRow ic dc rc P (u ++ [c]) (u ++ [c]).length p
      = dpNext ic dc rc P (dpRow ic dc rc P u u.length) c p := by
  intro p
  have hl : (u ++ [c]).length = u.length + 1 := by simp
  rw [hl]
  show dpNext ic dc rc P (dpRow ic dc rc P (u ++ [c]) u.length)
      ((u ++ [c]).getD u.length 'a') p = _
  have hg : (u ++ [c]).getD u.length 'a' = c := by
    rw [List.getD_eq_getElem?_getD, List.getElem?_append_right (le_refl u.length)]
    simp
  rw [hg]
  exact dpNext_congr ic dc rc P _ _ c
    (fun t => dpRow_prefix ic dc rc P u [c] u.length le_rfl t) p

theorem dpRow_snoc_ins (ic dc : Char → ℚ) (rc : Char → Char → ℚ) (P u : List Char)
    (c : Char) : ∀ p,
    dpRow ic dc rc P (u ++ [c]) (u ++ [c]).length p
      ≤ dpRow ic dc rc P u u.length p + ic c := by
  intro p
  rw [dpRow_snoc]
  cases p with
  | zero =>
    rw [dpNext]
  | succ p =>
    rw [dpNext]
    exact le_trans (min_le_right _ _) (min_le_left _ _)

theorem dpRow_snoc_rep (ic dc : Char → ℚ) (rc : Char → Char → ℚ) (P u : List Char)
    (c : Char) (p : Nat) :
    dpRow ic dc rc P (u ++ [c]) (u ++ [c]).length (p + 1)
      ≤ dpRow ic dc rc P u u.length p + rc c (P.getD p 'a') := by
  rw [dpRow_snoc]
  rw [dpNext]
  exact min_le_left _ _

theorem dpRow_snoc_del (ic dc : Char → ℚ) (rc : Char → Char → ℚ) (P u : List Char)
    (c : Char) (p : Nat) :
    dpRow ic dc rc P (u ++ [c]) (u ++ [c]).length (p + 1)
      ≤ dpRow ic dc rc P (u ++ [c]) (u ++ [c]).length p + dc (P.getD p 'a') := by
  rw [dpRow_snoc, dpRow_snoc]
  rw [dpNext]
  exact le_trans (min_le_right _ _) (min_le_right _ _)

theorem sound_setSt (A : SLA) (u2 : List Char) (ns : LevState) (k : Int) (v : ℚ)
    (hns : SoundSt A u2 ns) (hk : -1 ≤ k)
    (hv : dpRow A.icost A.dcost A.rcost A.str u2 u2.length ((k + 1).toNat) ≤ v) :
    SoundSt A u2 (setSt ns k v) := by
  intro kv hkv
  rw [setSt] at hkv
  by_cases hKey : hasKeySt ns k
  · rw [if_pos hKey] at hkv
    rcases List.mem_map.mp hkv with ⟨p0, hp0, hpe⟩
    by_cases hpk : (p0.1 == k) = true
    · rw [if_pos hpk] at hpe
      rw [← hpe]
      exact ⟨hk, hv⟩
    · rw [if_neg hpk] at hpe
      rw [← hpe]
      exact hns p0 hp0
  · rw [if_neg hKey] at hkv
    rcases List.mem_append.mp hkv with h1 | h1
    · exact hns kv h1
    · rw [List.mem_singleton.mp h1]
      exact ⟨hk, hv⟩

theorem sound_startAux (A : SLA) : ∀ (v : List Char) (n : Nat) (cost : ℚ),
    v = A.str.drop n → cost = dpRow0 A.dcost A.str n →
    ∀ kv ∈ startAux A v (n : Int) cost,
      -1 ≤ kv.1 ∧ dpRow0 A.dcost A.str ((kv.1 + 1).toNat) ≤ kv.2 := by
  intro v
  induction v with
  | nil =>
    intro n cost _ _ kv hkv
    simp [startAux] at hkv
  | cons c rest ih =>
    intro n cost hv hc kv hkv
    have hcn : c = A.str.getD n 'a' := by
      have h1 : A.str[n]? = some c := by
        rw [← List.head?_drop, ← hv]
        rfl
      rw [List.getD_eq_getElem?_getD, h1]
      rfl
    have hrest : rest = A.str.drop (n + 1) := by
      have h2 := congrArg List.tail hv
      rw [List.tail_drop] at h2
      simpa using h2
    have hcost2 : cost + A.dcost c = dpRow0 A.dcost A.str (n + 1) := by
      rw [dpRow0, ← hcn, ← hc]
    simp only [startAux] at hkv
    by_cases hle : cost + A.dcost c ≤ A.d
    · rw [if_pos hle] at hkv
      rcases List.mem_cons.mp hkv with rfl | hkv2
      · refine ⟨by omega, ?_⟩
        have ht : (((n : Int)) + 1).toNat = n + 1 := by omega
        rw [ht, ← hcost2]
      · have hkv3 : kv ∈ startAux A rest (((n + 1 : Nat)) : Int) (cost + A.dcost c) := hkv2
        exact ih (n + 1) (cost + A.dcost c) hrest hcost2 kv hkv3
    · rw [if_neg hle] at hkv
      cases hkv

theorem sound_start (A : SLA) : SoundSt A [] (startState A) := by
  intro kv hkv
  rw [startState] at hkv
  rcases List.mem_cons.mp hkv with rfl | hkv2
  · exact ⟨le_refl _, le_refl 0⟩
  · have hkv3 : kv ∈ startAux A A.str (((0 : Nat)) : Int) 0 := hkv2
    obtain ⟨hk1, hk2⟩ := sound_startAux A A.str 0 0 rfl rfl kv hkv3
    exact ⟨hk1, hk2⟩

theorem sound_stepEntry (A : SLA) (c : Char) (u : List Char) (state ns : LevState)
    (idx : Int) (hstate : SoundSt A u state) (hns : SoundSt A (u ++ [c]) ns)
    (hidx : ∃ v0, lookupSt state idx = some v0) :
    SoundSt A (u ++ [c]) (stepEntry A c state ns idx) := by
  obtain ⟨v0, hv0⟩ := hidx
  have hmem0 := lookupSt_mem state idx v0 hv0
  obtain ⟨hk0, hval0⟩ := hstate _ hmem0
  simp only [stepEntry]
  by_cases h1 : idx + 1 = (A.str.length : Int)
  · rw [if_pos h1]
    exact hns
  · rw [if_neg h1]
    have hp2 : (idx + 1 + 1).toNat = (idx + 1).toNat + 1 := by omega
    have hchar : charAt A.str (idx + 1) = A.str.getD ((idx + 1).toNat) 'a' := rfl
    have hc0 : dpRow A.icost A.dcost A.rcost A.str (u ++ [c]) (u ++ [c]).length
        ((idx + 1).toNat + 1)
        ≤ v0 + A.rcost c (A.str.getD ((idx + 1).toNat) 'a') :=
      le_trans (dpRow_snoc_rep A.icost A.dcost A.rcost A.str u c ((idx + 1).toNat))
        (add_le_add_right hval0 _)
    have hcost : dpRow A.icost A.dcost A.rcost A.str (u ++ [c]) (u ++ [c]).length
        ((idx + 1 + 1).toNat) ≤ stepEntryCost A c state ns idx := by
      rw [hp2]
      simp only [stepEntryCost, hv0, Option.getD_some, hchar]
      cases hns0 : lookupSt ns idx with
      | none =>
        cases hst1 : lookupSt state (idx + 1) with
        | none => exact hc0
        | some vs1 =>
          have hmem1 := lookupSt_mem state (idx + 1) vs1 hst1
          have hv1 := (hstate _ hmem1).2
          rw [hp2] at hv1
          exact le_min
            (le_trans (dpRow_snoc_ins A.icost A.dcost A.rcost A.str u c
              ((idx + 1).toNat + 1)) (add_le_add_right hv1 _)) hc0
      | some vns =>
        have hmemn := lookupSt_mem ns idx vns hns0
        have hvn := (hns _ hmemn).2
        have hdel : dpRow A.icost A.dcost A.rcost A.str (u ++ [c]) (u ++ [c]).length
            ((idx + 1).toNat + 1)
            ≤ vns + A.dcost (A.str.getD ((idx + 1).toNat) 'a') :=
          le_trans (dpRow_snoc_del A.icost A.dcost A.rcost A.str u c ((idx + 1).toNat))
            (add_le_add_right hvn _)
        cases hst1 : lookupSt state (idx + 1) with
        | none => exact le_min hdel hc0
        | some vs1 =>
          have hmem1 := lookupSt_mem state (idx + 1) vs1 hst1
          have hv1 := (hstate _ hmem1).2
          rw [hp2] at hv1
          exact le_min
            (le_trans (dpRow_snoc_ins A.icost A.dcost A.rcost A.str u c
              ((idx + 1).toNat + 1)) (add_le_add_right hv1 _))
            (le_min hdel hc0)
    by_cases h2 : stepEntryCost A c state ns idx ≤ A.d
    · rw [if_pos h2]
      exact sound_setSt A (u ++ [c]) ns (idx + 1) _ hns (by omega) hcost
    · rw [if_neg h2]
      exact hns

theorem sound_stepLoop (A : SLA) (c : Char) (u : List Char) (state : LevState)
    (hstate : SoundSt A u state) :
    ∀ (keys : List Int) (ns : LevState),
      (∀ kk ∈ keys, ∃ v0, lookupSt state kk = some v0) →
      SoundSt A (u ++ [c]) ns →
      SoundSt A (u ++ [c]) (stepLoop A c state keys ns) := by
  intro keys
  induction keys with
  | nil => intro ns _ hns; exact hns
  | cons k rest ih =>
    intro ns hkeys hns
    rw [stepLoop]
    exact ih _ (fun kk hkk => hkeys kk (List.mem_cons_of_mem k hkk))
      (sound_stepEntry A c u state ns k hstate hns (hkeys k (List.mem_cons_self k rest)))

theorem sound_step (A : SLA) (c : Char) (u : List Char) (state : LevState)
    (hstate : SoundSt A u state) : SoundSt A (u ++ [c]) (step A c state) := by
  cases state with
  | nil =>
    have hnil : step A c [] = [] := rfl
    rw [hnil]
    intro kv hkv
    cases hkv
  | cons p rest =>
    obtain ⟨k0, v0⟩ := p
    obtain ⟨hk0, hval0⟩ := hstate (k0, v0) (List.mem_cons_self _ _)
    have hns0 : SoundSt A (u ++ [c])
        (if v0 + A.icost c ≤ A.d then [(k0, v0 + A.icost c)] else []) := by
      by_cases hle : v0 + A.icost c ≤ A.d
      · rw [if_pos hle]
        intro kv hkv
        rw [List.mem_singleton.mp hkv]
        exact ⟨hk0, le_trans (dpRow_snoc_ins A.icost A.dcost A.rcost A.str u c
          ((k0 + 1).toNat)) (add_le_add_right hval0 _)⟩
      · rw [if_neg hle]
        intro kv hkv
        cases hkv
    have hkeys : ∀ kk ∈ ((k0, v0) :: rest).map Prod.fst,
        ∃ vv, lookupSt ((k0, v0) :: rest) kk = some vv := by
      intro kk hkk
      rcases lookupSt_of_mem_keys _ kk hkk with ⟨vv, hvv, _⟩
      exact ⟨vv, hvv⟩
    show SoundSt A (u ++ [c]) (stepLoop A c ((k0, v0) :: rest)
      (((k0, v0) :: rest).map Prod.fst)
      (if v0 + A.icost c ≤ A.d then [(k0, v0 + A.icost c)] else []))
    exact sound_stepLoop A c u ((k0, v0) :: rest) hstate _ _ hkeys hns0

theorem sound_foldSteps (A : SLA) : ∀ u, SoundSt A u (foldSteps A u (startState A)) := by
  intro u
  induction u using List.reverseRecOn with
  | nil => exact sound_start A
  | append_singleton us c ih =>
    have hfs : foldSteps A (us ++ [c]) (startState A)
        = step A c (foldSteps A us (startState A)) := by
      rw [foldSteps, List.foldl_append]
      rfl
    rw [hfs]
    exact sound_step A c us _ ih

theorem isMatch_sound (A : SLA) (u : List Char) (st : LevState)
    (hsound : SoundSt A u st) (hm : isMatch A st = true) :
    dpDist A.icost A.dcost A.rcost A.str u ≤ A.d := by
  rw [isMatch] at hm
  have hm2 := of_decide_eq_true hm
  cases hlk : lookupSt st ((A.str.length : Int) - 1) with
  | none =>
    exfalso
    rw [hlk, Option.getD_none] at hm2
    linarith
  | some v =>
    rw [hlk, Option.getD_some] at hm2
    have hmem := lookupSt_mem st _ v hlk
    have hb := (hsound _ hmem).2
    have hcol : (((A.str.length : Int) - 1) + 1).toNat = A.str.length := by omega
    rw [hcol] at hb
    rw [dpDist]
    exact le_trans hb hm2

theorem addMatch_mem (l : List (List Char)) (w mw : List Char)
    (h : mw ∈ addMatch l w) : mw ∈ l ∨ mw = w := by
  rw [addMatch] at h
  by_cases hw : w ∈ l
  · rw [if_pos hw] at h
    exact Or.inl h
  · rw [if_neg hw] at h
    rcases List.mem_append.mp h with h1 | h1
    · exact Or.inl h1
    · exact Or.inr (List.mem_singleton.mp h1)

/-- On a finished builder state, the root and the interned nodes have
strictly ascending edge labels, and their children are interned. -/
theorem finished_good (g : Dawg) (hg : InvW g) (hun : g.uncheckedNodes = []) :
    (∀ n, (n = 0 ∨ n ∈ g.minimizedNodes) →
      List.Pairwise (· < ·) ((getNode g.heap n).edges.map Prod.fst)) ∧
    (∀ n, (n = 0 ∨ n ∈ g.minimizedNodes) →
      ∀ e ∈ (getNode g.heap n).edges, e.2 ∈ g.minimizedNodes) := by
  have htl : TailOK g.minimizedNodes (getNode g.heap 0) g.prevWord := by
    have hc := hg.hchain
    rw [hun] at hc
    cases hc with
    | tail _ _ ht => exact ht
  constructor
  · rintro n (rfl | hn)
    · exact htl.2.1
    · exact hg.hmins_labels n hn
  · rintro n (rfl | hn)
    · exact fun e he => htl.1 e he
    · exact hg.hmins_closed n hn

/-- Expanding a node preserves the search invariant: every stack entry
carries the node reached by its word and the automaton state obtained by
stepping through its word, and every recorded word is accepted by the graph
with its final automaton state matching. -/
theorem expandNode_sound (A : SLA) (h : Heap) (mins : List Nat)
    (hcl : ∀ n2, (n2 = 0 ∨ n2 ∈ mins) → ∀ e ∈ (getNode h n2).edges, e.2 ∈ mins)
    (hpw : ∀ n2, (n2 = 0 ∨ n2 ∈ mins) →
      List.Pairwise (· < ·) ((getNode h n2).edges.map Prod.fst))
    (word : List Char) (node : Nat) (hnode : node = 0 ∨ node ∈ mins)
    (hword : followPath h 0 word = some node) (st : LevState)
    (hst : st = foldSteps A word (startState A)) :
    ∀ (E : List (Char × Nat)), (∀ e ∈ E, e ∈ (getNode h node).edges) →
      ∀ (stack : List (List Char × Nat × LevState)) (matched : List (List Char)),
        (∀ ent ∈ stack, (ent.2.1 = 0 ∨ ent.2.1 ∈ mins) ∧
          followPath h 0 ent.1 = some ent.2.1 ∧
          ent.2.2 = foldSteps A ent.1 (startState A)) →
        (∀ mw ∈ matched, accepts h 0 mw = true ∧
          isMatch A (foldSteps A mw (startState A)) = true) →
        ((∀ ent ∈ (expandNode A h word E st stack matched).1,
            (ent.2.1 = 0 ∨ ent.2.1 ∈ mins) ∧
            followPath h 0 ent.1 = some ent.2.1 ∧
            ent.2.2 = foldSteps A ent.1 (startState A)) ∧
          (∀ mw ∈ (expandNode A h word E st stack matched).2,
            accepts h 0 mw = true ∧
            isMatch A (foldSteps A mw (startState A)) = true)) := by
  intro E
  induction E with
  | nil =>
    intro _ stack matched hstack hmatched
    exact ⟨hstack, hmatched⟩
  | cons e E ih =>
    intro hE stack matched hstack hmatched
    have hee : e ∈ (getNode h node).edges := hE e (List.mem_cons_self e E)
    have hlk : lookupEdge (getNode h node) e.1 = some e.2 :=
      lookupEdge_of_mem_pairwise _ e hee (hpw node hnode)
    have hpath : followPath h 0 (word ++ [e.1]) = some e.2 := by
      rw [followPath_append, hword]
      show followPath h node [e.1] = some e.2
      simp only [followPath, hlk]
    have hstep2 : step A e.1 st = foldSteps A (word ++ [e.1]) (startState A) := by
      rw [hst, foldSteps, foldSteps, List.foldl_append]
      rfl
    rw [expandNode, List.foldl_cons]
    simp only [hstep2]
    have hE2 : ∀ e2 ∈ E, e2 ∈ (getNode h node).edges :=
      fun e2 he2 => hE e2 (List.mem_cons_of_mem e he2)
    by_cases hm : (isMatch A (foldSteps A (word ++ [e.1]) (startState A)) &&
        (getNode h e.2).final) = true
    · have hm' := hm
      rw [Bool.and_eq_true] at hm'
      obtain ⟨hmi, hmf⟩ := hm'
      have hmatched2 : ∀ mw ∈ addMatch matched (word ++ [e.1]),
          accepts h 0 mw = true ∧
          isMatch A (foldSteps A mw (startState A)) = true := by
        intro mw hmw
        rcases addMatch_mem matched (word ++ [e.1]) mw hmw with h1 | rfl
        · exact hmatched mw h1
        · exact ⟨(accepts_true_iff h (word ++ [e.1]) 0).mpr ⟨e.2, hpath, hmf⟩, hmi⟩
      rw [if_pos hm]
      by_cases hcm : canMatch (foldSteps A (word ++ [e.1]) (startState A)) = true
      · rw [if_pos hcm]
        refine ih hE2 _ _ ?_ hmatched2
        intro ent hent
        rcases List.mem_cons.mp hent with rfl | hent2
        · exact ⟨Or.inr (hcl node hnode e hee), hpath, rfl⟩
        · exact hstack ent hent2
      · rw [if_neg hcm]
        exact ih hE2 _ _ hstack hmatched2
    · rw [if_neg hm]
      by_cases hcm : canMatch (foldSteps A (word ++ [e.1]) (startState A)) = true
      · rw [if_pos hcm]
        refine ih hE2 _ _ ?_ hmatched
        intro ent hent
        rcases List.mem_cons.mp hent with rfl | hent2
        · exact ⟨Or.inr (hcl node hnode e hee), hpath, rfl⟩
        · exact hstack ent hent2
      · rw [if_neg hcm]
        exact ih hE2 _ _ hstack hmatched

/-- Every word the search loop ever returns is accepted by the graph and
matched by the automaton run over its characters. -/
theorem searchLoop_sound (A : SLA) (h : Heap) (mins : List Nat)
    (hcl : ∀ n2, (n2 = 0 ∨ n2 ∈ mins) → ∀ e ∈ (getNode h n2).edges, e.2 ∈ mins)
    (hpw : ∀ n2, (n2 = 0 ∨ n2 ∈ mins) →
      List.Pairwise (· < ·) ((getNode h n2).edges.map Prod.fst)) :
    ∀ (fuel : Nat) (stack : List (List Char × Nat × LevState)) (searched : List Nat)
      (matched : List (List Char)),
      (∀ ent ∈ stack, (ent.2.1 = 0 ∨ ent.2.1 ∈ mins) ∧
        followPath h 0 ent.1 = some ent.2.1 ∧
        ent.2.2 = foldSteps A ent.1 (startState A)) →
      (∀ mw ∈ matched, accepts h 0 mw = true ∧
        isMatch A (foldSteps A mw (startState A)) = true) →
      ∀ mw ∈ searchLoop A h fuel stack searched matched,
        accepts h 0 mw = true ∧
        isMatch A (foldSteps A mw (startState A)) = true := by
  intro fuel
  induction fuel with
  | zero =>
    intro stack searched matched _ hmatched mw hmw
    exact hmatched mw hmw
  | succ f ihf =>
    intro stack searched matched hstack hmatched mw hmw
    cases stack with
    | nil => exact hmatched mw hmw
    | cons ent rest =>
      obtain ⟨word, node, st⟩ := ent
      rw [searchLoop] at hmw
      by_cases hin : node ∈ searched
      · rw [if_pos hin] at hmw
        exact ihf rest searched matched
          (fun e2 he2 => hstack e2 (List.mem_cons_of_mem _ he2)) hmatched mw hmw
      · rw [if_neg hin] at hmw
        obtain ⟨hgood, hpath, hstq⟩ := hstack (word, node, st) (List.mem_cons_self _ _)
        have hexp := expandNode_sound A h mins hcl hpw word node hgood hpath st hstq
          (getNode h node).edges (fun e2 he2 => he2) rest matched
          (fun e2 he2 => hstack e2 (List.mem_cons_of_mem _ he2)) hmatched
        exact ihf _ (node :: searched) _ hexp.1 hexp.2 mw hmw

/-- C1 (amended): on a finished DAWG built from words inserted in strictly
ascending order, for every query, every budget and every choice of
non-negative cost functions, every word returned by `levenshtein_search` is
an inserted dictionary word whose weighted edit distance to the query is
within the budget (the search is sound; it can omit within-budget words
because the visited set is keyed by node id alone). -/
theorem levenshtein_search_sound (ws : List (List Char)) (g : Dawg) (q : List Char)
    (maxD : ℚ) (ic dc : Char → ℚ) (rc : Char → Char → ℚ)
    (hbuild : buildDawg ws = some g)
    (hic : ∀ c, 0 ≤ ic c) (hdc : ∀ c, 0 ≤ dc c) (hrc : ∀ x y, 0 ≤ rc x y) :
    ∀ mw ∈ levenshteinSearch g q maxD ic dc rc,
      mw ∈ ws ∧ dpDist ic dc rc q mw ≤ maxD := by
  obtain ⟨hg, hun, hacc⟩ := buildDawg_spec ws g hbuild
  obtain ⟨hpw, hcl⟩ := finished_good g hg hun
  intro mw hmw
  have hmw2 : mw ∈ searchLoop ⟨q, maxD, ic, dc, rc⟩ g.heap (searchFuel g.heap)
      [([], 0, startState ⟨q, maxD, ic, dc, rc⟩)] [] [] := hmw
  have hrun := searchLoop_sound ⟨q, maxD, ic, dc, rc⟩ g.heap g.minimizedNodes hcl hpw
    (searchFuel g.heap) [([], 0, startState ⟨q, maxD, ic, dc, rc⟩)] [] []
    (by
      intro ent hent
      rw [List.mem_singleton.mp hent]
      exact ⟨Or.inl rfl, rfl, rfl⟩)
    (by intro mw2 hmw2b; cases hmw2b)
    mw hmw2
  obtain ⟨haccmw, hmatch⟩ := hrun
  constructor
  · have h2 := hacc mw
    rw [haccmw] at h2
    exact of_decide_eq_true h2.symm
  · exact isMatch_sound ⟨q, maxD, ic, dc, rc⟩ mw _ (sound_foldSteps _ mw) hmatch

theorem levenshtein_search_sound_witness :
    ['a'] ∈ [['a']] ∧
      dpDist defaultIcost defaultDcost defaultRcost ['a'] ['a'] ≤ 1 :=
  levenshtein_search_sound [['a']] ⟨[⟨false, [('a', 1)]⟩, ⟨true, []⟩], ['a'], [], [1]⟩
    ['a'] 1 defaultIcost defaultDcost defaultRcost
    (by with_unfolding_all decide)
    (fun c => by rw [defaultIcost_eq]; norm_num)
    (fun c => by rw [defaultDcost_eq]; norm_num)
    (fun x y => by
      by_cases hxy : x = y
      · rw [hxy, defaultRcost_self]
      · rw [defaultRcost_ne x y hxy]
        norm_num)
    ['a'] (by with_unfolding_all decide)

/-- C4: on a DAWG built from a dictionary of words inserted in strictly
ascending order and then finished, under the uniform unit (default) costs
and budget 0, `levenshtein_search` returns exactly the singleton `{q}` when
the query `q` is a dictionary word, and the empty set when it is not. -/
theorem search_exact_budget0 (ws : List (List Char)) (g : Dawg) (q : List Char)
    (hbuild : buildDawg ws = some g) :
    levenshteinSearch g q 0 defaultIcost defaultDcost defaultRcost =
      (if q ∈ ws then [q] else []) := by
  obtain ⟨hg, hun, hacc⟩ := buildDawg_spec ws g hbuild
  have hnil : [] ∉ ws := by
    rw [buildDawg] at hbuild
    cases hb : buildPartial ws with
    | none => rw [hb] at hbuild; cases hbuild
    | some d => exact buildPartial_no_nil ws freshDawg d hb
  have hfuel : pathLen g.heap 0 (q.drop 0) + 2 ≤ searchFuel g.heap := by
    have h1 := InvW_pathLen g hg (q.drop 0) 0
    have h2 : (chainSeq g).length = 1 := by
      simp [chainSeq, hun]
    have h3 := mins_length_le g hg
    have h4 : 1 ≤ g.heap.length := hg.hroot
    have h5 : (g.heap.length + 1) * 2
        ≤ (g.heap.length + 1) * (totalEdges g.heap + 2) :=
      Nat.mul_le_mul_left _ (by omega)
    rw [searchFuel]
    omega
  have hrun := searchLoop_budget0_run g hg hun q q.length 0 0 (searchFuel g.heap) [] []
    (by omega) rfl (Or.inl rfl)
    (by intro i ni _ _ hmem; exact List.not_mem_nil ni hmem) hfuel
  have hrun2 : searchLoop ⟨q, 0, defaultIcost, defaultDcost, defaultRcost⟩ g.heap
      (searchFuel g.heap) [([], 0, [(-1, 0)])] [] [] =
      (if 0 < q.length ∧ accepts g.heap 0 (q.drop 0) = true then addMatch [] q
       else []) := hrun
  simp only [levenshteinSearch]
  rw [startState_budget0 q, hrun2, List.drop_zero, hacc q]
  by_cases hq : q ∈ ws
  · rw [if_pos hq]
    have hq0 : 0 < q.length := by
      cases q with
      | nil => exact absurd hq hnil
      | cons c cs => simp
    rw [if_pos ⟨hq0, decide_eq_true hq⟩]
    simp [addMatch]
  · rw [if_neg hq, if_neg]
    rintro ⟨h1, h2⟩
    exact hq (of_decide_eq_true h2)

theorem search_exact_budget0_witness :
    levenshteinSearch ⟨[⟨false, [('a', 1)]⟩, ⟨true, []⟩], ['a'], [], [1]⟩ ['a'] 0
        defaultIcost defaultDcost defaultRcost =
      (if ['a'] ∈ [['a']] then [['a']] else []) :=
  search_exact_budget0 [['a']] ⟨[⟨false, [('a', 1)]⟩, ⟨true, []⟩], ['a'], [], [1]⟩ ['a']
    (by with_unfolding_all decide)

/-- C9: the graph maintained by the builder is acyclic after every
successful sequence of inserts and after `finish`: no node is reachable
from itself through one or more edges.  In particular the edge rewriting
performed during `_minimize` (replacing a child with an interned
equivalent) never introduces a cycle, because interned nodes only reach
earlier-interned nodes. -/
theorem dawg_acyclicity (ws : List (List Char)) (d : Dawg) :
    (buildPartial ws = some d → AcyclicHeap d.heap) ∧
    (buildDawg ws = some d → AcyclicHeap d.heap) := by
  constructor
  · intro h
    exact InvW_acyclic d (buildPartial_spec ws d h).1.toInvW
  · intro h
    exact InvW_acyclic d (buildDawg_spec ws d h).1

theorem dawg_acyclicity_witness :
    AcyclicHeap (Dawg.heap ⟨[⟨false, [('a', 1)]⟩, ⟨true, []⟩], ['a'], [(0, 'a', 1)], []⟩) ∧
    AcyclicHeap (Dawg.heap ⟨[⟨false, [('a', 1)]⟩, ⟨true, []⟩], ['a'], [], [1]⟩) :=
  ⟨(dawg_acyclicity [['a']]
      ⟨[⟨false, [('a', 1)]⟩, ⟨true, []⟩], ['a'], [(0, 'a', 1)], []⟩).1
      (by with_unfolding_all decide),
   (dawg_acyclicity [['a']]
      ⟨[⟨false, [('a', 1)]⟩, ⟨true, []⟩], ['a'], [], [1]⟩).2
      (by with_unfolding_all decide)⟩

end PySeqMatcher
